import Mathlib

/-!
The O2 timing-wheel scheduler (`src/o2_sched.c`)

A shallow embedding of the scheduler of `o2_sched.c` and proofs about it.

Modelling conventions.

* Times (`o2_time`, a C `double`) are exact rational numbers. Where rounding
  decides what the code does, in the one-second stepping loop and the bins of
  the pass after it, the definitions with suffix `_d` compute the sum
  `last_time + 1` and the product `time * 100` in `double` arithmetic
  (`double_round`: IEEE-754 binary64, round to nearest, ties to even).
* `int64_t` bin numbers are unbounded integers: the embedding describes the
  code for timestamps whose bin number `(int64_t)(t * 100)` is representable.
* A bucket chain (the `next`-linked list hanging off `s->table[i]`) is a
  `List o2_message`, head first.
* `find_and_call_handlers` is the external delivery collaborator. Every
  operation returns, next to the new scheduler state, the list of messages it
  handed to that collaborator, in call order. The handlers of this embedding
  do not call back into the scheduler.
* The globals `o2_active_sched` and `o2_gtsched_started` belong to the
  coordinator around the two schedulers; they are not fields of a scheduler
  record and the functions below do not read them.
* Loops are unrolled by structural recursion on a bound; `sched_scan_bins_exit`,
  `sched_dispatch_total` and `sched_dispatch_fuel_mono` show that the bounds
  used are never the reason a loop stops.
-/

/-- Modelled from the spec: the message type declared in `o2.h` (not part of
the sources at hand). Only the delivery `timestamp` is read by the scheduler;
`tag` stands for the identity of the buffer (its address). -/
structure o2_message where
  tag : Nat
  timestamp : ℚ
deriving DecidableEq

/-- Modelled from the spec: the table length `W = 128` of `o2_sched.h`
(the overview comment of `o2_sched.c` states `SCHED_TABLE_LEN == 128`). -/
abbrev O2_SCHED_TABLE_LEN : Nat := 128

/-- Modelled from the spec: the scheduler record of `o2_sched.h`, with the
three fields `o2_sched.c` uses: `table`, `last_bin` (the cursor bucket) and
`last_time` (the horizon). -/
structure o2_sched where
  table : Fin O2_SCHED_TABLE_LEN → List o2_message
  last_bin : Int
  last_time : ℚ

/-- The C conversion `(int64_t) x` of a number: truncation toward zero. -/
def to_int64 (x : ℚ) : Int :=
  if 0 ≤ x then ⌊x⌋ else ⌈x⌉

/-- The macro `SCHED_BIN(time)`, that is `(int64_t) (time * 100)`. -/
def SCHED_BIN (time : ℚ) : Int :=
  to_int64 (time * 100)

/-- The macro `SCHED_BIN_TO_INDEX(b)`, that is `b & (O2_SCHED_TABLE_LEN - 1)`
on two's-complement integers. -/
def SCHED_BIN_TO_INDEX (b : Int) : Int :=
  Int.land b ((O2_SCHED_TABLE_LEN : Int) - 1)

/-- The macro `SCHED_INDEX(t)`. -/
def SCHED_INDEX (t : ℚ) : Int :=
  SCHED_BIN_TO_INDEX (SCHED_BIN t)

/-- The cell `s->table[i]` addressed by a computed index `i`. For `i` in
`0..127` this is cell `i` itself (`table_cell_val`). -/
def table_cell (i : Int) : Fin O2_SCHED_TABLE_LEN :=
  ⟨i.toNat % O2_SCHED_TABLE_LEN, Nat.mod_lt _ (by decide)⟩

/-- The function `o2_start_a_scheduler(s, start_time)`: `memset` of the table,
then `last_bin` and `last_time` are set from `start_time`. The old contents of
`s` are not read. -/
def o2_start_a_scheduler (_s : o2_sched) (start_time : ℚ) : o2_sched :=
  { table := fun _ => []
    last_bin := SCHED_BIN start_time
    last_time := start_time }

/-- The insertion loop of `o2_schedule` (lines 126-132): walk past every entry
with `timestamp <= m_t`, then link `m` in front of the rest. -/
def sched_insert (m : o2_message) : List o2_message → List o2_message
  | [] => [m]
  | x :: rest =>
    if x.timestamp ≤ m.timestamp then x :: sched_insert m rest
    else m :: x :: rest

/-- The function `o2_schedule(s, m)`. The second component lists the calls of
`find_and_call_handlers` it made. -/
def o2_schedule (s : o2_sched) (m : o2_message) : o2_sched × List o2_message :=
  if m.timestamp < s.last_time then
    (s, [m])
  else
    let index := table_cell (SCHED_INDEX m.timestamp)
    ({ s with table := Function.update s.table index (sched_insert m (s.table index)) }, [])

/-- The inner loop of `sched_dispatch` (lines 175-185) on one chain: unlink and
deliver the head while its timestamp is `<= run_until_time`. Returns the chain
that is left and the messages delivered, in order. -/
def sched_pop_due (run_until_time : ℚ) : List o2_message → List o2_message × List o2_message
  | [] => ([], [])
  | m :: rest =>
    if m.timestamp ≤ run_until_time then
      ((sched_pop_due run_until_time rest).1, m :: (sched_pop_due run_until_time rest).2)
    else (m :: rest, [])

/-- One iteration of the outer loop of `sched_dispatch` (lines 174-186): empty
the due front of the chain at `last_bin`, then `last_bin++`. -/
def sched_dispatch_bin (s : o2_sched) (run_until_time : ℚ) : o2_sched × List o2_message :=
  let index := table_cell (SCHED_BIN_TO_INDEX s.last_bin)
  let r := sched_pop_due run_until_time (s.table index)
  ({ s with table := Function.update s.table index r.1, last_bin := s.last_bin + 1 }, r.2)

/-- The loop `while (s->last_bin <= bin) ...` of `sched_dispatch` (line 173),
unrolled at most `n` times. -/
def sched_scan_bins : Nat → o2_sched → ℚ → Int → o2_sched × List o2_message
  | 0, s, _, _ => (s, [])
  | n + 1, s, run_until_time, bin =>
    if s.last_bin ≤ bin then
      let r1 := sched_dispatch_bin s run_until_time
      let r2 := sched_scan_bins n r1.1 run_until_time bin
      (r2.1, r1.2 ++ r2.2)
    else (s, [])

/-- Lines 170-189 of `sched_dispatch`: the part after the one-second stepping
loop. The scan loop runs `bin + 1 - last_bin` times (`last_bin` grows by one in
each iteration), then `last_bin--` and `last_time = run_until_time`. -/
def sched_dispatch_scan (s : o2_sched) (run_until_time : ℚ) : o2_sched × List o2_message :=
  let bin := SCHED_BIN run_until_time
  let r := sched_scan_bins (bin + 1 - s.last_bin).toNat s run_until_time bin
  ({ r.1 with last_bin := r.1.last_bin - 1, last_time := run_until_time }, r.2)

/-- The function `sched_dispatch(s, run_until_time)` with a bound on the number
of nested activations. While `last_time + 1 < run_until_time` the function
calls itself with target `last_time + 1` and tests again (the second recursive
call below is the jump back to the loop test of line 167); otherwise it runs
lines 170-189. `none` means the bound was too small. -/
def sched_dispatch_fuel : Nat → o2_sched → ℚ → Option (o2_sched × List o2_message)
  | 0, _, _ => none
  | fuel + 1, s, run_until_time =>
    if s.last_time + 1 < run_until_time then
      match sched_dispatch_fuel fuel s (s.last_time + 1) with
      | none => none
      | some r1 =>
        match sched_dispatch_fuel fuel r1.1 run_until_time with
        | none => none
        | some r2 => some (r2.1, r1.2 ++ r2.2)
    else some (sched_dispatch_scan s run_until_time)

/-- A bound that is always enough for `sched_dispatch_fuel`
(`sched_dispatch_total`). -/
def sched_dispatch_bound (s : o2_sched) (run_until_time : ℚ) : Nat :=
  (⌈run_until_time - s.last_time⌉).toNat + 1

/-- The function `sched_dispatch(s, run_until_time)`. -/
def sched_dispatch (s : o2_sched) (run_until_time : ℚ) : Option (o2_sched × List o2_message) :=
  sched_dispatch_fuel (sched_dispatch_bound s run_until_time) s run_until_time

/-- A call made on a scheduler by its host. -/
inductive sched_call where
  | schedule (m : o2_message)
  | dispatch (run_until_time : ℚ)
deriving DecidableEq

/-- Perform one call; the result lists the deliveries it made. -/
def apply_call (s : o2_sched) : sched_call → Option (o2_sched × List o2_message)
  | .schedule m => some (o2_schedule s m)
  | .dispatch t => sched_dispatch s t

/-- Perform a sequence of calls, collecting all deliveries in order. -/
def run_calls : o2_sched → List sched_call → Option (o2_sched × List o2_message)
  | s, [] => some (s, [])
  | s, c :: cs =>
    match apply_call s c with
    | none => none
    | some r1 =>
      match run_calls r1.1 cs with
      | none => none
      | some r2 => some (r2.1, r1.2 ++ r2.2)

/-- The messages passed to `o2_schedule` by a sequence of calls, in order. -/
def scheduled_of : List sched_call → List o2_message
  | [] => []
  | .schedule m :: cs => m :: scheduled_of cs
  | .dispatch _ :: cs => scheduled_of cs

/-- The targets passed to `sched_dispatch` by a sequence of calls, in order. -/
def targets_of : List sched_call → List ℚ
  | [] => []
  | .schedule _ :: cs => targets_of cs
  | .dispatch t :: cs => t :: targets_of cs

/-- All messages linked in the table, bucket by bucket. -/
def linked (s : o2_sched) : List o2_message :=
  (List.finRange O2_SCHED_TABLE_LEN).flatMap s.table

/-- Chain order: non-decreasing timestamps. -/
def ts_le (a b : o2_message) : Prop := a.timestamp ≤ b.timestamp

instance : DecidableRel ts_le := fun a b => inferInstanceAs (Decidable (a.timestamp ≤ b.timestamp))

/-- The scenario of the spec: four messages at 0.05, 0.05, 0.12 and 2.5. -/
def scenario_msgs : List o2_message :=
  [⟨1, 1/20⟩, ⟨2, 1/20⟩, ⟨3, 3/25⟩, ⟨4, 5/2⟩]

/-- An arbitrary scheduler record to be started. -/
def blank_sched : o2_sched :=
  { table := fun _ => [], last_bin := 0, last_time := 0 }

/-- Every bucket chain is sorted by non-decreasing timestamp. -/
def chains_sorted (s : o2_sched) : Prop :=
  ∀ i, (s.table i).Sorted ts_le

/-- Every linked message sits in the cell `SCHED_INDEX` of its timestamp. -/
def chains_placed (s : o2_sched) : Prop :=
  ∀ i, ∀ m ∈ s.table i, table_cell (SCHED_INDEX m.timestamp) = i

/-- The invariant of a scheduler polled monotonically: the cursor is the bin of
the horizon, chains are sorted and correctly placed, nothing linked is older
than the horizon. -/
def sched_inv (s : o2_sched) : Prop :=
  s.last_bin = SCHED_BIN s.last_time ∧ chains_sorted s ∧ chains_placed s ∧
    ∀ i, ∀ m ∈ s.table i, s.last_time ≤ m.timestamp

/-- Ghost relation between the table and the list `hist` of all messages
scheduled so far, in scheduling order: linked messages of equal timestamp are
linked in scheduling order. -/
def hist_ok (hist : List o2_message) (s : o2_sched) : Prop :=
  ∀ i t, ((s.table i).filter (fun m => m.timestamp = t)).Sublist hist

/-- The bucket index as the spec words it: `floor(timestamp * 100) mod 128`,
with the mathematical floor and the non-negative remainder. -/
def spec_bucket (t : ℚ) : Int :=
  ⌊t * 100⌋ % 128

/-- What every call `sched_dispatch(s, T)` with result `r` satisfies, whatever
the state: the horizon becomes `T`, chains only lose messages, only messages
with timestamp `<= T` are delivered, the part of every chain later than `T` is
untouched, and every message lost by the table is delivered. -/
def dispatch_frame (s : o2_sched) (T : ℚ) (r : o2_sched × List o2_message) : Prop :=
  r.1.last_time = T ∧
  (∀ i, (r.1.table i).Sublist (s.table i)) ∧
  (∀ m ∈ r.2, m.timestamp ≤ T) ∧
  (∀ i, (r.1.table i).filter (fun m => T < m.timestamp)
    = (s.table i).filter (fun m => T < m.timestamp)) ∧
  (∀ a, (linked r.1).count a + r.2.count a = (linked s).count a)

/-- What a call `sched_dispatch(s, T)` with result `r` satisfies on a state
with the invariant and a target not before the horizon. -/
def dispatch_post (s : o2_sched) (T : ℚ) (r : o2_sched × List o2_message) : Prop :=
  sched_inv r.1 ∧
  (∀ i, ∀ m ∈ r.1.table i, T < m.timestamp) ∧
  r.2.Sorted ts_le ∧
  (∀ t, ∃ i, (r.2.filter (fun m => m.timestamp = t)).Sublist (s.table i))

/-- The messages delivered by the call `sched_dispatch(s, T)` made right after
the calls `calls`. -/
def dispatch_after (s : o2_sched) (calls : List sched_call) (T : ℚ) :
    Option (List o2_message) :=
  match run_calls s calls with
  | none => none
  | some r =>
    match sched_dispatch r.1 T with
    | none => none
    | some r2 => some r2.2

/-- Every `o2_schedule` call of the sequence is made on a message that is not
linked in the table at the time of the call. -/
def calls_fresh : o2_sched → List sched_call → Prop
  | _, [] => True
  | s, .schedule m :: cs => m ∉ linked s ∧ calls_fresh (o2_schedule s m).1 cs
  | s, .dispatch t :: cs =>
    match sched_dispatch s t with
    | none => True
    | some r => calls_fresh r.1 cs

/-- The scenario calls: the four messages are scheduled in order. -/
def scenario_calls : List sched_call :=
  scenario_msgs.map sched_call.schedule

/-- A scheduler started at time -1. -/
def negative_sched : o2_sched :=
  o2_start_a_scheduler blank_sched (-1)

/-- A scheduler started at time 1. -/
def late_sched : o2_sched :=
  o2_start_a_scheduler blank_sched 1

/-- The 64-bit two's-complement pattern of an integer. -/
def int64_bits (b : Int) : Nat :=
  (b % 2 ^ 64).toNat

/-- The integer denoted by a 64-bit two's-complement pattern. -/
def int64_of_bits (u : Nat) : Int :=
  if u < 2 ^ 63 then (u : Int) else (u : Int) - 2 ^ 64

/-- The C operator `&` on two `int64_t` values. -/
def int64_and (a b : Int) : Int :=
  int64_of_bits (int64_bits a &&& int64_bits b)

/-- Modelled from the spec: a message buffer as the Message Pool of section 4.1
sees it (the pool's code, `o2_message.c`, is not part of the sources at hand):
the `capacity` of its payload region, the `length` written so far, and the byte
stored at each offset of the payload region. -/
structure o2_message_buffer where
  capacity : Nat
  length : Nat
  payload : Nat → Nat

/-- Modelled from the spec: the function `alloc_bigger_message(msg, needed)`,
of which only the declaration in `o2_message.h` is at hand. Following section
4.1 (`grow`): the result is the same logical message, possibly in new storage,
with capacity at least `needed`, the bytes written so far are preserved and
so is the written length; bytes of new storage beyond the written length are
fresh (0 here). Failure to obtain memory is not modelled. -/
def alloc_bigger_message (msg : o2_message_buffer) (needed : Int) : o2_message_buffer :=
  { capacity := max msg.capacity needed.toNat
    length := msg.length
    payload := fun i => if i < msg.length then msg.payload i else 0 }

/-- The two schedulers of `o2_sched.c` (line 62). -/
inductive sched_id where
  | gtsched
  | ltsched
deriving DecidableEq

/-- The globals of `o2_sched.c` (lines 62-64): the two schedulers, the marker
`o2_active_sched` (which scheduler it points to) and the flag
`o2_gtsched_started`. -/
structure o2_state where
  o2_gtsched : o2_sched
  o2_ltsched : o2_sched
  o2_active_sched : sched_id
  o2_gtsched_started : Bool

/-- One call of `find_and_call_handlers(m)`: the message, and the value of
`o2_active_sched` at the time of the call. -/
structure delivery where
  active : sched_id
  msg : o2_message
deriving DecidableEq

/-- The scheduler `*s` for `s` one of `&o2_gtsched`, `&o2_ltsched`. -/
def get_sched (w : o2_state) : sched_id → o2_sched
  | .gtsched => w.o2_gtsched
  | .ltsched => w.o2_ltsched

/-- Assignment to the scheduler `*s`. -/
def set_sched (w : o2_state) (id : sched_id) (s : o2_sched) : o2_state :=
  match id with
  | .gtsched => { w with o2_gtsched := s }
  | .ltsched => { w with o2_ltsched := s }

/-- The function `o2_start_a_scheduler(s, start_time)` on the globals (lines
81-89): besides resetting `*s` it sets `o2_gtsched_started` when `s` is
`&o2_gtsched`. -/
def o2_start_a_scheduler_w (w : o2_state) (id : sched_id) (start_time : ℚ) : o2_state :=
  let w1 := set_sched w id (o2_start_a_scheduler (get_sched w id) start_time)
  if id = sched_id.gtsched then { w1 with o2_gtsched_started := true } else w1

/-- The function `o2_sched_init()` (lines 91-96); `local_time` is the value
returned by the external `o2_local_time()`. -/
def o2_sched_init (w : o2_state) (local_time : ℚ) : o2_state :=
  { o2_start_a_scheduler_w w sched_id.ltsched local_time with o2_gtsched_started := false }

/-- The inner loop of `sched_dispatch` (lines 175-185) with the globals: each
due head is unlinked, `o2_active_sched = s` is executed (line 179), then
`find_and_call_handlers` is called (line 184) and recorded with the marker as
it is at that moment. Returns the globals, the chain left, the deliveries. -/
def sched_pop_due_w (id : sched_id) (run_until_time : ℚ) :
    o2_state → List o2_message → o2_state × List o2_message × List delivery
  | w, [] => (w, [], [])
  | w, m :: rest =>
    if m.timestamp ≤ run_until_time then
      let w1 := { w with o2_active_sched := id }
      let r := sched_pop_due_w id run_until_time w1 rest
      (r.1, r.2.1, ⟨w1.o2_active_sched, m⟩ :: r.2.2)
    else (w, m :: rest, [])

/-- One iteration of the outer loop of `sched_dispatch` with the globals. -/
def sched_dispatch_bin_w (w : o2_state) (id : sched_id) (run_until_time : ℚ) :
    o2_state × List delivery :=
  let s := get_sched w id
  let index := table_cell (SCHED_BIN_TO_INDEX s.last_bin)
  let r := sched_pop_due_w id run_until_time w (s.table index)
  (set_sched r.1 id { s with table := Function.update s.table index r.2.1,
                             last_bin := s.last_bin + 1 }, r.2.2)

/-- The loop of line 173 with the globals, unrolled at most `n` times. -/
def sched_scan_bins_w (id : sched_id) : Nat → o2_state → ℚ → Int → o2_state × List delivery
  | 0, w, _, _ => (w, [])
  | n + 1, w, run_until_time, bin =>
    if (get_sched w id).last_bin ≤ bin then
      let r1 := sched_dispatch_bin_w w id run_until_time
      let r2 := sched_scan_bins_w id n r1.1 run_until_time bin
      (r2.1, r1.2 ++ r2.2)
    else (w, [])

/-- Lines 170-189 of `sched_dispatch` with the globals. -/
def sched_dispatch_scan_w (w : o2_state) (id : sched_id) (run_until_time : ℚ) :
    o2_state × List delivery :=
  let bin := SCHED_BIN run_until_time
  let r := sched_scan_bins_w id (bin + 1 - (get_sched w id).last_bin).toNat w run_until_time bin
  let s := get_sched r.1 id
  (set_sched r.1 id { s with last_bin := s.last_bin - 1, last_time := run_until_time }, r.2)

/-- The function `sched_dispatch(s, run_until_time)` with the globals and a
bound on the nesting, as `sched_dispatch_fuel`. -/
def sched_dispatch_fuel_w (id : sched_id) : Nat → o2_state → ℚ → Option (o2_state × List delivery)
  | 0, _, _ => none
  | fuel + 1, w, run_until_time =>
    if (get_sched w id).last_time + 1 < run_until_time then
      match sched_dispatch_fuel_w id fuel w ((get_sched w id).last_time + 1) with
      | none => none
      | some r1 =>
        match sched_dispatch_fuel_w id fuel r1.1 run_until_time with
        | none => none
        | some r2 => some (r2.1, r1.2 ++ r2.2)
    else some (sched_dispatch_scan_w w id run_until_time)

/-- The function `sched_dispatch(s, run_until_time)` with the globals. -/
def sched_dispatch_w (w : o2_state) (id : sched_id) (run_until_time : ℚ) :
    Option (o2_state × List delivery) :=
  sched_dispatch_fuel_w id (sched_dispatch_bound (get_sched w id) run_until_time) w run_until_time

/-- The function `o2_sched_poll()` (lines 194-204). `local_now` is the value
returned by the external `o2_local_time()`, and `o2_local_to_global` the
external clock conversion. -/
def o2_sched_poll (w : o2_state) (local_now : ℚ) (o2_local_to_global : ℚ → ℚ) :
    Option (o2_state × List delivery) :=
  match sched_dispatch_w w sched_id.ltsched local_now with
  | none => none
  | some r1 =>
    if r1.1.o2_gtsched_started then
      match sched_dispatch_w r1.1 sched_id.gtsched (o2_local_to_global local_now) with
      | none => none
      | some r2 => some (r2.1, r1.2 ++ r2.2)
    else some r1

/-- The globals after a plain `sched_dispatch` on `*s` that returned `r`: the
scheduler is replaced, and the marker points to `s` when something was
delivered. -/
def after_dispatch (w : o2_state) (id : sched_id) (r : o2_sched × List o2_message) : o2_state :=
  { set_sched w id r.1 with
    o2_active_sched := if r.2 = [] then w.o2_active_sched else id }

/-- Globals used in examples: the local scheduler started at 0 holds the four
scenario messages, the global scheduler holds a message for 0.05 and has not
been started. -/
def example_state : o2_state :=
  { o2_gtsched := (o2_schedule blank_sched ⟨9, 1/20⟩).1
    o2_ltsched := (o2_schedule (o2_schedule (o2_schedule (o2_schedule
      (o2_start_a_scheduler blank_sched 0) ⟨1, 1/20⟩).1 ⟨2, 1/20⟩).1 ⟨3, 3/25⟩).1 ⟨4, 5/2⟩).1
    o2_active_sched := sched_id.gtsched
    o2_gtsched_started := false }

/-- Lines 123-132 of `o2_schedule`: the branch that links `m` into its chain. -/
def sched_link (s : o2_sched) (m : o2_message) : o2_sched :=
  let index := table_cell (SCHED_INDEX m.timestamp)
  { s with table := Function.update s.table index (sched_insert m (s.table index)) }

/-- Link the messages of a list, in order. -/
def link_all (s : o2_sched) (l : List o2_message) : o2_sched :=
  l.foldl sched_link s

/-- The calls `o2_schedule(s, m)` for the messages `m` of `todo`, in order, when
delivery handlers call back into the scheduler: `h m` lists the messages that
the handlers of `m` pass to `o2_schedule` on the active scheduler `s` while
`find_and_call_handlers(m)` runs. A message older than `last_time` is delivered
on the spot (line 120), so the calls made by its handlers are performed before
the remaining ones; any other message is linked. `none`: the bound on the
number of calls was too small. -/
def o2_schedule_all (h : o2_message → List o2_message) :
    Nat → o2_sched → List o2_message → Option (o2_sched × List o2_message)
  | 0, _, _ => none
  | _ + 1, s, [] => some (s, [])
  | fuel + 1, s, m :: todo =>
    if m.timestamp < s.last_time then
      match o2_schedule_all h fuel s (h m ++ todo) with
      | none => none
      | some r => some (r.1, m :: r.2)
    else o2_schedule_all h fuel (sched_link s m) todo

/-- The inner loop of `sched_dispatch` (lines 175-185) with handlers that call
back: the head of `table[index]` is read anew in every iteration; a due head
`m` is unlinked, `find_and_call_handlers(m)` runs (the handlers schedule the
messages `h m` on this scheduler), and the loop goes on with the table as the
handlers left it. -/
def sched_pop_due_h (h : o2_message → List o2_message) :
    Nat → o2_sched → Fin O2_SCHED_TABLE_LEN → ℚ → Option (o2_sched × List o2_message)
  | 0, _, _, _ => none
  | fuel + 1, s, index, run_until_time =>
    match s.table index with
    | [] => some (s, [])
    | m :: rest =>
      if m.timestamp ≤ run_until_time then
        match o2_schedule_all h fuel { s with table := Function.update s.table index rest }
            (h m) with
        | none => none
        | some r1 =>
          match sched_pop_due_h h fuel r1.1 index run_until_time with
          | none => none
          | some r2 => some (r2.1, m :: r1.2 ++ r2.2)
      else some (s, [])

/-- One iteration of the outer loop of `sched_dispatch` with handlers that call
back. -/
def sched_dispatch_bin_h (h : o2_message → List o2_message) (fuel : Nat) (s : o2_sched)
    (run_until_time : ℚ) : Option (o2_sched × List o2_message) :=
  match sched_pop_due_h h fuel s (table_cell (SCHED_BIN_TO_INDEX s.last_bin)) run_until_time with
  | none => none
  | some r => some ({ r.1 with last_bin := r.1.last_bin + 1 }, r.2)

/-- The loop of line 173 with handlers that call back, unrolled at most `n`
times. -/
def sched_scan_bins_h (h : o2_message → List o2_message) (fuel : Nat) :
    Nat → o2_sched → ℚ → Int → Option (o2_sched × List o2_message)
  | 0, s, _, _ => some (s, [])
  | n + 1, s, run_until_time, bin =>
    if s.last_bin ≤ bin then
      match sched_dispatch_bin_h h fuel s run_until_time with
      | none => none
      | some r1 =>
        match sched_scan_bins_h h fuel n r1.1 run_until_time bin with
        | none => none
        | some r2 => some (r2.1, r1.2 ++ r2.2)
    else some (s, [])

/-- Lines 170-189 of `sched_dispatch` with handlers that call back. -/
def sched_dispatch_scan_h (h : o2_message → List o2_message) (fuel : Nat) (s : o2_sched)
    (run_until_time : ℚ) : Option (o2_sched × List o2_message) :=
  match sched_scan_bins_h h fuel (SCHED_BIN run_until_time + 1 - s.last_bin).toNat s
      run_until_time (SCHED_BIN run_until_time) with
  | none => none
  | some r => some ({ r.1 with last_bin := r.1.last_bin - 1, last_time := run_until_time }, r.2)

/-- The function `sched_dispatch(s, run_until_time)` with handlers that call
back into `o2_schedule` on the same scheduler. The result lists all calls of
`find_and_call_handlers`, those made by `o2_schedule` included. `none`: the
bound was too small (with such handlers a call need not return). -/
def sched_dispatch_h (h : o2_message → List o2_message) :
    Nat → o2_sched → ℚ → Option (o2_sched × List o2_message)
  | 0, _, _ => none
  | fuel + 1, s, run_until_time =>
    if s.last_time + 1 < run_until_time then
      match sched_dispatch_h h fuel s (s.last_time + 1) with
      | none => none
      | some r1 =>
        match sched_dispatch_h h fuel r1.1 run_until_time with
        | none => none
        | some r2 => some (r2.1, r1.2 ++ r2.2)
    else sched_dispatch_scan_h h fuel s run_until_time

/-- A handler that, on delivery of the message with tag 1, schedules a message
for time 0.1, and otherwise schedules nothing. -/
def past_handler (m : o2_message) : List o2_message :=
  if m.tag = 1 then [⟨2, 1/10⟩] else []

/-- A handler that, on delivery of the message with tag 1, schedules a message
for time 1, and otherwise schedules nothing. -/
def future_handler (m : o2_message) : List o2_message :=
  if m.tag = 1 then [⟨2, 1⟩] else []

/-- A scheduler started at 0 that holds one message, with tag 1, for 0.3. -/
def one_message_sched : o2_sched :=
  (o2_schedule (o2_start_a_scheduler blank_sched 0) ⟨1, 3/10⟩).1

/-- The inner loop of `sched_dispatch` on the chain of one cell of the table,
without handlers that call back: the scheduler with the due front of that chain
removed, and the messages delivered. -/
def sched_pop_cell (s : o2_sched) (index : Fin O2_SCHED_TABLE_LEN) (run_until_time : ℚ) :
    o2_sched × List o2_message :=
  let r := sched_pop_due run_until_time (s.table index)
  ({ s with table := Function.update s.table index r.1 }, r.2)

/-- Every message that a handler schedules is for a time after `T`. -/
def handlers_after (h : o2_message → List o2_message) (T : ℚ) : Prop :=
  ∀ m, ∀ m2 ∈ h m, T < m2.timestamp

/-- The integer nearest to `q`, the even one of the two nearest when `q` lies
half-way between them (IEEE-754 `roundTiesToEven`). -/
def round_half_even (q : ℚ) : Int :=
  if q - ⌊q⌋ < 1/2 then ⌊q⌋
  else if 1/2 < q - ⌊q⌋ then ⌊q⌋ + 1
  else if ⌊q⌋ % 2 = 0 then ⌊q⌋ else ⌊q⌋ + 1

/-- The binary exponent that fixes the spacing of the C `double` values
(IEEE-754 binary64) around `x`: `floor(log2 |x|)`, and `-1022` in the
subnormal range and at zero. -/
def double_exponent (x : ℚ) : Int :=
  if x = 0 then -1022 else max (Int.log 2 |x|) (-1022)

/-- The distance between neighbouring `double` values around `x`: 52 fraction
bits below the exponent. -/
def double_ulp (x : ℚ) : ℚ :=
  (2 : ℚ) ^ (double_exponent x - 52)

/-- The `double` that C arithmetic yields for the exact result `x`: the nearest
multiple of `double_ulp x`, ties to even. (This is the IEEE-754 value for
`|x| < 2^1024`; beyond that the machine yields an infinity.) -/
def double_round (x : ℚ) : ℚ :=
  (round_half_even (x / double_ulp x) : ℚ) * double_ulp x

/-- The macro `SCHED_BIN(time)` with the product `time * 100` computed in
`double`, as the machine computes it. -/
def SCHED_BIN_d (time : ℚ) : Int :=
  to_int64 (double_round (time * 100))

/-- A number that is a `double`: rounding leaves it as it is. -/
def is_double (x : ℚ) : Prop :=
  double_round x = x

instance (x : ℚ) : Decidable (is_double x) :=
  inferInstanceAs (Decidable (double_round x = x))

/-- The function `o2_start_a_scheduler(s, start_time)` with `SCHED_BIN`
computed in `double`. -/
def o2_start_a_scheduler_d (_s : o2_sched) (start_time : ℚ) : o2_sched :=
  { table := fun _ => []
    last_bin := SCHED_BIN_d start_time
    last_time := start_time }

/-- Lines 170-189 of `sched_dispatch` with `SCHED_BIN` computed in `double`:
the scan loop, then `last_bin--` and `last_time = run_until_time`. -/
def sched_dispatch_scan_d (s : o2_sched) (run_until_time : ℚ) : o2_sched × List o2_message :=
  let bin := SCHED_BIN_d run_until_time
  let r := sched_scan_bins (bin + 1 - s.last_bin).toNat s run_until_time bin
  ({ r.1 with last_bin := r.1.last_bin - 1, last_time := run_until_time }, r.2)

/-- The function `sched_dispatch(s, run_until_time)` in `double` arithmetic,
with a bound on the number of nested activations: the loop test of line 167
compares the rounded sum `last_time + 1` with `run_until_time`, and that
rounded sum is the target of the sub-dispatch. `none` means the bound was too
small. -/
def sched_dispatch_fuel_d : Nat → o2_sched → ℚ → Option (o2_sched × List o2_message)
  | 0, _, _ => none
  | fuel + 1, s, run_until_time =>
    if double_round (s.last_time + 1) < run_until_time then
      match sched_dispatch_fuel_d fuel s (double_round (s.last_time + 1)) with
      | none => none
      | some r1 =>
        match sched_dispatch_fuel_d fuel r1.1 run_until_time with
        | none => none
        | some r2 => some (r2.1, r1.2 ++ r2.2)
    else some (sched_dispatch_scan_d s run_until_time)

/-- The loop of lines 167-169 of `sched_dispatch` on its own, in `double`
arithmetic: while `last_time + 1 < run_until_time`, call
`sched_dispatch(s, last_time + 1)`. Returns the state when the loop is left
and, for each sub-dispatch made, the list of its deliveries. `none` means the
bound was too small. -/
def sched_dispatch_steps_d : Nat → o2_sched → ℚ → Option (o2_sched × List (List o2_message))
  | 0, _, _ => none
  | fuel + 1, s, run_until_time =>
    if double_round (s.last_time + 1) < run_until_time then
      match sched_dispatch_fuel_d fuel s (double_round (s.last_time + 1)) with
      | none => none
      | some r1 =>
        match sched_dispatch_steps_d fuel r1.1 run_until_time with
        | none => none
        | some r2 => some (r2.1, r1.2 :: r2.2)
    else some (s, [])

/-- A bound that is enough for `sched_dispatch_fuel_d` on times of magnitude at
most `2^52`, where every pass of the stepping loop advances `last_time` by at
least one half. -/
def sched_dispatch_bound_d (s : o2_sched) (run_until_time : ℚ) : Nat :=
  (⌈2 * (run_until_time - s.last_time)⌉).toNat + 1

/-- The function `sched_dispatch(s, run_until_time)` in `double` arithmetic. -/
def sched_dispatch_d (s : o2_sched) (run_until_time : ℚ) :
    Option (o2_sched × List o2_message) :=
  sched_dispatch_fuel_d (sched_dispatch_bound_d s run_until_time) s run_until_time

/-- A scheduler started at 0.29, in `double` arithmetic. -/
def sched_029 : o2_sched :=
  o2_start_a_scheduler_d blank_sched (double_round (29/100))

/-- A scheduler started at `2^53`, in `double` arithmetic. -/
def sched_2_53 : o2_sched :=
  o2_start_a_scheduler_d blank_sched (2 ^ 53)

/-- A scheduler started at `3 * 2^50`, in `double` arithmetic. -/
def sched_3_2_50 : o2_sched :=
  o2_start_a_scheduler_d blank_sched (3 * 2 ^ 50)

/-! ## Arithmetic of bins and table indices -/

theorem ldiff_mask (n : Nat) : Nat.ldiff 127 n = 127 - n % 128 := by
  apply Nat.eq_of_testBit_eq
  intro k
  have h1 : (127 : Nat) = 2 ^ 7 - 1 := by norm_num
  have h2 : 127 - n % 128 = 2 ^ 7 - (n % 2 ^ 7 + 1) := by norm_num; omega
  rw [Nat.testBit_ldiff, h2, Nat.testBit_two_pow_sub_succ (Nat.mod_lt _ (by norm_num)), h1,
    Nat.testBit_two_pow_sub_one, Nat.testBit_mod_two_pow]
  by_cases hk : k < 7 <;> simp [hk]

theorem land_mask (b : Int) : Int.land b 127 = b % 128 := by
  cases b with
  | ofNat n =>
    show ((n &&& 127 : Nat) : Int) = _
    have := Nat.and_pow_two_sub_one_eq_mod n 7
    norm_num at this
    rw [this]; rfl
  | negSucc n =>
    show ((Nat.ldiff 127 n : Nat) : Int) = _
    rw [ldiff_mask, Int.negSucc_emod _ (by norm_num)]
    omega

theorem SCHED_BIN_TO_INDEX_eq (b : Int) : SCHED_BIN_TO_INDEX b = b % 128 := by
  unfold SCHED_BIN_TO_INDEX
  exact land_mask b

theorem table_cell_val (i : Int) (h0 : 0 ≤ i) (h1 : i < 128) : ((table_cell i).val : Int) = i := by
  show ((i.toNat % 128 : Nat) : Int) = i
  omega

theorem table_cell_bin_val (b : Int) : ((table_cell (SCHED_BIN_TO_INDEX b)).val : Int) = b % 128 := by
  rw [SCHED_BIN_TO_INDEX_eq]
  exact table_cell_val _ (Int.emod_nonneg _ (by norm_num)) (Int.emod_lt_of_pos _ (by norm_num))

/-- Two bin numbers less than a table length apart that share a cell are equal. -/
theorem bin_eq_of_cell_eq {a b : Int}
    (h : table_cell (SCHED_BIN_TO_INDEX a) = table_cell (SCHED_BIN_TO_INDEX b))
    (h1 : a < b + 128) (h2 : b < a + 128) : a = b := by
  have ha := table_cell_bin_val a
  have hb := table_cell_bin_val b
  rw [h] at ha
  omega

theorem to_int64_mono {x y : ℚ} (h : x ≤ y) : to_int64 x ≤ to_int64 y := by
  unfold to_int64
  split_ifs with hx hy hy
  · exact Int.floor_mono h
  · exact absurd (le_trans hx h) hy
  · have h1 : ⌈x⌉ ≤ 0 := Int.ceil_le.mpr (by push_cast; linarith)
    have h2 : (0 : Int) ≤ ⌊y⌋ := Int.floor_nonneg.mpr hy
    omega
  · exact Int.ceil_mono h

theorem to_int64_add_hundred (x : ℚ) : to_int64 (x + 100) ≤ to_int64 x + 100 := by
  unfold to_int64
  have hf : ⌊x + 100⌋ = ⌊x⌋ + 100 := by
    have := Int.floor_add_int x 100
    push_cast at this
    exact this
  have hc : ⌈x + 100⌉ = ⌈x⌉ + 100 := by
    have := Int.ceil_add_int x 100
    push_cast at this
    exact this
  have hfc : ⌊x⌋ ≤ ⌈x⌉ := Int.floor_le_ceil x
  split_ifs with h1 h2 h2
  · omega
  · omega
  · exfalso; linarith
  · omega

theorem SCHED_BIN_mono {t u : ℚ} (h : t ≤ u) : SCHED_BIN t ≤ SCHED_BIN u := by
  unfold SCHED_BIN
  exact to_int64_mono (by linarith)

theorem SCHED_BIN_step {t u : ℚ} (h : u ≤ t + 1) : SCHED_BIN u ≤ SCHED_BIN t + 100 := by
  have h1 : SCHED_BIN u ≤ SCHED_BIN (t + 1) := SCHED_BIN_mono h
  have h2 : SCHED_BIN (t + 1) ≤ SCHED_BIN t + 100 := by
    unfold SCHED_BIN
    have : (t + 1) * 100 = t * 100 + 100 := by ring
    rw [this]
    exact to_int64_add_hundred _
  omega

theorem lt_of_SCHED_BIN_lt {t u : ℚ} (h : SCHED_BIN t < SCHED_BIN u) : t < u := by
  by_contra hc
  have := SCHED_BIN_mono (not_lt.mp hc)
  omega

/-! ## Chains: popping the due front and sorted insertion -/

theorem sched_pop_due_append (T : ℚ) (l : List o2_message) :
    (sched_pop_due T l).2 ++ (sched_pop_due T l).1 = l := by
  induction l with
  | nil => rfl
  | cons m rest ih =>
    unfold sched_pop_due
    split_ifs with h
    · simp [ih]
    · simp

theorem sched_pop_due_delivered_le (T : ℚ) (l : List o2_message) :
    ∀ m ∈ (sched_pop_due T l).2, m.timestamp ≤ T := by
  induction l with
  | nil => intro m hm; simp [sched_pop_due] at hm
  | cons x rest ih =>
    intro m hm
    unfold sched_pop_due at hm
    split_ifs at hm with h
    · simp only [List.mem_cons] at hm
      rcases hm with rfl | hm
      · exact h
      · exact ih m hm
    · simp at hm

theorem sched_pop_due_rest_sublist (T : ℚ) (l : List o2_message) :
    (sched_pop_due T l).1.Sublist l := by
  have h : (sched_pop_due T l).1.Sublist ((sched_pop_due T l).2 ++ (sched_pop_due T l).1) :=
    List.sublist_append_right _ _
  rwa [sched_pop_due_append] at h

theorem sched_pop_due_delivered_sublist (T : ℚ) (l : List o2_message) :
    (sched_pop_due T l).2.Sublist l := by
  have h : (sched_pop_due T l).2.Sublist ((sched_pop_due T l).2 ++ (sched_pop_due T l).1) :=
    List.sublist_append_left _ _
  rwa [sched_pop_due_append] at h

theorem sched_pop_due_rest_gt (T : ℚ) (l : List o2_message) (hs : l.Sorted ts_le) :
    ∀ m ∈ (sched_pop_due T l).1, T < m.timestamp := by
  induction l with
  | nil => intro m hm; simp [sched_pop_due] at hm
  | cons x rest ih =>
    intro m hm
    have hs2 := List.sorted_cons.mp hs
    unfold sched_pop_due at hm
    split_ifs at hm with h
    · exact ih hs2.2 m hm
    · simp only [List.mem_cons] at hm
      rcases hm with rfl | hm
      · exact not_le.mp h
      · exact lt_of_lt_of_le (not_le.mp h) (hs2.1 m hm)

theorem sched_pop_due_rest_filter (T : ℚ) (l : List o2_message) :
    (sched_pop_due T l).1.filter (fun m => T < m.timestamp)
      = l.filter (fun m => T < m.timestamp) := by
  have h := sched_pop_due_append T l
  have h2 : (sched_pop_due T l).2.filter (fun m => T < m.timestamp) = [] := by
    rw [List.filter_eq_nil_iff]
    intro m hm
    have := sched_pop_due_delivered_le T l m hm
    simp only [decide_eq_true_eq, not_lt]
    exact this
  conv_rhs => rw [← h]
  rw [List.filter_append, h2, List.nil_append]

theorem sched_insert_perm (m : o2_message) (l : List o2_message) :
    (sched_insert m l).Perm (m :: l) := by
  induction l with
  | nil => exact List.Perm.refl _
  | cons x rest ih =>
    unfold sched_insert
    split_ifs with h
    · exact (List.Perm.cons x ih).trans (List.Perm.swap m x rest)
    · exact List.Perm.refl _

theorem sched_insert_mem (m : o2_message) (l : List o2_message) (a : o2_message) :
    a ∈ sched_insert m l ↔ a = m ∨ a ∈ l := by
  rw [(sched_insert_perm m l).mem_iff, List.mem_cons]

theorem sched_insert_sorted (m : o2_message) (l : List o2_message) (hs : l.Sorted ts_le) :
    (sched_insert m l).Sorted ts_le := by
  induction l with
  | nil => simp [sched_insert]
  | cons x rest ih =>
    have hs2 := List.sorted_cons.mp hs
    unfold sched_insert
    split_ifs with h
    · refine List.sorted_cons.mpr ⟨?_, ih hs2.2⟩
      intro b hb
      rcases (sched_insert_mem m rest b).mp hb with rfl | hb
      · exact h
      · exact hs2.1 b hb
    · refine List.sorted_cons.mpr ⟨?_, hs⟩
      intro b hb
      have hmx : m.timestamp ≤ x.timestamp := le_of_lt (not_le.mp h)
      simp only [List.mem_cons] at hb
      rcases hb with rfl | hb
      · exact hmx
      · exact le_trans hmx (hs2.1 b hb)

theorem sched_insert_sublist (m : o2_message) (l : List o2_message) :
    l.Sublist (sched_insert m l) := by
  induction l with
  | nil => simp
  | cons x rest ih =>
    unfold sched_insert
    split_ifs with h
    · exact ih.cons₂ x
    · exact List.sublist_cons_self _ _

/-- Where `sched_insert` puts the message in a sorted chain: after the entries
with timestamp `<= m.timestamp`, before the later ones. -/
theorem sched_insert_eq (m : o2_message) (l : List o2_message) (hs : l.Sorted ts_le) :
    sched_insert m l = l.filter (fun x => x.timestamp ≤ m.timestamp)
      ++ m :: l.filter (fun x => m.timestamp < x.timestamp) := by
  induction l with
  | nil => simp [sched_insert]
  | cons x rest ih =>
    have hs2 := List.sorted_cons.mp hs
    unfold sched_insert
    split_ifs with h
    · rw [ih hs2.2]
      simp [List.filter_cons, h, not_lt.mpr h]
    · have hlt : m.timestamp < x.timestamp := not_le.mp h
      have h1 : (x :: rest).filter (fun y => y.timestamp ≤ m.timestamp) = [] := by
        rw [List.filter_eq_nil_iff]
        intro b hb
        simp only [List.mem_cons] at hb
        simp only [decide_eq_true_eq, not_le]
        rcases hb with rfl | hb
        · exact hlt
        · exact lt_of_lt_of_le hlt (hs2.1 b hb)
      have h2 : (x :: rest).filter (fun y => m.timestamp < y.timestamp) = x :: rest := by
        rw [List.filter_eq_self]
        intro b hb
        simp only [List.mem_cons] at hb
        simp only [decide_eq_true_eq]
        rcases hb with rfl | hb
        · exact hlt
        · exact lt_of_lt_of_le hlt (hs2.1 b hb)
      rw [h1, h2, List.nil_append]

theorem sched_insert_filter_eq (m : o2_message) (l : List o2_message) (hs : l.Sorted ts_le) :
    (sched_insert m l).filter (fun x => x.timestamp = m.timestamp)
      = l.filter (fun x => x.timestamp = m.timestamp) ++ [m] := by
  rw [sched_insert_eq m l hs, List.filter_append, List.filter_cons]
  have h1 : (l.filter (fun x => m.timestamp < x.timestamp)).filter
      (fun x => x.timestamp = m.timestamp) = [] := by
    rw [List.filter_eq_nil_iff]
    intro b hb
    have := (List.mem_filter.mp hb).2
    simp only [decide_eq_true_eq] at this ⊢
    exact ne_of_gt this
  have h2 : (l.filter (fun x => x.timestamp ≤ m.timestamp)).filter
      (fun x => x.timestamp = m.timestamp) = l.filter (fun x => x.timestamp = m.timestamp) := by
    rw [List.filter_filter]
    congr 1
    funext x
    by_cases hx : x.timestamp = m.timestamp
    · simp [hx]
    · simp [hx]
  rw [h1, h2]
  simp

theorem sched_insert_filter_ne (m : o2_message) (l : List o2_message) (t : ℚ)
    (ht : m.timestamp ≠ t) :
    (sched_insert m l).filter (fun x => x.timestamp = t)
      = l.filter (fun x => x.timestamp = t) := by
  induction l with
  | nil => simp [sched_insert, ht]
  | cons x rest ih =>
    unfold sched_insert
    split_ifs with h
    · simp only [List.filter_cons, ih]
    · simp [List.filter_cons, ht]

/-! ## `o2_schedule` -/

theorem o2_schedule_stale (s : o2_sched) (m : o2_message) (h : m.timestamp < s.last_time) :
    o2_schedule s m = (s, [m]) := by
  unfold o2_schedule
  rw [if_pos h]

theorem o2_schedule_link (s : o2_sched) (m : o2_message) (h : s.last_time ≤ m.timestamp) :
    (o2_schedule s m).2 = [] ∧ ∀ i, (o2_schedule s m).1.table i =
      if i = table_cell (SCHED_INDEX m.timestamp) then sched_insert m (s.table i)
      else s.table i := by
  unfold o2_schedule
  rw [if_neg (not_lt.mpr h)]
  refine ⟨rfl, ?_⟩
  intro i
  simp only [Function.update_apply]
  split_ifs with hc
  · rw [hc]
  · rfl

theorem o2_schedule_last_time (s : o2_sched) (m : o2_message) :
    (o2_schedule s m).1.last_time = s.last_time := by
  unfold o2_schedule
  split_ifs <;> rfl

theorem o2_schedule_last_bin (s : o2_sched) (m : o2_message) :
    (o2_schedule s m).1.last_bin = s.last_bin := by
  unfold o2_schedule
  split_ifs <;> rfl

theorem o2_schedule_inv (s : o2_sched) (m : o2_message) (hi : sched_inv s) :
    sched_inv (o2_schedule s m).1 := by
  by_cases h : m.timestamp < s.last_time
  · rw [o2_schedule_stale s m h]; exact hi
  · have hle := not_lt.mp h
    have ht := (o2_schedule_link s m hle).2
    obtain ⟨h1, h2, h3, h4⟩ := hi
    refine ⟨?_, ?_, ?_, ?_⟩
    · rw [o2_schedule_last_bin, o2_schedule_last_time]; exact h1
    · intro i
      rw [ht i]
      split_ifs with hc
      · exact sched_insert_sorted m _ (h2 _)
      · exact h2 i
    · intro i a ha
      rw [ht i] at ha
      split_ifs at ha with hc
      · rcases (sched_insert_mem m _ a).mp ha with rfl | ha
        · exact hc.symm
        · exact h3 _ a ha
      · exact h3 i a ha
    · intro i a ha
      rw [o2_schedule_last_time]
      rw [ht i] at ha
      split_ifs at ha with hc
      · rcases (sched_insert_mem m _ a).mp ha with rfl | ha
        · exact hle
        · exact h4 _ a ha
      · exact h4 i a ha

theorem o2_schedule_hist (s : o2_sched) (m : o2_message) (hist : List o2_message)
    (hi : sched_inv s) (hh : hist_ok hist s) : hist_ok (hist ++ [m]) (o2_schedule s m).1 := by
  by_cases h : m.timestamp < s.last_time
  · rw [o2_schedule_stale s m h]
    intro i t
    exact (hh i t).trans (List.sublist_append_left _ _)
  · have hle := not_lt.mp h
    have ht := (o2_schedule_link s m hle).2
    intro i t
    rw [ht i]
    split_ifs with hc
    · by_cases htt : m.timestamp = t
      · subst htt
        rw [sched_insert_filter_eq m _ (hi.2.1 _)]
        exact List.Sublist.append (hh _ _) (List.Sublist.refl _)
      · rw [sched_insert_filter_ne m _ t htt]
        exact (hh _ t).trans (List.sublist_append_left _ _)
    · exact (hh i t).trans (List.sublist_append_left _ _)

/-! ## `sched_dispatch`: induction principle and termination -/

theorem sched_dispatch_fuel_ind (P : o2_sched → ℚ → o2_sched × List o2_message → Prop)
    (base : ∀ s T, ¬ (s.last_time + 1 < T) → P s T (sched_dispatch_scan s T))
    (step : ∀ s T r1 r2, s.last_time + 1 < T → P s (s.last_time + 1) r1 → P r1.1 T r2 →
      P s T (r2.1, r1.2 ++ r2.2)) :
    ∀ fuel s T r, sched_dispatch_fuel fuel s T = some r → P s T r := by
  intro fuel
  induction fuel with
  | zero => intro s T r h; simp [sched_dispatch_fuel] at h
  | succ n ih =>
    intro s T r h
    unfold sched_dispatch_fuel at h
    split_ifs at h with hc
    · cases h1 : sched_dispatch_fuel n s (s.last_time + 1) with
      | none => rw [h1] at h; simp at h
      | some r1 =>
        rw [h1] at h
        simp only at h
        cases h2 : sched_dispatch_fuel n r1.1 T with
        | none => rw [h2] at h; simp at h
        | some r2 =>
          rw [h2] at h
          simp only [Option.some.injEq] at h
          subst h
          exact step s T r1 r2 hc (ih s _ r1 h1) (ih r1.1 T r2 h2)
    · simp only [Option.some.injEq] at h
      subst h
      exact base s T hc

theorem sched_dispatch_scan_last_time (s : o2_sched) (T : ℚ) :
    (sched_dispatch_scan s T).1.last_time = T := rfl

theorem sched_dispatch_fuel_last_time (fuel : Nat) (s : o2_sched) (T : ℚ)
    (r : o2_sched × List o2_message) (h : sched_dispatch_fuel fuel s T = some r) :
    r.1.last_time = T :=
  sched_dispatch_fuel_ind (fun _ T r => r.1.last_time = T)
    (fun s T _ => sched_dispatch_scan_last_time s T)
    (fun _ _ _ _ _ _ h2 => h2) fuel s T r h

theorem sched_dispatch_fuel_total (n : Nat) : ∀ (s : o2_sched) (T : ℚ),
    (⌈T - s.last_time⌉).toNat ≤ n → ∃ r, sched_dispatch_fuel (n + 1) s T = some r := by
  induction n with
  | zero =>
    intro s T hb
    unfold sched_dispatch_fuel
    have hc : ¬ (s.last_time + 1 < T) := by
      intro hlt
      have : (1 : Int) < ⌈T - s.last_time⌉ := Int.lt_ceil.mpr (by push_cast; linarith)
      omega
    rw [if_neg hc]
    exact ⟨_, rfl⟩
  | succ n ih =>
    intro s T hb
    unfold sched_dispatch_fuel
    split_ifs with hc
    · have h2 : (1 : Int) < ⌈T - s.last_time⌉ := Int.lt_ceil.mpr (by push_cast; linarith)
      have hn : 1 ≤ n := by omega
      have hb1 : (⌈s.last_time + 1 - s.last_time⌉).toNat ≤ n := by
        have : s.last_time + 1 - s.last_time = ((1 : Int) : ℚ) := by push_cast; ring
        rw [this, Int.ceil_intCast]
        simpa using hn
      obtain ⟨r1, h1⟩ := ih s (s.last_time + 1) hb1
      have hlt := sched_dispatch_fuel_last_time _ _ _ _ h1
      have hb2 : (⌈T - r1.1.last_time⌉).toNat ≤ n := by
        have : T - r1.1.last_time = T - s.last_time - ((1 : Int) : ℚ) := by
          rw [hlt]; push_cast; ring
        rw [this, Int.ceil_sub_int]
        omega
      obtain ⟨r2, h2⟩ := ih r1.1 T hb2
      rw [h1]
      simp only
      rw [h2]
      exact ⟨_, rfl⟩
    · exact ⟨_, rfl⟩

/-- The function `sched_dispatch` always returns. -/
theorem sched_dispatch_total (s : o2_sched) (T : ℚ) : ∃ r, sched_dispatch s T = some r :=
  sched_dispatch_fuel_total _ s T (le_refl _)

/-- Proof rule for `sched_dispatch`: a property that holds of the final scan and
is preserved by a one-second step followed by the rest holds of every call. -/
theorem sched_dispatch_rule (P : o2_sched → ℚ → o2_sched × List o2_message → Prop)
    (base : ∀ s T, ¬ (s.last_time + 1 < T) → P s T (sched_dispatch_scan s T))
    (step : ∀ s T r1 r2, s.last_time + 1 < T → P s (s.last_time + 1) r1 → P r1.1 T r2 →
      P s T (r2.1, r1.2 ++ r2.2))
    (s : o2_sched) (T : ℚ) : ∃ r, sched_dispatch s T = some r ∧ P s T r := by
  obtain ⟨r, hr⟩ := sched_dispatch_total s T
  exact ⟨r, hr, sched_dispatch_fuel_ind P base step _ s T r hr⟩

/-! ## Counting linked messages -/

theorem linked_count (s : o2_sched) (a : o2_message) :
    (linked s).count a = ∑ i : Fin O2_SCHED_TABLE_LEN, (s.table i).count a := by
  unfold linked
  rw [List.count_flatMap, Fin.sum_univ_def]
  rfl

/-- Replacing one chain changes the count of a message in the table by the
difference of its counts in the new and the old chain. -/
theorem linked_count_update (s s1 : o2_sched) (c : Fin O2_SCHED_TABLE_LEN)
    (h : ∀ i, i ≠ c → s1.table i = s.table i) (a : o2_message) :
    (linked s1).count a + (s.table c).count a = (linked s).count a + (s1.table c).count a := by
  rw [linked_count, linked_count]
  rw [← Finset.add_sum_erase Finset.univ (fun i => (s1.table i).count a) (Finset.mem_univ c)]
  rw [← Finset.add_sum_erase Finset.univ (fun i => (s.table i).count a) (Finset.mem_univ c)]
  have he : ∑ x in Finset.univ.erase c, (s1.table x).count a
      = ∑ x in Finset.univ.erase c, (s.table x).count a := by
    apply Finset.sum_congr rfl
    intro x hx
    rw [h x (Finset.ne_of_mem_erase hx)]
  simp only [he]
  omega

theorem linked_mem (s : o2_sched) (a : o2_message) : a ∈ linked s ↔ ∃ i, a ∈ s.table i := by
  unfold linked
  simp [List.mem_flatMap]

/-! ## The scan loop of `sched_dispatch` -/

theorem sched_dispatch_bin_table (s : o2_sched) (T : ℚ) (i : Fin O2_SCHED_TABLE_LEN) :
    (sched_dispatch_bin s T).1.table i =
      if i = table_cell (SCHED_BIN_TO_INDEX s.last_bin) then (sched_pop_due T (s.table i)).1
      else s.table i := by
  unfold sched_dispatch_bin
  simp only [Function.update_apply]
  split_ifs with hc
  · rw [hc]
  · rfl

theorem sched_dispatch_bin_delivered (s : o2_sched) (T : ℚ) :
    (sched_dispatch_bin s T).2
      = (sched_pop_due T (s.table (table_cell (SCHED_BIN_TO_INDEX s.last_bin)))).2 := rfl

theorem sched_dispatch_bin_last_bin (s : o2_sched) (T : ℚ) :
    (sched_dispatch_bin s T).1.last_bin = s.last_bin + 1 := rfl

theorem sched_dispatch_bin_last_time (s : o2_sched) (T : ℚ) :
    (sched_dispatch_bin s T).1.last_time = s.last_time := rfl

theorem sched_dispatch_bin_sublist (s : o2_sched) (T : ℚ) (i : Fin O2_SCHED_TABLE_LEN) :
    ((sched_dispatch_bin s T).1.table i).Sublist (s.table i) := by
  rw [sched_dispatch_bin_table]
  split_ifs
  · exact sched_pop_due_rest_sublist T _
  · exact List.Sublist.refl _

theorem sched_dispatch_bin_count (s : o2_sched) (T : ℚ) (a : o2_message) :
    (linked (sched_dispatch_bin s T).1).count a + (sched_dispatch_bin s T).2.count a
      = (linked s).count a := by
  have h := linked_count_update s (sched_dispatch_bin s T).1
    (table_cell (SCHED_BIN_TO_INDEX s.last_bin))
    (fun i hi => by rw [sched_dispatch_bin_table, if_neg hi]) a
  rw [sched_dispatch_bin_table, if_pos rfl] at h
  rw [sched_dispatch_bin_delivered]
  have h2 := congrArg (List.count a)
    (sched_pop_due_append T (s.table (table_cell (SCHED_BIN_TO_INDEX s.last_bin))))
  rw [List.count_append] at h2
  omega

theorem sched_scan_bins_succ (n : Nat) (s : o2_sched) (T : ℚ) (bin : Int)
    (h : s.last_bin ≤ bin) :
    sched_scan_bins (n + 1) s T bin =
      ((sched_scan_bins n (sched_dispatch_bin s T).1 T bin).1,
        (sched_dispatch_bin s T).2 ++ (sched_scan_bins n (sched_dispatch_bin s T).1 T bin).2) := by
  rw [sched_scan_bins, if_pos h]

/-- Proof rule for the scan loop. -/
theorem sched_scan_bins_rule (P : o2_sched → o2_sched × List o2_message → Prop) (T : ℚ)
    (h0 : ∀ s, P s (s, []))
    (hstep : ∀ s r2, P (sched_dispatch_bin s T).1 r2 →
      P s (r2.1, (sched_dispatch_bin s T).2 ++ r2.2)) (bin : Int) :
    ∀ n s, P s (sched_scan_bins n s T bin) := by
  intro n
  induction n with
  | zero => intro s; exact h0 s
  | succ n ih =>
    intro s
    by_cases h : s.last_bin ≤ bin
    · rw [sched_scan_bins_succ n s T bin h]
      exact hstep s _ (ih _)
    · rw [sched_scan_bins, if_neg h]
      exact h0 s

theorem sched_scan_bins_sublist (T : ℚ) (bin : Int) (n : Nat) (s : o2_sched) :
    ∀ i, ((sched_scan_bins n s T bin).1.table i).Sublist (s.table i) :=
  sched_scan_bins_rule (fun s r => ∀ i, (r.1.table i).Sublist (s.table i)) T
    (fun _ _ => List.Sublist.refl _)
    (fun s _ h i => (h i).trans (sched_dispatch_bin_sublist s T i)) bin n s

theorem sched_scan_bins_last_time (T : ℚ) (bin : Int) (n : Nat) (s : o2_sched) :
    (sched_scan_bins n s T bin).1.last_time = s.last_time :=
  sched_scan_bins_rule (fun s r => r.1.last_time = s.last_time) T
    (fun _ => rfl) (fun _ _ h => h) bin n s

theorem sched_scan_bins_delivered_le (T : ℚ) (bin : Int) (n : Nat) (s : o2_sched) :
    ∀ m ∈ (sched_scan_bins n s T bin).2, m.timestamp ≤ T :=
  sched_scan_bins_rule (fun _ r => ∀ m ∈ r.2, m.timestamp ≤ T) T
    (fun _ m hm => by simp at hm)
    (fun s _ h m hm => by
      rcases List.mem_append.mp hm with h1 | h1
      · exact sched_pop_due_delivered_le T _ m h1
      · exact h m h1) bin n s

theorem sched_scan_bins_future (T : ℚ) (bin : Int) (n : Nat) (s : o2_sched) :
    ∀ i, ((sched_scan_bins n s T bin).1.table i).filter (fun m => T < m.timestamp)
      = (s.table i).filter (fun m => T < m.timestamp) :=
  sched_scan_bins_rule (fun s r => ∀ i, (r.1.table i).filter (fun m => T < m.timestamp)
      = (s.table i).filter (fun m => T < m.timestamp)) T
    (fun _ _ => rfl)
    (fun s _ h i => by
      rw [h i, sched_dispatch_bin_table]
      split_ifs
      · exact sched_pop_due_rest_filter T _
      · rfl) bin n s

theorem sched_scan_bins_count (T : ℚ) (bin : Int) (n : Nat) (s : o2_sched) :
    ∀ a, (linked (sched_scan_bins n s T bin).1).count a + (sched_scan_bins n s T bin).2.count a
      = (linked s).count a :=
  sched_scan_bins_rule (fun s r => ∀ a, (linked r.1).count a + r.2.count a = (linked s).count a) T
    (fun _ a => by simp)
    (fun s r2 h a => by
      have h1 := sched_dispatch_bin_count s T a
      have h2 := h a
      simp only [List.count_append]
      omega) bin n s

theorem chains_sorted_of_sublist (s s1 : o2_sched)
    (h : ∀ i, (s1.table i).Sublist (s.table i)) (hs : chains_sorted s) : chains_sorted s1 :=
  fun i => List.Pairwise.sublist (h i) (hs i)

theorem chains_placed_of_sublist (s s1 : o2_sched)
    (h : ∀ i, (s1.table i).Sublist (s.table i)) (hs : chains_placed s) : chains_placed s1 :=
  fun i m hm => hs i m ((h i).subset hm)

/-- The scan loop on a table whose linked messages are either not yet due or
belong to a bin not yet passed, when fewer than 128 bins remain: the deliveries
are sorted, every delivered message belongs to a bin of the scanned range, and
nothing due is left behind. -/
theorem sched_scan_bins_spec (T : ℚ) : ∀ (n : Nat) (s : o2_sched),
    chains_sorted s → chains_placed s →
    (∀ i, ∀ m ∈ s.table i, T < m.timestamp ∨ s.last_bin ≤ SCHED_BIN m.timestamp) →
    SCHED_BIN T < s.last_bin + 128 → s.last_bin + (n : Int) = SCHED_BIN T + 1 →
    (sched_scan_bins n s T (SCHED_BIN T)).1.last_bin = SCHED_BIN T + 1 ∧
    (∀ i, ∀ m ∈ (sched_scan_bins n s T (SCHED_BIN T)).1.table i, T < m.timestamp) ∧
    (sched_scan_bins n s T (SCHED_BIN T)).2.Sorted ts_le ∧
    (∀ m ∈ (sched_scan_bins n s T (SCHED_BIN T)).2, s.last_bin ≤ SCHED_BIN m.timestamp) ∧
    (∀ t, ∃ i, ((sched_scan_bins n s T (SCHED_BIN T)).2.filter
      (fun m => m.timestamp = t)).Sublist (s.table i)) := by
  intro n
  induction n with
  | zero =>
    intro s _ _ hd _ hn
    simp only [sched_scan_bins]
    refine ⟨by omega, ?_, List.sorted_nil, ?_, ?_⟩
    · intro i m hm
      rcases hd i m hm with h | h
      · exact h
      · exact lt_of_SCHED_BIN_lt (by omega)
    · intro m hm; simp at hm
    · intro t
      exact ⟨table_cell 0, by simp⟩
  | succ n ih =>
    intro s hs hp hd hw hn
    have hle : s.last_bin ≤ SCHED_BIN T := by omega
    rw [sched_scan_bins_succ n s T _ hle]
    have hsub := sched_dispatch_bin_sublist s T
    have hs1 := chains_sorted_of_sublist s _ hsub hs
    have hp1 := chains_placed_of_sublist s _ hsub hp
    -- every message delivered in this iteration belongs to bin `last_bin`
    have hbin : ∀ m ∈ (sched_dispatch_bin s T).2, SCHED_BIN m.timestamp = s.last_bin := by
      intro m hm
      rw [sched_dispatch_bin_delivered] at hm
      have hdue := sched_pop_due_delivered_le T _ m hm
      have hmem := (sched_pop_due_delivered_sublist T _).subset hm
      have hc := hp _ m hmem
      have hlo : s.last_bin ≤ SCHED_BIN m.timestamp := by
        rcases hd _ m hmem with h | h
        · exact absurd hdue (not_le.mpr h)
        · exact h
      have hhi : SCHED_BIN m.timestamp ≤ SCHED_BIN T := SCHED_BIN_mono hdue
      exact bin_eq_of_cell_eq hc (by omega) (by omega)
    have hd1 : ∀ i, ∀ m ∈ (sched_dispatch_bin s T).1.table i,
        T < m.timestamp ∨ (sched_dispatch_bin s T).1.last_bin ≤ SCHED_BIN m.timestamp := by
      intro i m hm
      rw [sched_dispatch_bin_last_bin]
      rw [sched_dispatch_bin_table] at hm
      split_ifs at hm with hc
      · exact Or.inl (sched_pop_due_rest_gt T _ (hs i) m hm)
      · rcases hd i m hm with h | h
        · exact Or.inl h
        · right
          have hne : SCHED_BIN m.timestamp ≠ s.last_bin := by
            intro he
            apply hc
            rw [← hp i m hm, SCHED_INDEX, he]
          omega
    obtain ⟨r1, r2, r3, r4, r5⟩ := ih (sched_dispatch_bin s T).1 hs1 hp1 hd1
      (by rw [sched_dispatch_bin_last_bin]; omega)
      (by rw [sched_dispatch_bin_last_bin]; push_cast at hn; omega)
    rw [sched_dispatch_bin_last_bin] at r4
    refine ⟨r1, r2, ?_, ?_, ?_⟩
    · refine List.pairwise_append.mpr ⟨?_, r3, ?_⟩
      · rw [sched_dispatch_bin_delivered]
        exact List.Pairwise.sublist (sched_pop_due_delivered_sublist T _) (hs _)
      · intro a ha b hb
        have h1 := hbin a ha
        have h2 := r4 b hb
        exact le_of_lt (lt_of_SCHED_BIN_lt (by omega))
    · intro m hm
      rcases List.mem_append.mp hm with h | h
      · rw [hbin m h]
      · have := r4 m h
        omega
    · intro t
      rw [List.filter_append]
      by_cases ht : SCHED_BIN t = s.last_bin
      · have he : (sched_scan_bins n (sched_dispatch_bin s T).1 T (SCHED_BIN T)).2.filter
            (fun m => m.timestamp = t) = [] := by
          rw [List.filter_eq_nil_iff]
          intro m hm
          simp only [decide_eq_true_eq]
          intro hmt
          have := r4 m hm
          rw [hmt] at this
          omega
        rw [he, List.append_nil]
        refine ⟨table_cell (SCHED_BIN_TO_INDEX s.last_bin), ?_⟩
        rw [sched_dispatch_bin_delivered]
        exact (List.filter_sublist _).trans (sched_pop_due_delivered_sublist T _)
      · have he : (sched_dispatch_bin s T).2.filter (fun m => m.timestamp = t) = [] := by
          rw [List.filter_eq_nil_iff]
          intro m hm
          simp only [decide_eq_true_eq]
          intro hmt
          have := hbin m hm
          rw [hmt] at this
          exact ht this
        rw [he, List.nil_append]
        obtain ⟨i, hi⟩ := r5 t
        exact ⟨i, hi.trans (hsub i)⟩

/-! ## `sched_dispatch` -/

theorem sched_dispatch_scan_frame (s : o2_sched) (T : ℚ) :
    dispatch_frame s T (sched_dispatch_scan s T) :=
  ⟨rfl, sched_scan_bins_sublist T _ _ s, sched_scan_bins_delivered_le T _ _ s,
    sched_scan_bins_future T _ _ s, sched_scan_bins_count T _ _ s⟩

theorem sched_dispatch_scan_post (s : o2_sched) (T : ℚ) (hi : sched_inv s)
    (h1 : s.last_time ≤ T) (h2 : ¬ (s.last_time + 1 < T)) :
    dispatch_post s T (sched_dispatch_scan s T) := by
  obtain ⟨hb, hs, hp, hl⟩ := hi
  have hmono : SCHED_BIN s.last_time ≤ SCHED_BIN T := SCHED_BIN_mono h1
  have hstep : SCHED_BIN T ≤ SCHED_BIN s.last_time + 100 := SCHED_BIN_step (not_lt.mp h2)
  have hd : ∀ i, ∀ m ∈ s.table i, T < m.timestamp ∨ s.last_bin ≤ SCHED_BIN m.timestamp := by
    intro i m hm
    right
    rw [hb]
    exact SCHED_BIN_mono (hl i m hm)
  have hn : s.last_bin + (((SCHED_BIN T + 1 - s.last_bin).toNat : Nat) : Int)
      = SCHED_BIN T + 1 := by
    rw [Int.toNat_of_nonneg (by omega)]
    omega
  obtain ⟨r1, r2, r3, _, r5⟩ := sched_scan_bins_spec T _ s hs hp hd (by omega) hn
  have hsub := sched_scan_bins_sublist T (SCHED_BIN T) (SCHED_BIN T + 1 - s.last_bin).toNat s
  refine ⟨⟨?_, ?_, ?_, ?_⟩, r2, r3, r5⟩
  · show (sched_scan_bins _ s T (SCHED_BIN T)).1.last_bin - 1 = SCHED_BIN T
    rw [r1]
    omega
  · exact fun i => List.Pairwise.sublist (hsub i) (hs i)
  · exact fun i m hm => hp i m ((hsub i).subset hm)
  · exact fun i m hm => le_of_lt (r2 i m hm)

theorem filter_gt_of_filter_gt {l1 l2 : List o2_message} {u T : ℚ} (hu : u ≤ T)
    (h : l1.filter (fun m => u < m.timestamp) = l2.filter (fun m => u < m.timestamp)) :
    l1.filter (fun m => T < m.timestamp) = l2.filter (fun m => T < m.timestamp) := by
  have hk : ∀ l : List o2_message, l.filter (fun m => T < m.timestamp)
      = (l.filter (fun m => u < m.timestamp)).filter (fun m => T < m.timestamp) := by
    intro l
    rw [List.filter_filter]
    congr 1
    funext m
    by_cases hm : T < m.timestamp
    · simp [hm, lt_of_le_of_lt hu hm]
    · simp [hm]
  rw [hk l1, hk l2, h]

theorem sched_dispatch_frame_step (s : o2_sched) (T : ℚ) (r1 r2 : o2_sched × List o2_message)
    (hc : s.last_time + 1 < T) (p1 : dispatch_frame s (s.last_time + 1) r1)
    (p2 : dispatch_frame r1.1 T r2) : dispatch_frame s T (r2.1, r1.2 ++ r2.2) := by
  obtain ⟨_, a2, a3, a4, a5⟩ := p1
  obtain ⟨b1, b2, b3, b4, b5⟩ := p2
  refine ⟨b1, fun i => (b2 i).trans (a2 i), ?_, ?_, ?_⟩
  · intro m hm
    rcases List.mem_append.mp hm with h | h
    · exact le_trans (a3 m h) (le_of_lt hc)
    · exact b3 m h
  · intro i
    show (r2.1.table i).filter _ = _
    rw [b4 i]
    exact filter_gt_of_filter_gt (le_of_lt hc) (a4 i)
  · intro a
    have h1 := a5 a
    have h2 := b5 a
    simp only [List.count_append]
    omega

/-- Every call of `sched_dispatch` returns, and its result has the frame
properties. -/
theorem sched_dispatch_frame (s : o2_sched) (T : ℚ) :
    ∃ r, sched_dispatch s T = some r ∧ dispatch_frame s T r :=
  sched_dispatch_rule dispatch_frame (fun s T _ => sched_dispatch_scan_frame s T)
    sched_dispatch_frame_step s T

/-- On a state with the invariant and with `T` not before the horizon,
`sched_dispatch` returns and its result has the frame properties and the
ordering properties. -/
theorem sched_dispatch_spec (s : o2_sched) (T : ℚ) (hi : sched_inv s) (hT : s.last_time ≤ T) :
    ∃ r, sched_dispatch s T = some r ∧ dispatch_frame s T r ∧ dispatch_post s T r := by
  have h := sched_dispatch_rule
    (fun s T r => dispatch_frame s T r ∧ (sched_inv s → s.last_time ≤ T → dispatch_post s T r))
    (fun s T hc => ⟨sched_dispatch_scan_frame s T,
      fun hi h1 => sched_dispatch_scan_post s T hi h1 hc⟩)
    (by
      intro s T r1 r2 hc p1 p2
      refine ⟨sched_dispatch_frame_step s T r1 r2 hc p1.1 p2.1, ?_⟩
      intro hi _
      obtain ⟨f1, q1⟩ := p1
      obtain ⟨f2, q2⟩ := p2
      obtain ⟨i1, g1, s1, t1⟩ := q1 hi (by linarith)
      obtain ⟨i2, g2, s2, t2⟩ := q2 i1 (by rw [f1.1]; exact le_of_lt hc)
      have hlate : ∀ b ∈ r2.2, s.last_time + 1 < b.timestamp := by
        intro b hb
        obtain ⟨i, hi2⟩ := t2 b.timestamp
        have hb2 : b ∈ r2.2.filter (fun m => m.timestamp = b.timestamp) := by
          rw [List.mem_filter]
          exact ⟨hb, by simp⟩
        exact g1 i b (hi2.subset hb2)
      refine ⟨i2, g2, ?_, ?_⟩
      · refine List.pairwise_append.mpr ⟨s1, s2, ?_⟩
        intro a ha b hb
        exact le_of_lt (lt_of_le_of_lt (f1.2.2.1 a ha) (hlate b hb))
      · intro t
        show ∃ i, ((r1.2 ++ r2.2).filter (fun m => m.timestamp = t)).Sublist (s.table i)
        rw [List.filter_append]
        by_cases ht : t ≤ s.last_time + 1
        · have he : r2.2.filter (fun m => m.timestamp = t) = [] := by
            rw [List.filter_eq_nil_iff]
            intro m hm
            simp only [decide_eq_true_eq]
            intro hmt
            have := hlate m hm
            rw [hmt] at this
            exact absurd ht (not_le.mpr this)
          rw [he, List.append_nil]
          exact t1 t
        · have he : r1.2.filter (fun m => m.timestamp = t) = [] := by
            rw [List.filter_eq_nil_iff]
            intro m hm
            simp only [decide_eq_true_eq]
            intro hmt
            have := f1.2.2.1 m hm
            rw [hmt] at this
            exact ht this
          rw [he, List.nil_append]
          obtain ⟨i, hi2⟩ := t2 t
          exact ⟨i, hi2.trans (f1.2.1 i)⟩) s T
  obtain ⟨r, hr, hf, hp⟩ := h
  exact ⟨r, hr, hf, hp hi hT⟩

/-! ## Sequences of calls -/

theorem run_calls_cons (s : o2_sched) (c : sched_call) (cs : List sched_call)
    (r1 r2 : o2_sched × List o2_message) (h1 : apply_call s c = some r1)
    (h2 : run_calls r1.1 cs = some r2) :
    run_calls s (c :: cs) = some (r2.1, r1.2 ++ r2.2) := by
  simp only [run_calls, h1, h2]

theorem run_calls_append : ∀ (a b : List sched_call) (s : o2_sched)
    (r1 r2 : o2_sched × List o2_message), run_calls s a = some r1 →
    run_calls r1.1 b = some r2 → run_calls s (a ++ b) = some (r2.1, r1.2 ++ r2.2) := by
  intro a
  induction a with
  | nil =>
    intro b s r1 r2 h1 h2
    simp only [run_calls, Option.some.injEq] at h1
    subst h1
    simpa using h2
  | cons c cs ih =>
    intro b s r1 r2 h1 h2
    simp only [run_calls] at h1
    cases hc : apply_call s c with
    | none => rw [hc] at h1; simp at h1
    | some q1 =>
      rw [hc] at h1
      simp only at h1
      cases hq : run_calls q1.1 cs with
      | none => rw [hq] at h1; simp at h1
      | some q2 =>
        rw [hq] at h1
        simp only [Option.some.injEq] at h1
        subst h1
        have := ih b q1.1 q2 r2 hq h2
        rw [List.cons_append, run_calls_cons s c (cs ++ b) q1 _ hc this]
        simp

theorem targets_of_append (a b : List sched_call) :
    targets_of (a ++ b) = targets_of a ++ targets_of b := by
  induction a with
  | nil => rfl
  | cons c cs ih => cases c <;> simp [targets_of, ih]

theorem scheduled_of_append (a b : List sched_call) :
    scheduled_of (a ++ b) = scheduled_of a ++ scheduled_of b := by
  induction a with
  | nil => rfl
  | cons c cs ih => cases c <;> simp [scheduled_of, ih]

theorem o2_schedule_count (s : o2_sched) (m a : o2_message) :
    (linked (o2_schedule s m).1).count a + (o2_schedule s m).2.count a
      = (linked s).count a + [m].count a := by
  by_cases h : m.timestamp < s.last_time
  · rw [o2_schedule_stale s m h]
  · have hl := o2_schedule_link s m (not_lt.mp h)
    have hu := linked_count_update s (o2_schedule s m).1 (table_cell (SCHED_INDEX m.timestamp))
      (fun i hi => by rw [hl.2 i, if_neg hi]) a
    rw [hl.2, if_pos rfl, (sched_insert_perm m _).count_eq] at hu
    rw [hl.1]
    simp only [List.count_cons, List.count_nil] at hu ⊢
    omega

/-- Every sequence of calls returns, and every message that was linked or
scheduled is afterwards linked or delivered, with the same multiplicity. -/
theorem run_calls_count : ∀ (calls : List sched_call) (s : o2_sched),
    ∃ r, run_calls s calls = some r ∧
      ∀ a, (linked r.1).count a + r.2.count a
        = (linked s).count a + (scheduled_of calls).count a := by
  intro calls
  induction calls with
  | nil => intro s; exact ⟨(s, []), rfl, fun a => by simp [scheduled_of]⟩
  | cons c cs ih =>
    intro s
    cases c with
    | schedule m =>
      obtain ⟨r2, h2, k2⟩ := ih (o2_schedule s m).1
      refine ⟨_, run_calls_cons s _ cs (o2_schedule s m) r2 rfl h2, ?_⟩
      intro a
      have h1 := o2_schedule_count s m a
      have h3 := k2 a
      simp only [List.count_append, scheduled_of, List.count_cons, List.count_nil] at h1 h3 ⊢
      omega
    | dispatch T =>
      obtain ⟨r1, h1, f1⟩ := sched_dispatch_frame s T
      obtain ⟨r2, h2, k2⟩ := ih r1.1
      refine ⟨_, run_calls_cons s _ cs r1 r2 h1 h2, ?_⟩
      intro a
      have h3 := f1.2.2.2.2 a
      have h4 := k2 a
      simp only [List.count_append, scheduled_of] at h3 h4 ⊢
      omega

/-- Monotonic polling keeps the invariant. `hist` lists what was scheduled
before, `rest` the targets still to come. -/
theorem run_calls_inv : ∀ (calls : List sched_call) (s : o2_sched) (hist : List o2_message)
    (rest : List ℚ), sched_inv s → hist_ok hist s →
    List.Chain (fun a b => a ≤ b) s.last_time (targets_of calls ++ rest) →
    ∃ r, run_calls s calls = some r ∧ sched_inv r.1 ∧
      hist_ok (hist ++ scheduled_of calls) r.1 ∧
      List.Chain (fun a b => a ≤ b) r.1.last_time rest := by
  intro calls
  induction calls with
  | nil =>
    intro s hist rest hi hh hc
    exact ⟨(s, []), rfl, hi, by simpa [scheduled_of] using hh, by simpa [targets_of] using hc⟩
  | cons c cs ih =>
    intro s hist rest hi hh hc
    cases c with
    | schedule m =>
      have hc2 : List.Chain (fun a b => a ≤ b) (o2_schedule s m).1.last_time
          (targets_of cs ++ rest) := by
        rw [o2_schedule_last_time]; exact hc
      obtain ⟨r2, h2, i2, k2, c2⟩ := ih (o2_schedule s m).1 (hist ++ [m]) rest
        (o2_schedule_inv s m hi) (o2_schedule_hist s m hist hi hh) hc2
      refine ⟨_, run_calls_cons s _ cs (o2_schedule s m) r2 rfl h2, i2, ?_, c2⟩
      simpa [scheduled_of] using k2
    | dispatch T =>
      simp only [targets_of, List.cons_append, List.chain_cons] at hc
      obtain ⟨r1, h1, f1, p1⟩ := sched_dispatch_spec s T hi hc.1
      have hh1 : hist_ok hist r1.1 :=
        fun i t => ((f1.2.1 i).filter _).trans (hh i t)
      have hc2 : List.Chain (fun a b => a ≤ b) r1.1.last_time (targets_of cs ++ rest) := by
        rw [f1.1]; exact hc.2
      obtain ⟨r2, h2, i2, k2, c2⟩ := ih r1.1 hist rest p1.1 hh1 hc2
      exact ⟨_, run_calls_cons s _ cs r1 r2 h1 h2, i2, by simpa [scheduled_of] using k2, c2⟩

theorem o2_start_a_scheduler_inv (s0 : o2_sched) (h0 : ℚ) :
    sched_inv (o2_start_a_scheduler s0 h0) :=
  ⟨rfl, fun _ => List.sorted_nil, fun _ _ hm => by simp [o2_start_a_scheduler] at hm,
    fun _ _ hm => by simp [o2_start_a_scheduler] at hm⟩

theorem o2_start_a_scheduler_hist (s0 : o2_sched) (h0 : ℚ) :
    hist_ok [] (o2_start_a_scheduler s0 h0) :=
  fun _ _ => by simp [o2_start_a_scheduler]

theorem o2_start_a_scheduler_linked (s0 : o2_sched) (h0 : ℚ) :
    linked (o2_start_a_scheduler s0 h0) = [] := by
  simp [linked, o2_start_a_scheduler]

/-! ## The claims -/

/-- C2: after `o2_start_a_scheduler(s, h0)`, for calls of `o2_schedule` (any
timestamps) and `sched_dispatch` with targets non-decreasing and at least `h0`,
ending with `sched_dispatch(s, T)`: the run returns; every message with
timestamp `<= T` has been delivered as often as it was scheduled (once, when
scheduled once); no message has been delivered more often than it was
scheduled; when the scheduled messages are distinct no message is delivered
twice and every scheduled message with timestamp `<= T` is among the
deliveries. -/
theorem exactly_once (s0 : o2_sched) (h0 : ℚ) (calls : List sched_call) (T : ℚ)
    (hc : List.Chain (fun a b => a ≤ b) h0 (targets_of calls ++ [T])) :
    ∃ r, run_calls (o2_start_a_scheduler s0 h0) (calls ++ [.dispatch T]) = some r ∧
      (∀ m, m.timestamp ≤ T → r.2.count m = (scheduled_of calls).count m) ∧
      (∀ m, r.2.count m ≤ (scheduled_of calls).count m) ∧
      ((scheduled_of calls).Nodup → r.2.Nodup) ∧
      (∀ m ∈ scheduled_of calls, m.timestamp ≤ T → m ∈ r.2) := by
  obtain ⟨r1, hr1, hi, _, hch⟩ := run_calls_inv calls (o2_start_a_scheduler s0 h0) [] [T]
    (o2_start_a_scheduler_inv s0 h0) (o2_start_a_scheduler_hist s0 h0) hc
  have hT : r1.1.last_time ≤ T := by
    simp only [List.chain_cons] at hch
    exact hch.1
  obtain ⟨r2, hr2, _, hp⟩ := sched_dispatch_spec r1.1 T hi hT
  have hlast : run_calls r1.1 [.dispatch T] = some (r2.1, r2.2 ++ []) :=
    run_calls_cons r1.1 _ [] r2 (r2.1, []) hr2 rfl
  have hrun := run_calls_append calls [.dispatch T] _ r1 _ hr1 hlast
  obtain ⟨r, hr, hcount⟩ := run_calls_count (calls ++ [.dispatch T]) (o2_start_a_scheduler s0 h0)
  have hsched : scheduled_of (calls ++ [.dispatch T]) = scheduled_of calls := by
    rw [scheduled_of_append]
    simp [scheduled_of]
  rw [hsched, o2_start_a_scheduler_linked] at hcount
  have hr1eq : r.1 = r2.1 := by
    rw [hrun] at hr
    simp only [Option.some.injEq] at hr
    rw [← hr]
  have hdue : ∀ m, m.timestamp ≤ T → (linked r.1).count m = 0 := by
    intro m hm
    apply List.count_eq_zero_of_not_mem
    intro hmem
    rw [hr1eq] at hmem
    obtain ⟨i, hi2⟩ := (linked_mem r2.1 m).mp hmem
    exact absurd hm (not_le.mpr (hp.2.1 i m hi2))
  have hle : ∀ m, r.2.count m ≤ (scheduled_of calls).count m := by
    intro m
    have := hcount m
    simp only [List.count_nil] at this
    omega
  have heq : ∀ m, m.timestamp ≤ T → r.2.count m = (scheduled_of calls).count m := by
    intro m hm
    have h1 := hcount m
    have h2 := hdue m hm
    simp only [List.count_nil] at h1
    omega
  refine ⟨r, hr, heq, hle, ?_, ?_⟩
  · intro hnd
    rw [List.nodup_iff_count_le_one] at hnd ⊢
    intro a
    exact le_trans (hle a) (hnd a)
  · intro m hm hmT
    have h1 := heq m hmT
    have h2 : 0 < (scheduled_of calls).count m := List.count_pos_iff.mpr hm
    exact List.count_pos_iff.mp (by omega)

/-- Witness for C2: the scenario of the spec, polled at 0.1 and then at 3. -/
theorem exactly_once_witness :
    ∃ r, run_calls (o2_start_a_scheduler blank_sched 0)
        ((scenario_calls ++ [.dispatch (1/10)]) ++ [.dispatch 3]) = some r ∧
      (∀ m, m.timestamp ≤ 3 →
        r.2.count m = (scheduled_of (scenario_calls ++ [.dispatch (1/10)])).count m) ∧
      (∀ m, r.2.count m ≤ (scheduled_of (scenario_calls ++ [.dispatch (1/10)])).count m) ∧
      ((scheduled_of (scenario_calls ++ [.dispatch (1/10)])).Nodup → r.2.Nodup) ∧
      (∀ m ∈ scheduled_of (scenario_calls ++ [.dispatch (1/10)]), m.timestamp ≤ 3 → m ∈ r.2) :=
  exactly_once blank_sched 0 (scenario_calls ++ [.dispatch (1/10)]) 3
    (by simp only [scenario_calls, scenario_msgs, List.map, List.cons_append, List.nil_append,
      targets_of, List.chain_cons, List.Chain.nil, and_true]; norm_num)

/-- C3: for every scheduler state and every target `T`, `sched_dispatch(s, T)`
returns; every message it delivers (one-second sub-dispatches included) has
timestamp `<= T`; the part of every chain with timestamp `> T` is left as it
was, so a message with timestamp `> T` linked before the call is linked in the
same chain after it. -/
theorem no_early_delivery (s : o2_sched) (T : ℚ) :
    ∃ r, sched_dispatch s T = some r ∧ (∀ m ∈ r.2, m.timestamp ≤ T) ∧
      (∀ i, (r.1.table i).filter (fun m => T < m.timestamp)
        = (s.table i).filter (fun m => T < m.timestamp)) ∧
      (∀ i, ∀ m ∈ s.table i, T < m.timestamp → m ∈ r.1.table i) := by
  obtain ⟨r, hr, hf⟩ := sched_dispatch_frame s T
  refine ⟨r, hr, hf.2.2.1, hf.2.2.2.1, ?_⟩
  intro i m hm hT
  have h1 : m ∈ (s.table i).filter (fun m => T < m.timestamp) :=
    List.mem_filter.mpr ⟨hm, by simpa using hT⟩
  rw [← hf.2.2.2.1 i] at h1
  exact (List.mem_filter.mp h1).1

/-- C4: a message older than the horizon is delivered by `o2_schedule` itself,
exactly once, and the scheduler (table, `last_bin`, `last_time`) is left as it
was; a message at or after the horizon causes no delivery. -/
theorem stale_immediate (s : o2_sched) (m : o2_message) :
    (m.timestamp < s.last_time → o2_schedule s m = (s, [m])) ∧
    (s.last_time ≤ m.timestamp → (o2_schedule s m).2 = []) :=
  ⟨o2_schedule_stale s m, fun h => (o2_schedule_link s m h).1⟩

/-- Witness for C4: on a scheduler started at 1, a message for 1/2 is delivered
at once and a message for 3/2 is not. -/
theorem stale_immediate_witness :
    o2_schedule late_sched ⟨1, 1/2⟩ = (late_sched, [⟨1, 1/2⟩]) ∧
    (o2_schedule late_sched ⟨2, 3/2⟩).2 = [] :=
  ⟨(stale_immediate late_sched ⟨1, 1/2⟩).1 (by decide!),
    (stale_immediate late_sched ⟨2, 3/2⟩).2 (by decide!)⟩

/-- C5: the scenario of the spec. On a scheduler started at 0, scheduling the
messages at 0.05, 0.05, 0.12, 2.5 delivers nothing; `sched_dispatch` to 0.1
then delivers exactly the two 0.05 messages in scheduling order; a following
`sched_dispatch` to 3 delivers exactly the 0.12 message and then the 2.5
message; the table is empty afterwards. -/
theorem concrete_scenario :
    (run_calls (o2_start_a_scheduler blank_sched 0) scenario_calls).map Prod.snd = some [] ∧
    dispatch_after (o2_start_a_scheduler blank_sched 0) scenario_calls (1/10)
      = some [⟨1, 1/20⟩, ⟨2, 1/20⟩] ∧
    dispatch_after (o2_start_a_scheduler blank_sched 0)
      (scenario_calls ++ [.dispatch (1/10)]) 3 = some [⟨3, 3/25⟩, ⟨4, 5/2⟩] ∧
    (run_calls (o2_start_a_scheduler blank_sched 0)
      (scenario_calls ++ [.dispatch (1/10), .dispatch 3])).map (fun r => linked r.1)
      = some [] := by
  decide!

theorem filter_split_sorted (t : ℚ) (l : List o2_message) (hs : l.Sorted ts_le) :
    l.filter (fun x => x.timestamp ≤ t) ++ l.filter (fun x => t < x.timestamp) = l := by
  induction l with
  | nil => rfl
  | cons x rest ih =>
    have hs2 := List.sorted_cons.mp hs
    by_cases hx : x.timestamp ≤ t
    · have e1 : (x :: rest).filter (fun y => y.timestamp ≤ t)
          = x :: rest.filter (fun y => y.timestamp ≤ t) := by
        simp [List.filter_cons, hx]
      have e2 : (x :: rest).filter (fun y => t < y.timestamp)
          = rest.filter (fun y => t < y.timestamp) := by
        simp [List.filter_cons, not_lt.mpr hx]
      rw [e1, e2, List.cons_append, ih hs2.2]
    · have hlt : t < x.timestamp := not_le.mp hx
      have h1 : (x :: rest).filter (fun y => y.timestamp ≤ t) = [] := by
        rw [List.filter_eq_nil_iff]
        intro b hb
        simp only [List.mem_cons] at hb
        simp only [decide_eq_true_eq, not_le]
        rcases hb with rfl | hb
        · exact hlt
        · exact lt_of_lt_of_le hlt (hs2.1 b hb)
      have h2 : (x :: rest).filter (fun y => t < y.timestamp) = x :: rest := by
        rw [List.filter_eq_self]
        intro b hb
        simp only [List.mem_cons] at hb
        simp only [decide_eq_true_eq]
        rcases hb with rfl | hb
        · exact hlt
        · exact lt_of_lt_of_le hlt (hs2.1 b hb)
      rw [h1, h2, List.nil_append]

/-- C6: on a scheduler whose chains are sorted, scheduling a message `m` with
timestamp at or after the horizon leaves every chain sorted, puts `m` in its
chain after every entry with timestamp `<= m.timestamp` and before every entry
with a larger timestamp, keeps the entries already linked in their order (the
new chain without `m` is the old chain), and changes no other bucket, nor
`last_bin`, nor `last_time`. -/
theorem sorted_insertion (s : o2_sched) (m : o2_message) (hs : chains_sorted s)
    (hm : s.last_time ≤ m.timestamp) :
    chains_sorted (o2_schedule s m).1 ∧
    (o2_schedule s m).1.table (table_cell (SCHED_INDEX m.timestamp))
      = (s.table (table_cell (SCHED_INDEX m.timestamp))).filter
          (fun x => x.timestamp ≤ m.timestamp)
        ++ m :: (s.table (table_cell (SCHED_INDEX m.timestamp))).filter
          (fun x => m.timestamp < x.timestamp) ∧
    (s.table (table_cell (SCHED_INDEX m.timestamp))).filter (fun x => x.timestamp ≤ m.timestamp)
        ++ (s.table (table_cell (SCHED_INDEX m.timestamp))).filter
          (fun x => m.timestamp < x.timestamp)
      = s.table (table_cell (SCHED_INDEX m.timestamp)) ∧
    (∀ i, i ≠ table_cell (SCHED_INDEX m.timestamp) → (o2_schedule s m).1.table i = s.table i) ∧
    (o2_schedule s m).1.last_bin = s.last_bin ∧
    (o2_schedule s m).1.last_time = s.last_time := by
  have ht := (o2_schedule_link s m hm).2
  refine ⟨?_, ?_, filter_split_sorted _ _ (hs _), ?_, o2_schedule_last_bin s m,
    o2_schedule_last_time s m⟩
  · intro i
    rw [ht i]
    split_ifs
    · exact sched_insert_sorted m _ (hs i)
    · exact hs i
  · rw [ht, if_pos rfl]
    exact sched_insert_eq m _ (hs _)
  · intro i hi
    rw [ht i, if_neg hi]

/-- Witness for C6: a third message for 0.05 scheduled after the four messages
of the scenario. -/
theorem sorted_insertion_witness :
    chains_sorted (o2_schedule (o2_schedule blank_sched ⟨1, 1/20⟩).1 ⟨5, 1/20⟩).1 ∧
    (o2_schedule (o2_schedule blank_sched ⟨1, 1/20⟩).1 ⟨5, 1/20⟩).1.table
        (table_cell (SCHED_INDEX (1/20)))
      = [⟨1, 1/20⟩, ⟨5, 1/20⟩] := by
  have hs : chains_sorted (o2_schedule blank_sched ⟨1, 1/20⟩).1 :=
    (o2_schedule_inv blank_sched ⟨1, 1/20⟩
      ⟨by decide!, fun _ => List.sorted_nil, fun _ _ h => by simp [blank_sched] at h,
        fun _ _ h => by simp [blank_sched] at h⟩).2.1
  have h := sorted_insertion (o2_schedule blank_sched ⟨1, 1/20⟩).1 ⟨5, 1/20⟩ hs (by decide!)
  refine ⟨h.1, ?_⟩
  rw [h.2.1]
  decide!

/-- C7 (as stated, refuted): on a scheduler started at -1 a message for -0.005
is linked in bucket 0, while `floor(-0.005 * 100) mod 128` is 127 and bucket 127
stays empty. -/
theorem bucket_choice_counterexample :
    negative_sched.last_time ≤ (⟨1, -1/200⟩ : o2_message).timestamp ∧
    spec_bucket (-1/200) = 127 ∧
    (o2_schedule negative_sched ⟨1, -1/200⟩).1.table (table_cell (spec_bucket (-1/200))) = [] ∧
    (o2_schedule negative_sched ⟨1, -1/200⟩).1.table (table_cell 0) = [⟨1, -1/200⟩] := by
  decide!

/-- C7 (amended): a message `m` with timestamp at or after the horizon is linked
into the chain of the bucket whose index is the C conversion of
`m.timestamp * 100` to an integer (rounding toward zero) taken modulo 128 with
the non-negative remainder, and into no other chain; for `m.timestamp >= 0`
that index is `floor(m.timestamp * 100) mod 128`. -/
theorem bucket_choice (s : o2_sched) (m : o2_message) (hm : s.last_time ≤ m.timestamp) :
    SCHED_INDEX m.timestamp = to_int64 (m.timestamp * 100) % 128 ∧
    (o2_schedule s m).1.table (table_cell (to_int64 (m.timestamp * 100) % 128))
      = sched_insert m (s.table (table_cell (to_int64 (m.timestamp * 100) % 128))) ∧
    m ∈ (o2_schedule s m).1.table (table_cell (to_int64 (m.timestamp * 100) % 128)) ∧
    (∀ i, i ≠ table_cell (to_int64 (m.timestamp * 100) % 128) →
      (o2_schedule s m).1.table i = s.table i) ∧
    (0 ≤ m.timestamp → to_int64 (m.timestamp * 100) % 128 = spec_bucket m.timestamp) := by
  have hidx : SCHED_INDEX m.timestamp = to_int64 (m.timestamp * 100) % 128 := by
    rw [SCHED_INDEX, SCHED_BIN_TO_INDEX_eq, SCHED_BIN]
  have ht := (o2_schedule_link s m hm).2
  rw [hidx] at ht
  refine ⟨hidx, ?_, ?_, ?_, ?_⟩
  · rw [ht, if_pos rfl]
  · rw [ht, if_pos rfl]
    exact (sched_insert_mem m _ m).mpr (Or.inl rfl)
  · intro i hi
    rw [ht, if_neg hi]
  · intro h0
    unfold to_int64 spec_bucket
    rw [if_pos (mul_nonneg h0 (by norm_num))]

/-- Witness for C7: the message for 0.12 on a scheduler started at 0 goes to
bucket 12. -/
theorem bucket_choice_witness :
    SCHED_INDEX (3/25) = 12 ∧
    (⟨3, 3/25⟩ : o2_message) ∈ (o2_schedule (o2_start_a_scheduler blank_sched 0)
      ⟨3, 3/25⟩).1.table (table_cell 12) ∧
    spec_bucket (3/25) = 12 := by
  have h := bucket_choice (o2_start_a_scheduler blank_sched 0) ⟨3, 3/25⟩ (by decide!)
  have e : to_int64 ((⟨3, 3/25⟩ : o2_message).timestamp * 100) % 128 = 12 := by decide!
  rw [e] at h
  exact ⟨h.1, h.2.2.1, (h.2.2.2.2 (by decide!)).symm⟩

theorem o2_schedule_nodup (s : o2_sched) (m : o2_message) (hn : (linked s).Nodup)
    (hm : m ∉ linked s) : (linked (o2_schedule s m).1).Nodup := by
  rw [List.nodup_iff_count_le_one] at hn ⊢
  intro a
  have h1 := o2_schedule_count s m a
  have h2 := hn a
  by_cases ha : a = m
  · subst ha
    have h3 : (linked s).count a = 0 := List.count_eq_zero_of_not_mem hm
    simp only [List.count_cons_self, List.count_nil] at h1
    omega
  · have h3 : [m].count a = 0 := by
      apply List.count_eq_zero_of_not_mem
      simpa using ha
    omega

/-- Scheduling only messages that are not linked keeps every message linked at
most once. -/
theorem run_calls_nodup : ∀ (calls : List sched_call) (s : o2_sched),
    (linked s).Nodup → calls_fresh s calls →
    ∃ r, run_calls s calls = some r ∧ (linked r.1).Nodup := by
  intro calls
  induction calls with
  | nil => intro s hn _; exact ⟨(s, []), rfl, hn⟩
  | cons c cs ih =>
    intro s hn hf
    cases c with
    | schedule m =>
      simp only [calls_fresh] at hf
      obtain ⟨r2, h2, k2⟩ := ih (o2_schedule s m).1 (o2_schedule_nodup s m hn hf.1) hf.2
      exact ⟨_, run_calls_cons s _ cs (o2_schedule s m) r2 rfl h2, k2⟩
    | dispatch T =>
      obtain ⟨r1, h1, f1⟩ := sched_dispatch_frame s T
      simp only [calls_fresh, h1] at hf
      have hn1 : (linked r1.1).Nodup := by
        rw [List.nodup_iff_count_le_one] at hn ⊢
        intro a
        have := f1.2.2.2.2 a
        have := hn a
        omega
      obtain ⟨r2, h2, k2⟩ := ih r1.1 hn1 hf
      exact ⟨_, run_calls_cons s _ cs r1 r2 h1 h2, k2⟩

/-- C8: for every scheduler state and every sequence of `o2_schedule` and
`sched_dispatch` calls (arbitrary targets) the run returns, and the messages
linked or delivered afterwards are, with multiplicity, exactly the messages
linked before or scheduled: a message leaves the table only by being delivered.
If every message was linked at most once and only messages not linked at that
time are scheduled, every message is still linked at most once. If the messages
linked before and scheduled are pairwise distinct, then afterwards each is
linked once or delivered once and never both. -/
theorem no_loss_no_duplication (s : o2_sched) (calls : List sched_call) :
    ∃ r, run_calls s calls = some r ∧
      (linked r.1 ++ r.2).Perm (linked s ++ scheduled_of calls) ∧
      ((linked s).Nodup → calls_fresh s calls → (linked r.1).Nodup) ∧
      ((linked s ++ scheduled_of calls).Nodup → (linked r.1 ++ r.2).Nodup) := by
  obtain ⟨r, hr, hcount⟩ := run_calls_count calls s
  have hperm : (linked r.1 ++ r.2).Perm (linked s ++ scheduled_of calls) := by
    rw [List.perm_iff_count]
    intro a
    rw [List.count_append, List.count_append]
    exact hcount a
  refine ⟨r, hr, hperm, ?_, fun hn => hperm.nodup_iff.mpr hn⟩
  intro hn hf
  obtain ⟨r2, hr2, k⟩ := run_calls_nodup calls s hn hf
  rw [hr] at hr2
  simp only [Option.some.injEq] at hr2
  rw [hr2]
  exact k

/-- C9 (as stated, refuted): a scheduler started at 1 and polled at 1/2 and
then at 1 (non-decreasing targets) with a message for 3/5 scheduled in between
ends with horizon 1 and that message still linked. -/
theorem table_invariant_counterexample :
    List.Chain' (fun a b => a ≤ b)
      (targets_of [.dispatch (1/2), .schedule ⟨1, 3/5⟩, .dispatch 1]) ∧
    (run_calls (o2_start_a_scheduler blank_sched 1)
      [.dispatch (1/2), .schedule ⟨1, 3/5⟩, .dispatch 1]).map
        (fun r => (r.1.last_time, linked r.1, r.2)) = some (1, [⟨1, 3/5⟩], []) := by
  refine ⟨?_, by decide!⟩
  simp only [targets_of, List.chain'_cons, List.chain'_singleton, and_true]
  norm_num

/-- C9 (amended): after `o2_start_a_scheduler(s, h0)` and any calls of
`o2_schedule` and `sched_dispatch` whose targets are non-decreasing and at least
`h0`, every linked message has timestamp `>= last_time`; and a further
`sched_dispatch(s, T)` with `T` at least the horizon returns with horizon `T`
and every linked message later than `T`. -/
theorem table_invariant (s0 : o2_sched) (h0 : ℚ) (calls : List sched_call)
    (hc : List.Chain (fun a b => a ≤ b) h0 (targets_of calls)) :
    ∃ r, run_calls (o2_start_a_scheduler s0 h0) calls = some r ∧
      (∀ i, ∀ m ∈ r.1.table i, r.1.last_time ≤ m.timestamp) ∧
      ∀ T, r.1.last_time ≤ T → ∃ r2, sched_dispatch r.1 T = some r2 ∧
        r2.1.last_time = T ∧ ∀ i, ∀ m ∈ r2.1.table i, T < m.timestamp := by
  obtain ⟨r, hr, hi, _, _⟩ := run_calls_inv calls (o2_start_a_scheduler s0 h0) [] []
    (o2_start_a_scheduler_inv s0 h0) (o2_start_a_scheduler_hist s0 h0)
    (by simpa using hc)
  refine ⟨r, hr, hi.2.2.2, ?_⟩
  intro T hT
  obtain ⟨r2, hr2, hf, hp⟩ := sched_dispatch_spec r.1 T hi hT
  exact ⟨r2, hr2, hf.1, hp.2.1⟩

/-- Witness for C9: the scenario of the spec, polled at 0.1 and then at 3. -/
theorem table_invariant_witness :
    ∃ r, run_calls (o2_start_a_scheduler blank_sched 0)
        (scenario_calls ++ [.dispatch (1/10), .dispatch 3]) = some r ∧
      (∀ i, ∀ m ∈ r.1.table i, r.1.last_time ≤ m.timestamp) ∧
      ∀ T, r.1.last_time ≤ T → ∃ r2, sched_dispatch r.1 T = some r2 ∧
        r2.1.last_time = T ∧ ∀ i, ∀ m ∈ r2.1.table i, T < m.timestamp :=
  table_invariant blank_sched 0 (scenario_calls ++ [.dispatch (1/10), .dispatch 3])
    (by simp only [scenario_calls, scenario_msgs, List.map, List.cons_append, List.nil_append,
      targets_of, List.chain_cons, List.Chain.nil, and_true]; norm_num)

/-- C10 (as stated, refuted): on a scheduler with horizon 1 the call
`sched_dispatch(s, 1/2)` returns with horizon 1/2. -/
theorem horizon_monotone_counterexample :
    late_sched.last_time = 1 ∧
    (sched_dispatch late_sched (1/2)).map (fun r => r.1.last_time) = some (1/2) ∧
    ¬ (late_sched.last_time ≤ (1/2 : ℚ)) := by
  decide!

/-- C10 (amended): `o2_schedule` leaves the horizon as it is, and
`sched_dispatch(s, T)` with `T` at or after the horizon returns with horizon
`T`; in both cases the horizon after the call is `>=` the horizon before. -/
theorem horizon_monotone (s : o2_sched) (m : o2_message) (T : ℚ) (hT : s.last_time ≤ T) :
    (o2_schedule s m).1.last_time = s.last_time ∧
    s.last_time ≤ (o2_schedule s m).1.last_time ∧
    ∃ r, sched_dispatch s T = some r ∧ r.1.last_time = T ∧ s.last_time ≤ r.1.last_time := by
  refine ⟨o2_schedule_last_time s m, le_of_eq (o2_schedule_last_time s m).symm, ?_⟩
  obtain ⟨r, hr, hf⟩ := sched_dispatch_frame s T
  exact ⟨r, hr, hf.1, by rw [hf.1]; exact hT⟩

/-- Witness for C10: a scheduler started at 1, a message for 3/2, target 5. -/
theorem horizon_monotone_witness :
    (o2_schedule late_sched ⟨2, 3/2⟩).1.last_time = late_sched.last_time ∧
    late_sched.last_time ≤ (o2_schedule late_sched ⟨2, 3/2⟩).1.last_time ∧
    ∃ r, sched_dispatch late_sched 5 = some r ∧ r.1.last_time = 5 ∧
      late_sched.last_time ≤ r.1.last_time :=
  horizon_monotone late_sched ⟨2, 3/2⟩ 5 (by decide!)

/-! ## The loop bounds are exact -/

theorem sched_scan_bins_stop (T : ℚ) (bin : Int) (n : Nat) (s : o2_sched)
    (h : ¬ (s.last_bin ≤ bin)) : sched_scan_bins n s T bin = (s, []) := by
  cases n with
  | zero => rfl
  | succ n => rw [sched_scan_bins, if_neg h]

/-- The scan loop of `sched_dispatch_scan` ends because its test fails, and
unrolling it further changes nothing. -/
theorem sched_scan_bins_exit (T : ℚ) (bin : Int) : ∀ (n : Nat) (s : o2_sched),
    (bin + 1 - s.last_bin).toNat ≤ n →
    bin < (sched_scan_bins n s T bin).1.last_bin ∧
      sched_scan_bins (n + 1) s T bin = sched_scan_bins n s T bin := by
  intro n
  induction n with
  | zero =>
    intro s h
    have hlt : ¬ (s.last_bin ≤ bin) := by omega
    rw [sched_scan_bins_stop T bin _ s hlt, sched_scan_bins_stop T bin _ s hlt]
    exact ⟨not_le.mp hlt, rfl⟩
  | succ n ih =>
    intro s h
    by_cases hle : s.last_bin ≤ bin
    · have hb : (bin + 1 - (sched_dispatch_bin s T).1.last_bin).toNat ≤ n := by
        rw [sched_dispatch_bin_last_bin]
        omega
      obtain ⟨h1, h2⟩ := ih (sched_dispatch_bin s T).1 hb
      rw [sched_scan_bins_succ (n + 1) s T bin hle, sched_scan_bins_succ n s T bin hle, h2]
      exact ⟨h1, rfl⟩
    · rw [sched_scan_bins_stop T bin _ s hle, sched_scan_bins_stop T bin _ s hle]
      exact ⟨not_le.mp hle, rfl⟩

/-- A larger bound on the nesting of `sched_dispatch` gives the same result. -/
theorem sched_dispatch_fuel_mono : ∀ (n : Nat) (s : o2_sched) (T : ℚ)
    (r : o2_sched × List o2_message),
    sched_dispatch_fuel n s T = some r → sched_dispatch_fuel (n + 1) s T = some r := by
  intro n
  induction n with
  | zero => intro s T r h; simp [sched_dispatch_fuel] at h
  | succ n ih =>
    intro s T r h
    rw [sched_dispatch_fuel] at h ⊢
    split_ifs at h ⊢ with hc
    · cases h1 : sched_dispatch_fuel n s (s.last_time + 1) with
      | none => rw [h1] at h; simp at h
      | some r1 =>
        rw [h1] at h
        simp only at h
        cases h2 : sched_dispatch_fuel n r1.1 T with
        | none => rw [h2] at h; simp at h
        | some r2 =>
          rw [h2] at h
          rw [ih s _ r1 h1]
          simp only
          rw [ih r1.1 T r2 h2]
          exact h
    · exact h

/-! ## Cursor position after a dispatch -/

theorem sched_scan_bins_last_bin (T : ℚ) (bin : Int) : ∀ (n : Nat) (s : o2_sched),
    s.last_bin + (n : Int) = bin + 1 → (sched_scan_bins n s T bin).1.last_bin = bin + 1 := by
  intro n
  induction n with
  | zero =>
    intro s h
    simp only [sched_scan_bins]
    omega
  | succ n ih =>
    intro s h
    rw [sched_scan_bins_succ n s T bin (by omega)]
    exact ih _ (by rw [sched_dispatch_bin_last_bin]; push_cast at h; omega)

theorem sched_dispatch_scan_last_bin (s : o2_sched) (T : ℚ) (h : s.last_bin ≤ SCHED_BIN T) :
    (sched_dispatch_scan s T).1.last_bin = SCHED_BIN T := by
  show (sched_scan_bins _ s T (SCHED_BIN T)).1.last_bin - 1 = SCHED_BIN T
  rw [sched_scan_bins_last_bin T (SCHED_BIN T) _ s (by rw [Int.toNat_of_nonneg (by omega)]; omega)]
  omega

theorem sched_dispatch_scan_last_bin_skip (s : o2_sched) (T : ℚ) (h : SCHED_BIN T < s.last_bin) :
    (sched_dispatch_scan s T).1.last_bin = s.last_bin - 1 ∧ (sched_dispatch_scan s T).2 = [] := by
  have hs := sched_scan_bins_stop T (SCHED_BIN T) (SCHED_BIN T + 1 - s.last_bin).toNat s
    (not_le.mpr h)
  constructor
  · show (sched_scan_bins _ s T (SCHED_BIN T)).1.last_bin - 1 = s.last_bin - 1
    rw [hs]
  · show (sched_scan_bins _ s T (SCHED_BIN T)).2 = []
    rw [hs]

/-- After `sched_dispatch(s, T)` with `T` not before the horizon, the cursor is
the bin of `T` as soon as the cursor was not ahead of the horizon or the call
delivered something. -/
theorem sched_dispatch_cursor (s : o2_sched) (T : ℚ) :
    ∃ r, sched_dispatch s T = some r ∧ r.1.last_time = T ∧
      ((r.2 ≠ [] ∨ s.last_bin ≤ SCHED_BIN s.last_time) → s.last_time ≤ T →
        r.1.last_bin = SCHED_BIN T) :=
  sched_dispatch_rule
    (fun s T r => r.1.last_time = T ∧
      ((r.2 ≠ [] ∨ s.last_bin ≤ SCHED_BIN s.last_time) → s.last_time ≤ T →
        r.1.last_bin = SCHED_BIN T))
    (by
      intro s T _
      refine ⟨rfl, ?_⟩
      intro h hT
      by_cases hb : s.last_bin ≤ SCHED_BIN T
      · exact sched_dispatch_scan_last_bin s T hb
      · rcases h with h | h
        · exact absurd (sched_dispatch_scan_last_bin_skip s T (not_le.mp hb)).2 h
        · exact absurd (le_trans h (SCHED_BIN_mono hT)) hb)
    (by
      intro s T r1 r2 hc p1 p2
      refine ⟨p2.1, ?_⟩
      intro h hT
      by_cases h1 : r1.2 ≠ [] ∨ s.last_bin ≤ SCHED_BIN s.last_time
      · have e1 := p1.2 h1 (by linarith)
        refine p2.2 (Or.inr ?_) (by rw [p1.1]; exact le_of_lt hc)
        rw [e1, p1.1]
      · have hn : r1.2 = [] := by
          by_contra hne
          exact h1 (Or.inl hne)
        rcases h with h | h
        · refine p2.2 (Or.inl ?_) (by rw [p1.1]; exact le_of_lt hc)
          intro h2
          apply h
          show r1.2 ++ r2.2 = []
          rw [hn, h2]
          rfl
        · exact absurd (Or.inr h) h1) s T

/-- C11: on a scheduler whose `last_bin` is `SCHED_BIN(last_time)`, a call
`sched_dispatch(s, T)` with `T >= last_time` returns with `last_time = T` and
`last_bin = SCHED_BIN(T)`; the cell examined first by the next call, the cell
of `last_bin`, is therefore the cell `SCHED_INDEX(T)` of the bucket that
contains `T`. -/
theorem dispatch_postcondition (s : o2_sched) (T : ℚ)
    (hb : s.last_bin = SCHED_BIN s.last_time) (hT : s.last_time ≤ T) :
    ∃ r, sched_dispatch s T = some r ∧ r.1.last_time = T ∧ r.1.last_bin = SCHED_BIN T ∧
      table_cell (SCHED_BIN_TO_INDEX r.1.last_bin) = table_cell (SCHED_INDEX T) := by
  obtain ⟨r, hr, h1, h2⟩ := sched_dispatch_cursor s T
  have h3 := h2 (Or.inr (le_of_eq hb)) hT
  exact ⟨r, hr, h1, h3, by rw [h3, SCHED_INDEX]⟩

/-- Witness for C11: a scheduler started at 0 and dispatched to 5/2. -/
theorem dispatch_postcondition_witness :
    ∃ r, sched_dispatch (o2_start_a_scheduler blank_sched 0) (5/2) = some r ∧
      r.1.last_time = 5/2 ∧ r.1.last_bin = SCHED_BIN (5/2) ∧
      table_cell (SCHED_BIN_TO_INDEX r.1.last_bin) = table_cell (SCHED_INDEX (5/2)) :=
  dispatch_postcondition (o2_start_a_scheduler blank_sched 0) (5/2) rfl (by decide!)

/-! ## Table indices -/

theorem int64_and_mask (b : Int) : int64_and b 127 = b % 128 := by
  unfold int64_and int64_bits int64_of_bits
  have h127 : ((127 : Int) % 2 ^ 64).toNat = 2 ^ 7 - 1 := by decide
  rw [h127, Nat.and_pow_two_sub_one_eq_mod]
  have hlt : (b % 2 ^ 64).toNat % 2 ^ 7 < 2 ^ 63 :=
    lt_trans (Nat.mod_lt _ (by norm_num)) (by norm_num)
  rw [if_pos hlt]
  have hnn : (0 : Int) ≤ b % 2 ^ 64 := Int.emod_nonneg _ (by norm_num)
  have hd : b % 2 ^ 64 % 128 = b % 128 := Int.emod_emod_of_dvd b (by norm_num)
  have hx : ∀ x : Int, 0 ≤ x → ((x.toNat % 2 ^ 7 : Nat) : Int) = x % 128 := by
    intro x h0
    norm_num
    omega
  rw [hx _ hnn, hd]

/-- C20: for every timestamp `t` and every bin number `b` (negative ones
included) the indices `SCHED_INDEX(t)` and `SCHED_BIN_TO_INDEX(b)` lie in
`0..127`, are congruent modulo 128 to the bin number, agree with the 64-bit
machine operation `b & 127`, and address the table cell of that very number:
`o2_schedule` and `sched_dispatch` never index outside the 128-entry table. -/
theorem table_index_in_bounds (t : ℚ) (b : Int) :
    (0 ≤ SCHED_INDEX t ∧ SCHED_INDEX t < 128 ∧ SCHED_INDEX t ≡ SCHED_BIN t [ZMOD 128]) ∧
    (0 ≤ SCHED_BIN_TO_INDEX b ∧ SCHED_BIN_TO_INDEX b < 128 ∧
      SCHED_BIN_TO_INDEX b ≡ b [ZMOD 128]) ∧
    SCHED_BIN_TO_INDEX b = int64_and b 127 ∧
    ((table_cell (SCHED_INDEX t)).val : Int) = SCHED_INDEX t ∧
    ((table_cell (SCHED_BIN_TO_INDEX b)).val : Int) = SCHED_BIN_TO_INDEX b := by
  have key : ∀ c : Int, 0 ≤ SCHED_BIN_TO_INDEX c ∧ SCHED_BIN_TO_INDEX c < 128 ∧
      SCHED_BIN_TO_INDEX c ≡ c [ZMOD 128] := by
    intro c
    rw [SCHED_BIN_TO_INDEX_eq]
    exact ⟨Int.emod_nonneg _ (by norm_num), Int.emod_lt_of_pos _ (by norm_num),
      Int.mod_modEq c 128⟩
  refine ⟨key (SCHED_BIN t), key b, ?_, ?_, ?_⟩
  · rw [SCHED_BIN_TO_INDEX_eq, int64_and_mask]
  · exact table_cell_val _ (key (SCHED_BIN t)).1 (key (SCHED_BIN t)).2.1
  · exact table_cell_val _ (key b).1 (key b).2.1

/-! ## What a dispatch delivers and leaves, in closed form -/

theorem o2_sched_ext (a b : o2_sched) (h1 : ∀ i, a.table i = b.table i)
    (h2 : a.last_bin = b.last_bin) (h3 : a.last_time = b.last_time) : a = b := by
  cases a
  cases b
  simp only [o2_sched.mk.injEq]
  exact ⟨funext h1, h2, h3⟩

/-- C15: `alloc_bigger_message(msg, needed)` returns a buffer whose capacity is
at least `needed` and whose payload bytes below the previously written length,
and that length itself, are those of `msg`. -/
theorem grow_preserves (msg : o2_message_buffer) (needed : Int) :
    needed ≤ ((alloc_bigger_message msg needed).capacity : Int) ∧
    msg.capacity ≤ (alloc_bigger_message msg needed).capacity ∧
    (alloc_bigger_message msg needed).length = msg.length ∧
    ∀ i, i < msg.length → (alloc_bigger_message msg needed).payload i = msg.payload i := by
  refine ⟨?_, le_max_left _ _, rfl, ?_⟩
  · have h : needed.toNat ≤ (alloc_bigger_message msg needed).capacity := le_max_right _ _
    have h2 : needed ≤ (needed.toNat : Int) := Int.self_le_toNat needed
    exact le_trans h2 (by exact_mod_cast h)
  · intro i hi
    show (if i < msg.length then msg.payload i else 0) = msg.payload i
    rw [if_pos hi]

/-! ## The two schedulers and the active marker -/

theorem get_sched_set_sched (w : o2_state) (id : sched_id) (s : o2_sched) :
    get_sched (set_sched w id s) id = s := by
  cases id <;> rfl

theorem get_sched_marker (w : o2_state) (id a : sched_id) :
    get_sched { w with o2_active_sched := a } id = get_sched w id := by
  cases id <;> rfl

theorem get_sched_after_dispatch (w : o2_state) (id : sched_id)
    (r : o2_sched × List o2_message) : get_sched (after_dispatch w id r) id = r.1 := by
  cases id <;> rfl

theorem after_dispatch_nil (w : o2_state) (id : sched_id) :
    after_dispatch w id (get_sched w id, []) = w := by
  cases id <;> rfl

theorem after_dispatch_twice (w : o2_state) (id : sched_id) (r1 r2 : o2_sched × List o2_message) :
    after_dispatch (after_dispatch w id r1) id r2 = after_dispatch w id (r2.1, r1.2 ++ r2.2) := by
  unfold after_dispatch
  by_cases h1 : r1.2 = [] <;> by_cases h2 : r2.2 = [] <;> cases id <;>
    simp [set_sched, h1, h2]

theorem sched_pop_due_w_eq (id : sched_id) (T : ℚ) : ∀ (l : List o2_message) (w : o2_state),
    sched_pop_due_w id T w l =
      ({ w with o2_active_sched :=
          if (sched_pop_due T l).2 = [] then w.o2_active_sched else id },
        (sched_pop_due T l).1, (sched_pop_due T l).2.map (delivery.mk id)) := by
  intro l
  induction l with
  | nil => intro w; rfl
  | cons m rest ih =>
    intro w
    by_cases h : m.timestamp ≤ T
    · have e1 : sched_pop_due T (m :: rest)
          = ((sched_pop_due T rest).1, m :: (sched_pop_due T rest).2) := by
        rw [sched_pop_due, if_pos h]
      rw [sched_pop_due_w, if_pos h, e1]
      simp only [ih]
      simp
    · have e1 : sched_pop_due T (m :: rest) = (m :: rest, []) := by
        rw [sched_pop_due, if_neg h]
      rw [sched_pop_due_w, if_neg h, e1]
      simp

theorem sched_dispatch_bin_w_eq (w : o2_state) (id : sched_id) (T : ℚ) :
    sched_dispatch_bin_w w id T =
      (after_dispatch w id (sched_dispatch_bin (get_sched w id) T),
        (sched_dispatch_bin (get_sched w id) T).2.map (delivery.mk id)) := by
  unfold sched_dispatch_bin_w sched_dispatch_bin after_dispatch
  simp only [sched_pop_due_w_eq]
  cases id <;> rfl

theorem sched_scan_bins_w_eq (id : sched_id) (T : ℚ) (bin : Int) : ∀ (n : Nat) (w : o2_state),
    sched_scan_bins_w id n w T bin =
      (after_dispatch w id (sched_scan_bins n (get_sched w id) T bin),
        (sched_scan_bins n (get_sched w id) T bin).2.map (delivery.mk id)) := by
  intro n
  induction n with
  | zero =>
    intro w
    simp only [sched_scan_bins_w, sched_scan_bins, List.map_nil]
    rw [after_dispatch_nil]
  | succ n ih =>
    intro w
    unfold sched_scan_bins_w sched_scan_bins
    split_ifs with h
    · simp only [sched_dispatch_bin_w_eq, ih, get_sched_after_dispatch, after_dispatch_twice,
        List.map_append]
    · simp only [List.map_nil]
      rw [after_dispatch_nil]

theorem sched_dispatch_scan_w_eq (w : o2_state) (id : sched_id) (T : ℚ) :
    sched_dispatch_scan_w w id T =
      (after_dispatch w id (sched_dispatch_scan (get_sched w id) T),
        (sched_dispatch_scan (get_sched w id) T).2.map (delivery.mk id)) := by
  unfold sched_dispatch_scan_w sched_dispatch_scan
  simp only [sched_scan_bins_w_eq, get_sched_after_dispatch]
  unfold after_dispatch
  cases id <;> rfl

theorem sched_dispatch_fuel_w_eq (id : sched_id) : ∀ (fuel : Nat) (w : o2_state) (T : ℚ),
    sched_dispatch_fuel_w id fuel w T =
      (sched_dispatch_fuel fuel (get_sched w id) T).map
        (fun r => (after_dispatch w id r, r.2.map (delivery.mk id))) := by
  intro fuel
  induction fuel with
  | zero => intro w T; rfl
  | succ n ih =>
    intro w T
    unfold sched_dispatch_fuel_w sched_dispatch_fuel
    split_ifs with h
    · rw [ih]
      cases h1 : sched_dispatch_fuel n (get_sched w id) ((get_sched w id).last_time + 1) with
      | none => rfl
      | some r1 =>
        simp only [Option.map_some']
        rw [ih, get_sched_after_dispatch]
        cases h2 : sched_dispatch_fuel n r1.1 T with
        | none => rfl
        | some r2 =>
          simp only [Option.map_some', after_dispatch_twice, List.map_append]
    · simp only [Option.map_some', sched_dispatch_scan_w_eq]

/-- The function `sched_dispatch` on the globals is the plain `sched_dispatch`
on the scheduler, with every delivery recorded under marker `s` and the marker
moved to `s` when something was delivered. -/
theorem sched_dispatch_w_eq (w : o2_state) (id : sched_id) (T : ℚ) :
    sched_dispatch_w w id T =
      (sched_dispatch (get_sched w id) T).map
        (fun r => (after_dispatch w id r, r.2.map (delivery.mk id))) := by
  unfold sched_dispatch_w sched_dispatch
  exact sched_dispatch_fuel_w_eq id _ w T

/-- C13: `o2_sched_poll` first performs `sched_dispatch(&o2_ltsched, L)`. When
`o2_gtsched_started` is false that is all: every delivery comes from the local
scheduler and `o2_gtsched` (table, `last_bin`, `last_time`) is unchanged. When
it is true, `sched_dispatch(&o2_gtsched, o2_local_to_global(L))` follows on the
untouched global scheduler, and its deliveries come after all local ones. The
flag is false after `o2_sched_init` and true after
`o2_start_a_scheduler(&o2_gtsched, t)`. -/
theorem poll_routing (w : o2_state) (L : ℚ) (o2_local_to_global : ℚ → ℚ) :
    ∃ rl, sched_dispatch w.o2_ltsched L = some rl ∧
      (w.o2_gtsched_started = false →
        o2_sched_poll w L o2_local_to_global
          = some (after_dispatch w sched_id.ltsched rl, rl.2.map (delivery.mk sched_id.ltsched)) ∧
        (after_dispatch w sched_id.ltsched rl).o2_gtsched = w.o2_gtsched) ∧
      (w.o2_gtsched_started = true →
        ∃ rg, sched_dispatch w.o2_gtsched (o2_local_to_global L) = some rg ∧
          o2_sched_poll w L o2_local_to_global
            = some (after_dispatch (after_dispatch w sched_id.ltsched rl) sched_id.gtsched rg,
                rl.2.map (delivery.mk sched_id.ltsched)
                  ++ rg.2.map (delivery.mk sched_id.gtsched))) ∧
      (∀ t, (o2_sched_init w t).o2_gtsched_started = false) ∧
      (∀ t, (o2_start_a_scheduler_w w sched_id.gtsched t).o2_gtsched_started = true) := by
  obtain ⟨rl, hl⟩ := sched_dispatch_total w.o2_ltsched L
  have e1 : sched_dispatch_w w sched_id.ltsched L
      = some (after_dispatch w sched_id.ltsched rl, rl.2.map (delivery.mk sched_id.ltsched)) := by
    rw [sched_dispatch_w_eq]
    show Option.map _ (sched_dispatch w.o2_ltsched L) = _
    rw [hl]
    rfl
  refine ⟨rl, hl, ?_, ?_, fun _ => rfl, fun _ => rfl⟩
  · intro hs
    refine ⟨?_, rfl⟩
    unfold o2_sched_poll
    rw [e1]
    have : (after_dispatch w sched_id.ltsched rl).o2_gtsched_started = false := hs
    simp only [this]
    rfl
  · intro hs
    obtain ⟨rg, hg⟩ := sched_dispatch_total w.o2_gtsched (o2_local_to_global L)
    refine ⟨rg, hg, ?_⟩
    have e2 : sched_dispatch_w (after_dispatch w sched_id.ltsched rl) sched_id.gtsched
        (o2_local_to_global L)
        = some (after_dispatch (after_dispatch w sched_id.ltsched rl) sched_id.gtsched rg,
            rg.2.map (delivery.mk sched_id.gtsched)) := by
      rw [sched_dispatch_w_eq]
      show Option.map _ (sched_dispatch w.o2_gtsched (o2_local_to_global L)) = _
      rw [hg]
      rfl
    unfold o2_sched_poll
    rw [e1]
    have : (after_dispatch w sched_id.ltsched rl).o2_gtsched_started = true := hs
    simp only [this, if_true, e2]

/-- Witness for C13: the example globals (global scheduler not started and
holding a message for 0.05) polled at local time 0.1. -/
theorem poll_routing_witness :
    ∃ rl, sched_dispatch example_state.o2_ltsched (1/10) = some rl ∧
      o2_sched_poll example_state (1/10) (fun t => t)
        = some (after_dispatch example_state sched_id.ltsched rl,
            rl.2.map (delivery.mk sched_id.ltsched)) ∧
      (after_dispatch example_state sched_id.ltsched rl).o2_gtsched
        = example_state.o2_gtsched := by
  obtain ⟨rl, h1, h2, _⟩ := poll_routing example_state (1/10) (fun t => t)
  exact ⟨rl, h1, (h2 rfl).1, (h2 rfl).2⟩

/-- C14: `sched_dispatch(s, T)` on the globals returns; every call of
`find_and_call_handlers` it makes happens with `o2_active_sched` equal to `s`;
the messages delivered are those of the plain `sched_dispatch`; a call that
delivers nothing leaves `o2_active_sched` as it was, and a call that delivers
something leaves it equal to `s`. -/
theorem active_marking (w : o2_state) (id : sched_id) (T : ℚ) :
    ∃ r r0, sched_dispatch_w w id T = some r ∧ sched_dispatch (get_sched w id) T = some r0 ∧
      r.2.map delivery.msg = r0.2 ∧
      (∀ d ∈ r.2, d.active = id) ∧
      (r.2 = [] → r.1.o2_active_sched = w.o2_active_sched) ∧
      (r.2 ≠ [] → r.1.o2_active_sched = id) := by
  obtain ⟨r0, h0⟩ := sched_dispatch_total (get_sched w id) T
  have e1 : sched_dispatch_w w id T
      = some (after_dispatch w id r0, r0.2.map (delivery.mk id)) := by
    rw [sched_dispatch_w_eq, h0]
    rfl
  refine ⟨_, r0, e1, h0, ?_, ?_, ?_, ?_⟩
  · simp [List.map_map, Function.comp_def]
  · intro d hd
    obtain ⟨m, _, rfl⟩ := List.mem_map.mp hd
    rfl
  · intro hnil
    have h2 : r0.2 = [] := by
      simpa using hnil
    show (if r0.2 = [] then w.o2_active_sched else id) = w.o2_active_sched
    rw [if_pos h2]
  · intro hne
    have h2 : r0.2 ≠ [] := by
      intro h
      apply hne
      simp [h]
    show (if r0.2 = [] then w.o2_active_sched else id) = id
    rw [if_neg h2]

/-! ## Linking commutes with dispatching to an earlier time -/

theorem sched_link_table (s : o2_sched) (m : o2_message) (j : Fin O2_SCHED_TABLE_LEN) :
    (sched_link s m).table j =
      if j = table_cell (SCHED_INDEX m.timestamp) then sched_insert m (s.table j)
      else s.table j := by
  unfold sched_link
  simp only [Function.update_apply]
  split_ifs with hc
  · rw [hc]
  · rfl

theorem sched_link_last_bin (s : o2_sched) (m : o2_message) :
    (sched_link s m).last_bin = s.last_bin := rfl

theorem sched_link_last_time (s : o2_sched) (m : o2_message) :
    (sched_link s m).last_time = s.last_time := rfl

theorem o2_schedule_eq_link (s : o2_sched) (m : o2_message) (h : s.last_time ≤ m.timestamp) :
    o2_schedule s m = (sched_link s m, []) := by
  unfold o2_schedule sched_link
  rw [if_neg (not_lt.mpr h)]

theorem link_all_nil (s : o2_sched) : link_all s [] = s := rfl

theorem link_all_cons (s : o2_sched) (m : o2_message) (l : List o2_message) :
    link_all s (m :: l) = link_all (sched_link s m) l := rfl

theorem link_all_append (s : o2_sched) (l1 l2 : List o2_message) :
    link_all s (l1 ++ l2) = link_all (link_all s l1) l2 := by
  unfold link_all
  rw [List.foldl_append]

theorem link_all_last_bin : ∀ (l : List o2_message) (s : o2_sched),
    (link_all s l).last_bin = s.last_bin := by
  intro l
  induction l with
  | nil => intro s; rfl
  | cons m l ih => intro s; rw [link_all_cons, ih]; rfl

theorem link_all_last_time : ∀ (l : List o2_message) (s : o2_sched),
    (link_all s l).last_time = s.last_time := by
  intro l
  induction l with
  | nil => intro s; rfl
  | cons m l ih => intro s; rw [link_all_cons, ih]; rfl

/-- Popping the due front of a chain and inserting a later message commute. -/
theorem sched_pop_due_insert (T : ℚ) (m2 : o2_message) (h2 : T < m2.timestamp) :
    ∀ l : List o2_message, sched_pop_due T (sched_insert m2 l)
      = (sched_insert m2 (sched_pop_due T l).1, (sched_pop_due T l).2) := by
  intro l
  induction l with
  | nil =>
    simp only [sched_insert, sched_pop_due]
    rw [if_neg (not_le.mpr h2)]
  | cons x rest ih =>
    by_cases hx : x.timestamp ≤ m2.timestamp
    · have e1 : sched_insert m2 (x :: rest) = x :: sched_insert m2 rest := by
        rw [sched_insert, if_pos hx]
      rw [e1]
      by_cases hT : x.timestamp ≤ T
      · rw [sched_pop_due, if_pos hT, ih]
        have e2 : sched_pop_due T (x :: rest)
            = ((sched_pop_due T rest).1, x :: (sched_pop_due T rest).2) := by
          rw [sched_pop_due, if_pos hT]
        rw [e2]
      · rw [sched_pop_due, if_neg hT]
        have e2 : sched_pop_due T (x :: rest) = (x :: rest, []) := by
          rw [sched_pop_due, if_neg hT]
        rw [e2, e1]
    · have e1 : sched_insert m2 (x :: rest) = m2 :: x :: rest := by
        rw [sched_insert, if_neg hx]
      have hT : ¬ x.timestamp ≤ T := by
        intro hc
        exact hx (le_trans hc (le_of_lt h2))
      have e2 : sched_pop_due T (x :: rest) = (x :: rest, []) := by
        rw [sched_pop_due, if_neg hT]
      rw [e1, e2, e1, sched_pop_due, if_neg (not_le.mpr h2)]

theorem sched_pop_cell_table (s : o2_sched) (index j : Fin O2_SCHED_TABLE_LEN) (T : ℚ) :
    (sched_pop_cell s index T).1.table j =
      if j = index then (sched_pop_due T (s.table j)).1 else s.table j := by
  unfold sched_pop_cell
  simp only [Function.update_apply]
  split_ifs with hc
  · rw [hc]
  · rfl

/-- The inner loop on a cell and the linking of a later message commute. -/
theorem sched_pop_cell_link (s : o2_sched) (index : Fin O2_SCHED_TABLE_LEN) (T : ℚ)
    (m2 : o2_message) (h2 : T < m2.timestamp) :
    sched_pop_cell (sched_link s m2) index T
      = (sched_link (sched_pop_cell s index T).1 m2, (sched_pop_cell s index T).2) := by
  have hd : (sched_pop_cell (sched_link s m2) index T).2 = (sched_pop_cell s index T).2 := by
    show (sched_pop_due T ((sched_link s m2).table index)).2 = (sched_pop_due T (s.table index)).2
    rw [sched_link_table]
    split_ifs
    · rw [sched_pop_due_insert T m2 h2]
    · rfl
  refine Prod.ext ?_ hd
  apply o2_sched_ext
  · intro j
    show (sched_pop_cell (sched_link s m2) index T).1.table j
      = (sched_link (sched_pop_cell s index T).1 m2).table j
    rw [sched_pop_cell_table, sched_link_table, sched_link_table, sched_pop_cell_table]
    by_cases h1 : j = index <;> by_cases h3 : j = table_cell (SCHED_INDEX m2.timestamp)
    · rw [if_pos h1, if_pos h3, if_pos h3, if_pos h1, sched_pop_due_insert T m2 h2]
    · rw [if_pos h1, if_neg h3, if_neg h3, if_pos h1]
    · rw [if_neg h1, if_pos h3, if_pos h3, if_neg h1]
    · rw [if_neg h1, if_neg h3, if_neg h3, if_neg h1]
  · rfl
  · rfl

theorem sched_pop_cell_link_all (index : Fin O2_SCHED_TABLE_LEN) (T : ℚ) :
    ∀ (l : List o2_message) (s : o2_sched), (∀ m2 ∈ l, T < m2.timestamp) →
    sched_pop_cell (link_all s l) index T
      = (link_all (sched_pop_cell s index T).1 l, (sched_pop_cell s index T).2) := by
  intro l
  induction l with
  | nil => intro s _; rfl
  | cons m l ih =>
    intro s hl
    rw [link_all_cons, ih _ (fun a ha => hl a (List.mem_cons_of_mem _ ha)),
      sched_pop_cell_link s index T m (hl m (List.mem_cons_self _ _)), link_all_cons]

theorem sched_dispatch_bin_eq_pop_cell (s : o2_sched) (T : ℚ) :
    sched_dispatch_bin s T =
      ({ (sched_pop_cell s (table_cell (SCHED_BIN_TO_INDEX s.last_bin)) T).1 with
          last_bin := s.last_bin + 1 },
        (sched_pop_cell s (table_cell (SCHED_BIN_TO_INDEX s.last_bin)) T).2) := rfl

/-- Linking does not look at the cursor fields. -/
theorem link_all_with_cursor : ∀ (l : List o2_message) (s : o2_sched) (b : Int) (t : ℚ),
    link_all { s with last_bin := b, last_time := t } l
      = { link_all s l with last_bin := b, last_time := t } := by
  intro l
  induction l with
  | nil => intro s b t; rfl
  | cons m l ih =>
    intro s b t
    rw [link_all_cons, link_all_cons, ← ih]
    rfl

theorem link_all_with_last_bin : ∀ (l : List o2_message) (s : o2_sched) (b : Int),
    link_all { s with last_bin := b } l = { link_all s l with last_bin := b } := by
  intro l
  induction l with
  | nil => intro s b; rfl
  | cons m l ih =>
    intro s b
    rw [link_all_cons, link_all_cons, ← ih]
    rfl

theorem sched_dispatch_bin_link_all (T : ℚ) (l : List o2_message) (s : o2_sched)
    (hl : ∀ m2 ∈ l, T < m2.timestamp) :
    sched_dispatch_bin (link_all s l) T
      = (link_all (sched_dispatch_bin s T).1 l, (sched_dispatch_bin s T).2) := by
  rw [sched_dispatch_bin_eq_pop_cell, sched_dispatch_bin_eq_pop_cell, link_all_last_bin,
    sched_pop_cell_link_all _ T l s hl]
  refine Prod.ext ?_ rfl
  exact (link_all_with_last_bin l
    (sched_pop_cell s (table_cell (SCHED_BIN_TO_INDEX s.last_bin)) T).1 (s.last_bin + 1)).symm

theorem sched_scan_bins_link_all (T : ℚ) (bin : Int) (l : List o2_message)
    (hl : ∀ m2 ∈ l, T < m2.timestamp) : ∀ (n : Nat) (s : o2_sched),
    sched_scan_bins n (link_all s l) T bin
      = (link_all (sched_scan_bins n s T bin).1 l, (sched_scan_bins n s T bin).2) := by
  intro n
  induction n with
  | zero => intro s; rfl
  | succ n ih =>
    intro s
    by_cases hb : s.last_bin ≤ bin
    · rw [sched_scan_bins_succ n _ T bin (by rw [link_all_last_bin]; exact hb),
        sched_scan_bins_succ n s T bin hb, sched_dispatch_bin_link_all T l s hl]
      simp only [ih]
    · rw [sched_scan_bins_stop T bin _ _ (by rw [link_all_last_bin]; exact hb),
        sched_scan_bins_stop T bin _ s hb]

theorem sched_dispatch_scan_link_all (T : ℚ) (l : List o2_message) (s : o2_sched)
    (hl : ∀ m2 ∈ l, T < m2.timestamp) :
    sched_dispatch_scan (link_all s l) T
      = (link_all (sched_dispatch_scan s T).1 l, (sched_dispatch_scan s T).2) := by
  unfold sched_dispatch_scan
  simp only [link_all_last_bin, sched_scan_bins_link_all T _ l hl]
  refine Prod.ext ?_ rfl
  exact (link_all_with_cursor l _ _ _).symm

theorem sched_dispatch_fuel_link_all (l : List o2_message) : ∀ (fuel : Nat) (s : o2_sched) (T : ℚ),
    (∀ m2 ∈ l, T < m2.timestamp) →
    sched_dispatch_fuel fuel (link_all s l) T
      = (sched_dispatch_fuel fuel s T).map (fun r => (link_all r.1 l, r.2)) := by
  intro fuel
  induction fuel with
  | zero => intro s T _; rfl
  | succ n ih =>
    intro s T hl
    rw [sched_dispatch_fuel, sched_dispatch_fuel, link_all_last_time]
    split_ifs with hc
    · have hl1 : ∀ m2 ∈ l, s.last_time + 1 < m2.timestamp :=
        fun m2 hm => lt_trans hc (hl m2 hm)
      rw [ih s _ hl1]
      cases h1 : sched_dispatch_fuel n s (s.last_time + 1) with
      | none => rfl
      | some r1 =>
        simp only [Option.map_some']
        rw [ih r1.1 T hl]
        cases h2 : sched_dispatch_fuel n r1.1 T with
        | none => rfl
        | some r2 => rfl
    · simp only [Option.map_some', sched_dispatch_scan_link_all T l s hl]

/-! ## Handlers that schedule only for later: the dispatch with call-backs -/

theorem o2_schedule_all_link (h : o2_message → List o2_message) :
    ∀ (l : List o2_message) (s : o2_sched) (fuel : Nat),
    (∀ m ∈ l, s.last_time ≤ m.timestamp) → l.length < fuel →
    o2_schedule_all h fuel s l = some (link_all s l, []) := by
  intro l
  induction l with
  | nil =>
    intro s fuel _ hf
    cases fuel with
    | zero => simp at hf
    | succ f => rfl
  | cons m todo ih =>
    intro s fuel hl hf
    cases fuel with
    | zero => simp at hf
    | succ f =>
      have hm : ¬ m.timestamp < s.last_time := not_lt.mpr (hl m (List.mem_cons_self _ _))
      rw [o2_schedule_all, if_neg hm, link_all_cons]
      exact ih (sched_link s m) f (fun a ha => hl a (List.mem_cons_of_mem _ ha))
        (by simp only [List.length_cons] at hf; omega)

theorem sched_pop_cell_nil (s : o2_sched) (index : Fin O2_SCHED_TABLE_LEN) (T : ℚ)
    (hc : s.table index = []) : sched_pop_cell s index T = (s, []) := by
  unfold sched_pop_cell
  rw [hc]
  refine Prod.ext ?_ rfl
  apply o2_sched_ext
  · intro j
    show Function.update s.table index [] j = s.table j
    rw [← hc, Function.update_eq_self]
  · rfl
  · rfl

theorem sched_pop_cell_stop (s : o2_sched) (index : Fin O2_SCHED_TABLE_LEN) (T : ℚ)
    (m : o2_message) (rest : List o2_message) (hc : s.table index = m :: rest)
    (hm : ¬ m.timestamp ≤ T) : sched_pop_cell s index T = (s, []) := by
  unfold sched_pop_cell
  rw [hc]
  have e : sched_pop_due T (m :: rest) = (m :: rest, []) := by
    rw [sched_pop_due, if_neg hm]
  rw [e]
  refine Prod.ext ?_ rfl
  apply o2_sched_ext
  · intro j
    show Function.update s.table index (m :: rest) j = s.table j
    rw [← hc, Function.update_eq_self]
  · rfl
  · rfl

theorem sched_pop_cell_cons (s : o2_sched) (index : Fin O2_SCHED_TABLE_LEN) (T : ℚ)
    (m : o2_message) (rest : List o2_message) (hc : s.table index = m :: rest)
    (hm : m.timestamp ≤ T) :
    sched_pop_cell s index T =
      ((sched_pop_cell { s with table := Function.update s.table index rest } index T).1,
        m :: (sched_pop_cell { s with table := Function.update s.table index rest } index T).2) := by
  unfold sched_pop_cell
  rw [hc]
  have e : sched_pop_due T (m :: rest)
      = ((sched_pop_due T rest).1, m :: (sched_pop_due T rest).2) := by
    rw [sched_pop_due, if_pos hm]
  rw [e]
  simp only [Function.update_same, Function.update_idem]

theorem sched_pop_due_h_nil (h : o2_message → List o2_message) (f : Nat) (s : o2_sched)
    (index : Fin O2_SCHED_TABLE_LEN) (T : ℚ) (hc : s.table index = []) :
    sched_pop_due_h h (f + 1) s index T = some (s, []) := by
  simp only [sched_pop_due_h, hc]

theorem sched_pop_due_h_stop (h : o2_message → List o2_message) (f : Nat) (s : o2_sched)
    (index : Fin O2_SCHED_TABLE_LEN) (T : ℚ) (m : o2_message) (rest : List o2_message)
    (hc : s.table index = m :: rest) (hm : ¬ m.timestamp ≤ T) :
    sched_pop_due_h h (f + 1) s index T = some (s, []) := by
  simp only [sched_pop_due_h, hc, if_neg hm]

theorem sched_pop_due_h_cons (h : o2_message → List o2_message) (f : Nat) (s : o2_sched)
    (index : Fin O2_SCHED_TABLE_LEN) (T : ℚ) (m : o2_message) (rest : List o2_message)
    (hc : s.table index = m :: rest) (hm : m.timestamp ≤ T)
    (r1 r2 : o2_sched × List o2_message)
    (h1 : o2_schedule_all h f { s with table := Function.update s.table index rest } (h m)
      = some r1)
    (h2 : sched_pop_due_h h f r1.1 index T = some r2) :
    sched_pop_due_h h (f + 1) s index T = some (r2.1, m :: r1.2 ++ r2.2) := by
  simp only [sched_pop_due_h, hc, if_pos hm, h1, h2]

/-- With handlers that schedule only for times after `T`, the inner loop with
call-backs does what the plain inner loop does and links what the handlers
scheduled. -/
theorem sched_pop_due_h_eq (h : o2_message → List o2_message) (T : ℚ)
    (hh : handlers_after h T) (index : Fin O2_SCHED_TABLE_LEN) :
    ∀ (k : Nat) (s : o2_sched), s.last_time ≤ T → (sched_pop_cell s index T).2.length = k →
    ∃ N, ∀ fuel, N ≤ fuel → sched_pop_due_h h fuel s index T =
      some (link_all (sched_pop_cell s index T).1 ((sched_pop_cell s index T).2.flatMap h),
        (sched_pop_cell s index T).2) := by
  intro k
  induction k with
  | zero =>
    intro s _ hk
    refine ⟨1, ?_⟩
    intro fuel hf
    obtain ⟨f, rfl⟩ : ∃ f, fuel = f + 1 := ⟨fuel - 1, by omega⟩
    cases hc : s.table index with
    | nil =>
      rw [sched_pop_due_h_nil h f s index T hc, sched_pop_cell_nil s index T hc]
      rfl
    | cons m rest =>
      by_cases hm : m.timestamp ≤ T
      · rw [sched_pop_cell_cons s index T m rest hc hm] at hk
        simp at hk
      · rw [sched_pop_due_h_stop h f s index T m rest hc hm,
          sched_pop_cell_stop s index T m rest hc hm]
        rfl
  | succ k ih =>
    intro s hT hk
    cases hc : s.table index with
    | nil =>
      rw [sched_pop_cell_nil s index T hc] at hk
      simp at hk
    | cons m rest =>
      by_cases hm : m.timestamp ≤ T
      · have e := sched_pop_cell_cons s index T m rest hc hm
        have hlen : (sched_pop_cell { s with table := Function.update s.table index rest }
            index T).2.length = k := by
          rw [e] at hk
          simpa using hk
        have hfut : ∀ m2 ∈ h m, T < m2.timestamp := hh m
        have hpc := sched_pop_cell_link_all index T (h m)
          { s with table := Function.update s.table index rest } hfut
        obtain ⟨N2, hN2⟩ := ih (link_all { s with table := Function.update s.table index rest }
          (h m)) (by rw [link_all_last_time]; exact hT) (by rw [hpc]; exact hlen)
        refine ⟨max ((h m).length + 1) N2 + 1, ?_⟩
        intro fuel hf
        obtain ⟨f, rfl⟩ : ∃ f, fuel = f + 1 := ⟨fuel - 1, by omega⟩
        have h1 := o2_schedule_all_link h (h m)
          { s with table := Function.update s.table index rest } f
          (fun a ha => le_trans hT (le_of_lt (hfut a ha)))
          (by have := le_max_left ((h m).length + 1) N2; omega)
        have h2 := hN2 f (by have := le_max_right ((h m).length + 1) N2; omega)
        rw [sched_pop_due_h_cons h f s index T m rest hc hm _ _ h1 h2, hpc, e]
        simp only [List.nil_append, List.flatMap_cons, link_all_append]
        rfl
      · rw [sched_pop_cell_stop s index T m rest hc hm] at hk
        simp at hk

theorem sched_dispatch_bin_h_eq (h : o2_message → List o2_message) (T : ℚ)
    (hh : handlers_after h T) (s : o2_sched) (hT : s.last_time ≤ T) :
    ∃ N, ∀ fuel, N ≤ fuel → sched_dispatch_bin_h h fuel s T =
      some (link_all (sched_dispatch_bin s T).1 ((sched_dispatch_bin s T).2.flatMap h),
        (sched_dispatch_bin s T).2) := by
  obtain ⟨N, hN⟩ := sched_pop_due_h_eq h T hh (table_cell (SCHED_BIN_TO_INDEX s.last_bin)) _ s
    hT rfl
  refine ⟨N, ?_⟩
  intro fuel hf
  unfold sched_dispatch_bin_h
  rw [hN fuel hf, sched_dispatch_bin_eq_pop_cell]
  simp only [link_all_last_bin, link_all_with_last_bin]
  rfl

theorem sched_scan_bins_h_eq (h : o2_message → List o2_message) (T : ℚ)
    (hh : handlers_after h T) (bin : Int) : ∀ (n : Nat) (s : o2_sched), s.last_time ≤ T →
    ∃ N, ∀ fuel, N ≤ fuel → sched_scan_bins_h h fuel n s T bin =
      some (link_all (sched_scan_bins n s T bin).1 ((sched_scan_bins n s T bin).2.flatMap h),
        (sched_scan_bins n s T bin).2) := by
  intro n
  induction n with
  | zero =>
    intro s _
    exact ⟨0, fun fuel _ => rfl⟩
  | succ n ih =>
    intro s hT
    by_cases hb : s.last_bin ≤ bin
    · obtain ⟨N1, hN1⟩ := sched_dispatch_bin_h_eq h T hh s hT
      have hl : ∀ m2 ∈ (sched_dispatch_bin s T).2.flatMap h, T < m2.timestamp := by
        intro m2 hm2
        obtain ⟨m, _, hm⟩ := List.mem_flatMap.mp hm2
        exact hh m m2 hm
      obtain ⟨N2, hN2⟩ := ih (link_all (sched_dispatch_bin s T).1
        ((sched_dispatch_bin s T).2.flatMap h)) (by rw [link_all_last_time]; exact hT)
      refine ⟨max N1 N2, ?_⟩
      intro fuel hf
      rw [sched_scan_bins_h, if_pos hb, hN1 fuel (le_trans (le_max_left _ _) hf)]
      simp only
      rw [hN2 fuel (le_trans (le_max_right _ _) hf), sched_scan_bins_link_all T bin _ hl,
        sched_scan_bins_succ n s T bin hb]
      simp only [List.flatMap_append, link_all_append]
    · refine ⟨0, ?_⟩
      intro fuel _
      rw [sched_scan_bins_h, if_neg hb, sched_scan_bins_stop T bin _ s hb]
      rfl

theorem sched_dispatch_scan_h_eq (h : o2_message → List o2_message) (T : ℚ)
    (hh : handlers_after h T) (s : o2_sched) (hT : s.last_time ≤ T) :
    ∃ N, ∀ fuel, N ≤ fuel → sched_dispatch_scan_h h fuel s T =
      some (link_all (sched_dispatch_scan s T).1 ((sched_dispatch_scan s T).2.flatMap h),
        (sched_dispatch_scan s T).2) := by
  obtain ⟨N, hN⟩ := sched_scan_bins_h_eq h T hh (SCHED_BIN T)
    (SCHED_BIN T + 1 - s.last_bin).toNat s hT
  refine ⟨N, ?_⟩
  intro fuel hf
  unfold sched_dispatch_scan_h
  rw [hN fuel hf]
  unfold sched_dispatch_scan
  simp only [link_all_last_bin, link_all_with_cursor]

/-- With handlers that schedule only for times after `T`, and `T` not before
the horizon, `sched_dispatch(s, T)` with call-backs returns (for every bound
that is large enough); it delivers what the plain `sched_dispatch` delivers and
leaves the scheduler the plain one leaves with the messages scheduled by the
handlers linked, in the order in which they were scheduled. -/
theorem sched_dispatch_h_eq (h : o2_message → List o2_message) :
    ∀ (pf : Nat) (s : o2_sched) (T : ℚ) (r0 : o2_sched × List o2_message),
    sched_dispatch_fuel pf s T = some r0 → handlers_after h T → s.last_time ≤ T →
    ∃ N, ∀ fuel, N ≤ fuel →
      sched_dispatch_h h fuel s T = some (link_all r0.1 (r0.2.flatMap h), r0.2) := by
  intro pf
  induction pf with
  | zero => intro s T r0 h0; simp [sched_dispatch_fuel] at h0
  | succ n ih =>
    intro s T r0 h0 hh hT
    rw [sched_dispatch_fuel] at h0
    split_ifs at h0 with hc
    · cases h1 : sched_dispatch_fuel n s (s.last_time + 1) with
      | none => rw [h1] at h0; simp at h0
      | some r1 =>
        rw [h1] at h0
        simp only at h0
        cases h2 : sched_dispatch_fuel n r1.1 T with
        | none => rw [h2] at h0; simp at h0
        | some r2 =>
          rw [h2] at h0
          simp only [Option.some.injEq] at h0
          subst h0
          have hh1 : handlers_after h (s.last_time + 1) :=
            fun m m2 hm => lt_trans hc (hh m m2 hm)
          obtain ⟨N1, hN1⟩ := ih s _ r1 h1 hh1 (by linarith)
          have hl : ∀ m2 ∈ r1.2.flatMap h, T < m2.timestamp := by
            intro m2 hm2
            obtain ⟨m, _, hm⟩ := List.mem_flatMap.mp hm2
            exact hh m m2 hm
          have hlt := sched_dispatch_fuel_last_time _ _ _ _ h1
          have h2l : sched_dispatch_fuel n (link_all r1.1 (r1.2.flatMap h)) T
              = some (link_all r2.1 (r1.2.flatMap h), r2.2) := by
            rw [sched_dispatch_fuel_link_all _ n r1.1 T hl, h2]
            rfl
          obtain ⟨N2, hN2⟩ := ih _ T _ h2l hh
            (by rw [link_all_last_time, hlt]; exact le_of_lt hc)
          refine ⟨max N1 N2 + 1, ?_⟩
          intro fuel hf
          obtain ⟨f, rfl⟩ : ∃ f, fuel = f + 1 := ⟨fuel - 1, by omega⟩
          rw [sched_dispatch_h, if_pos hc,
            hN1 f (by have := le_max_left N1 N2; omega)]
          simp only
          rw [hN2 f (by have := le_max_right N1 N2; omega)]
          simp only [List.flatMap_append, link_all_append]
    · simp only [Option.some.injEq] at h0
      subst h0
      obtain ⟨N, hN⟩ := sched_dispatch_scan_h_eq h T hh s hT
      refine ⟨N + 1, ?_⟩
      intro fuel hf
      obtain ⟨f, rfl⟩ : ∃ f, fuel = f + 1 := ⟨fuel - 1, by omega⟩
      rw [sched_dispatch_h, if_neg hc]
      exact hN f (by omega)

/-! ## What linking adds, and which linked messages a dispatch must deliver -/

theorem sched_link_sorted (s : o2_sched) (m : o2_message) (hs : chains_sorted s) :
    chains_sorted (sched_link s m) := by
  intro j
  rw [sched_link_table]
  split_ifs
  · exact sched_insert_sorted m _ (hs j)
  · exact hs j

theorem sched_link_sublist (s : o2_sched) (m : o2_message) (j : Fin O2_SCHED_TABLE_LEN) :
    (s.table j).Sublist ((sched_link s m).table j) := by
  rw [sched_link_table]
  split_ifs
  · exact sched_insert_sublist m _
  · exact List.Sublist.refl _

theorem sched_link_mem (s : o2_sched) (m : o2_message) :
    m ∈ (sched_link s m).table (table_cell (SCHED_INDEX m.timestamp)) := by
  rw [sched_link_table, if_pos rfl]
  exact (sched_insert_mem m _ m).mpr (Or.inl rfl)

theorem sched_link_count (s : o2_sched) (m a : o2_message) :
    (linked (sched_link s m)).count a = (linked s).count a + [m].count a := by
  have hu := linked_count_update s (sched_link s m) (table_cell (SCHED_INDEX m.timestamp))
    (fun i hi => by rw [sched_link_table, if_neg hi]) a
  rw [sched_link_table, if_pos rfl, (sched_insert_perm m _).count_eq] at hu
  simp only [List.count_cons, List.count_nil] at hu ⊢
  omega

theorem link_all_sorted : ∀ (l : List o2_message) (s : o2_sched), chains_sorted s →
    chains_sorted (link_all s l) := by
  intro l
  induction l with
  | nil => intro s hs; exact hs
  | cons m l ih => intro s hs; exact ih _ (sched_link_sorted s m hs)

theorem link_all_sublist : ∀ (l : List o2_message) (s : o2_sched) (j : Fin O2_SCHED_TABLE_LEN),
    (s.table j).Sublist ((link_all s l).table j) := by
  intro l
  induction l with
  | nil => intro s j; exact List.Sublist.refl _
  | cons m l ih => intro s j; exact (sched_link_sublist s m j).trans (ih _ j)

theorem link_all_mem : ∀ (l : List o2_message) (s : o2_sched) (m : o2_message), m ∈ l →
    m ∈ (link_all s l).table (table_cell (SCHED_INDEX m.timestamp)) := by
  intro l
  induction l with
  | nil => intro s m hm; simp at hm
  | cons x l ih =>
    intro s m hm
    rw [link_all_cons]
    rcases List.mem_cons.mp hm with rfl | hm
    · exact (link_all_sublist l _ _).subset (sched_link_mem s m)
    · exact ih _ m hm

theorem link_all_count : ∀ (l : List o2_message) (s : o2_sched) (a : o2_message),
    (linked (link_all s l)).count a = (linked s).count a + l.count a := by
  intro l
  induction l with
  | nil => intro s a; simp [link_all_nil]
  | cons m l ih =>
    intro s a
    rw [link_all_cons, ih, sched_link_count]
    simp only [List.count_cons, List.count_nil]
    omega

theorem o2_schedule_sorted (s : o2_sched) (m : o2_message) (hs : chains_sorted s) :
    chains_sorted (o2_schedule s m).1 := by
  by_cases h : m.timestamp < s.last_time
  · rw [o2_schedule_stale s m h]; exact hs
  · rw [o2_schedule_eq_link s m (not_lt.mp h)]; exact sched_link_sorted s m hs

theorem o2_schedule_sublist (s : o2_sched) (m : o2_message) (j : Fin O2_SCHED_TABLE_LEN) :
    (s.table j).Sublist ((o2_schedule s m).1.table j) := by
  by_cases h : m.timestamp < s.last_time
  · rw [o2_schedule_stale s m h]
  · rw [o2_schedule_eq_link s m (not_lt.mp h)]; exact sched_link_sublist s m j

/-- A due message of a sorted chain in the cell of a bin that the scan loop
still visits is delivered by the loop. -/
theorem sched_scan_bins_delivers (T : ℚ) (bin : Int) (m : o2_message) (hm : m.timestamp ≤ T) :
    ∀ (n : Nat) (s : o2_sched) (b : Int), chains_sorted s → s.last_bin ≤ b →
    b < s.last_bin + (n : Int) → s.last_bin + (n : Int) ≤ bin + 1 →
    m ∈ s.table (table_cell (SCHED_BIN_TO_INDEX b)) → m ∈ (sched_scan_bins n s T bin).2 := by
  intro n
  induction n with
  | zero => intro s b _ h1 h2; simp at h2; omega
  | succ n ih =>
    intro s b hs h1 h2 h3 hmem
    rw [sched_scan_bins_succ n s T bin (by push_cast at h3; omega)]
    apply List.mem_append.mpr
    by_cases hc : table_cell (SCHED_BIN_TO_INDEX b) = table_cell (SCHED_BIN_TO_INDEX s.last_bin)
    · left
      rw [sched_dispatch_bin_delivered]
      rw [hc] at hmem
      have happ := sched_pop_due_append T (s.table (table_cell (SCHED_BIN_TO_INDEX s.last_bin)))
      rw [← happ] at hmem
      rcases List.mem_append.mp hmem with h | h
      · exact h
      · exact absurd hm (not_le.mpr (sched_pop_due_rest_gt T _ (hs _) m h))
    · right
      have hne : b ≠ s.last_bin := by
        intro he
        apply hc
        rw [he]
      apply ih (sched_dispatch_bin s T).1 b
        (chains_sorted_of_sublist s _ (sched_dispatch_bin_sublist s T) hs)
      · rw [sched_dispatch_bin_last_bin]; omega
      · rw [sched_dispatch_bin_last_bin]; push_cast at h2; omega
      · rw [sched_dispatch_bin_last_bin]; push_cast at h3; omega
      · rw [sched_dispatch_bin_table, if_neg hc]
        exact hmem

theorem sched_dispatch_scan_delivers (s : o2_sched) (T : ℚ) (m : o2_message)
    (hs : chains_sorted s) (hmem : m ∈ s.table (table_cell (SCHED_INDEX m.timestamp)))
    (hb : s.last_bin ≤ SCHED_BIN m.timestamp) (hm : m.timestamp ≤ T) :
    m ∈ (sched_dispatch_scan s T).2 := by
  have hbin : SCHED_BIN m.timestamp ≤ SCHED_BIN T := SCHED_BIN_mono hm
  have hn : ((SCHED_BIN T + 1 - s.last_bin).toNat : Int) = SCHED_BIN T + 1 - s.last_bin :=
    Int.toNat_of_nonneg (by omega)
  exact sched_scan_bins_delivers T (SCHED_BIN T) m hm _ s (SCHED_BIN m.timestamp) hs hb
    (by rw [hn]; omega) (by rw [hn]; omega) hmem

/-- A linked message of a sorted table whose bin is not behind the cursor is
delivered by any `sched_dispatch` to a target not before its timestamp; and the
cursor never moves beyond both its old position and the bin of the target. -/
theorem sched_dispatch_delivers (s : o2_sched) (T : ℚ) :
    ∃ r, sched_dispatch s T = some r ∧ dispatch_frame s T r ∧
      (r.1.last_bin ≤ s.last_bin ∨ r.1.last_bin ≤ SCHED_BIN T) ∧
      (chains_sorted s → ∀ m, m ∈ s.table (table_cell (SCHED_INDEX m.timestamp)) →
        s.last_bin ≤ SCHED_BIN m.timestamp → m.timestamp ≤ T → m ∈ r.2) := by
  have key := sched_dispatch_rule
    (fun s T r => dispatch_frame s T r ∧
      (r.1.last_bin ≤ s.last_bin ∨ r.1.last_bin ≤ SCHED_BIN T) ∧
      (chains_sorted s → ∀ m, m ∈ s.table (table_cell (SCHED_INDEX m.timestamp)) →
        s.last_bin ≤ SCHED_BIN m.timestamp → m.timestamp ≤ T → m ∈ r.2))
    (by
      intro s T _
      refine ⟨sched_dispatch_scan_frame s T, ?_, ?_⟩
      · by_cases hb : s.last_bin ≤ SCHED_BIN T
        · right; rw [sched_dispatch_scan_last_bin s T hb]
        · left; rw [(sched_dispatch_scan_last_bin_skip s T (not_le.mp hb)).1]; omega
      · intro hs m hmem hb hm
        exact sched_dispatch_scan_delivers s T m hs hmem hb hm)
    (by
      intro s T r1 r2 hc p1 p2
      obtain ⟨f1, c1, d1⟩ := p1
      obtain ⟨f2, c2, d2⟩ := p2
      have hmono : SCHED_BIN (s.last_time + 1) ≤ SCHED_BIN T := SCHED_BIN_mono (le_of_lt hc)
      refine ⟨sched_dispatch_frame_step s T r1 r2 hc f1 f2, ?_, ?_⟩
      · show r2.1.last_bin ≤ s.last_bin ∨ r2.1.last_bin ≤ SCHED_BIN T
        rcases c2 with c2 | c2
        · rcases c1 with c1 | c1
          · left; omega
          · right; omega
        · right; exact c2
      · intro hs m hmem hb hm
        show m ∈ r1.2 ++ r2.2
        apply List.mem_append.mpr
        by_cases h1 : m.timestamp ≤ s.last_time + 1
        · left; exact d1 hs m hmem hb h1
        · right
          have h1 := not_le.mp h1
          have hs1 : chains_sorted r1.1 := chains_sorted_of_sublist s _ f1.2.1 hs
          have hmem1 : m ∈ r1.1.table (table_cell (SCHED_INDEX m.timestamp)) := by
            have : m ∈ (s.table (table_cell (SCHED_INDEX m.timestamp))).filter
                (fun x => s.last_time + 1 < x.timestamp) :=
              List.mem_filter.mpr ⟨hmem, by simpa using h1⟩
            rw [← f1.2.2.2.1] at this
            exact (List.mem_filter.mp this).1
          have hb1 : r1.1.last_bin ≤ SCHED_BIN m.timestamp := by
            rcases c1 with c1 | c1
            · omega
            · exact le_trans c1 (SCHED_BIN_mono (le_of_lt h1))
          exact d2 hs1 m hmem1 hb1 hm) s T
  obtain ⟨r, hr, h1, h2, h3⟩ := key
  exact ⟨r, hr, h1, h2, h3⟩

/-- Whatever calls follow, a linked message of a sorted table whose bin is not
behind the cursor has been delivered when a `sched_dispatch` to a target not
before its timestamp returns. -/
theorem run_calls_delivers (m : o2_message) (T2 : ℚ) (hm : m.timestamp ≤ T2) :
    ∀ (cs : List sched_call) (s : o2_sched), chains_sorted s →
    m ∈ s.table (table_cell (SCHED_INDEX m.timestamp)) → s.last_bin ≤ SCHED_BIN m.timestamp →
    ∃ r, run_calls s (cs ++ [sched_call.dispatch T2]) = some r ∧ m ∈ r.2 := by
  intro cs
  induction cs with
  | nil =>
    intro s hs hmem hb
    obtain ⟨r, hr, _, _, hd⟩ := sched_dispatch_delivers s T2
    refine ⟨(r.1, r.2 ++ []), run_calls_cons s (.dispatch T2) [] r (r.1, []) hr rfl, ?_⟩
    exact List.mem_append.mpr (Or.inl (hd hs m hmem hb hm))
  | cons c cs ih =>
    intro s hs hmem hb
    cases c with
    | schedule x =>
      obtain ⟨r, hr, hin⟩ := ih (o2_schedule s x).1 (o2_schedule_sorted s x hs)
        ((o2_schedule_sublist s x _).subset hmem) (by rw [o2_schedule_last_bin]; exact hb)
      exact ⟨(r.1, (o2_schedule s x).2 ++ r.2),
        run_calls_cons s (.schedule x) (cs ++ [sched_call.dispatch T2]) (o2_schedule s x) r rfl hr,
        List.mem_append.mpr (Or.inr hin)⟩
    | dispatch T1 =>
      obtain ⟨r1, hr1, f1, c1, d1⟩ := sched_dispatch_delivers s T1
      by_cases h1 : m.timestamp ≤ T1
      · obtain ⟨r2, hr2, _⟩ := run_calls_count (cs ++ [sched_call.dispatch T2]) r1.1
        exact ⟨(r2.1, r1.2 ++ r2.2),
          run_calls_cons s (.dispatch T1) (cs ++ [sched_call.dispatch T2]) r1 r2 hr1 hr2,
          List.mem_append.mpr (Or.inl (d1 hs m hmem hb h1))⟩
      · have h1 := not_le.mp h1
        have hmem1 : m ∈ r1.1.table (table_cell (SCHED_INDEX m.timestamp)) := by
          have : m ∈ (s.table (table_cell (SCHED_INDEX m.timestamp))).filter
              (fun x => T1 < x.timestamp) :=
            List.mem_filter.mpr ⟨hmem, by simpa using h1⟩
          rw [← f1.2.2.2.1] at this
          exact (List.mem_filter.mp this).1
        have hb1 : r1.1.last_bin ≤ SCHED_BIN m.timestamp := by
          rcases c1 with c1 | c1
          · omega
          · exact le_trans c1 (SCHED_BIN_mono (le_of_lt h1))
        obtain ⟨r2, hr2, hin⟩ := ih r1.1 (chains_sorted_of_sublist s _ f1.2.1 hs) hmem1 hb1
        exact ⟨(r2.1, r1.2 ++ r2.2),
          run_calls_cons s (.dispatch T1) (cs ++ [sched_call.dispatch T2]) r1 r2 hr1 hr2,
          List.mem_append.mpr (Or.inr hin)⟩

/-- Chains are sorted in every state reached from a sorted one. -/
theorem run_calls_sorted : ∀ (calls : List sched_call) (s : o2_sched)
    (r : o2_sched × List o2_message), chains_sorted s → run_calls s calls = some r →
    chains_sorted r.1 := by
  intro calls
  induction calls with
  | nil =>
    intro s r hs hr
    simp only [run_calls, Option.some.injEq] at hr
    subst hr
    exact hs
  | cons c cs ih =>
    intro s r hs hr
    simp only [run_calls] at hr
    cases hc : apply_call s c with
    | none => rw [hc] at hr; simp at hr
    | some q1 =>
      rw [hc] at hr
      simp only at hr
      cases hq : run_calls q1.1 cs with
      | none => rw [hq] at hr; simp at hr
      | some q2 =>
        rw [hq] at hr
        simp only [Option.some.injEq] at hr
        subst hr
        apply ih q1.1 q2 _ hq
        cases c with
        | schedule x =>
          simp only [apply_call, Option.some.injEq] at hc
          subst hc
          exact o2_schedule_sorted s x hs
        | dispatch T1 =>
          obtain ⟨r1, hr1, f1⟩ := sched_dispatch_frame s T1
          simp only [apply_call] at hc
          rw [hr1] at hc
          simp only [Option.some.injEq] at hc
          subst hc
          exact chains_sorted_of_sublist s _ f1.2.1 hs


/-! ## Handlers that call back into `o2_schedule` -/

/-- C12: in every state reached from `o2_start_a_scheduler` by calls of
`o2_schedule` and `sched_dispatch`, a call `sched_dispatch(s, T)` with `T` not
before the horizon, whose delivery handlers call `o2_schedule(s, m2)` only with
`m2.timestamp > T`, returns (for every bound that is large enough); it delivers
only messages with timestamp `<= T`, so none of the messages `m2`; when it
returns the chains are sorted, every message `a` later than `T` is linked as
often as it was before plus once for every call `o2_schedule(s, a)` made by a
handler, every such `m2` is linked in the cell `SCHED_INDEX` of its timestamp,
and `m2` is delivered by the time any later `sched_dispatch(s, T2)` with
`T2 >= m2.timestamp` returns, whatever calls come in between, also when the
handlers of that later call schedule messages for after `T2`. -/
theorem reentrant_future_schedule (h : o2_message → List o2_message) (s0 : o2_sched) (h0 : ℚ)
    (calls : List sched_call) (s : o2_sched × List o2_message) (T : ℚ)
    (hreach : run_calls (o2_start_a_scheduler s0 h0) calls = some s)
    (hT : s.1.last_time ≤ T) (hh : handlers_after h T) :
    ∃ N, ∀ fuel, N ≤ fuel → ∃ r, sched_dispatch_h h fuel s.1 T = some r ∧
      r.1.last_time = T ∧
      (∀ m ∈ r.2, m.timestamp ≤ T) ∧
      chains_sorted r.1 ∧
      (∀ a, T < a.timestamp →
        (linked r.1).count a = (linked s.1).count a + (r.2.flatMap h).count a) ∧
      (∀ m2 ∈ r.2.flatMap h, m2 ∉ r.2 ∧
        m2 ∈ r.1.table (table_cell (SCHED_INDEX m2.timestamp)) ∧
        (∀ cs T2, m2.timestamp ≤ T2 →
          ∃ r2, run_calls r.1 (cs ++ [sched_call.dispatch T2]) = some r2 ∧ m2 ∈ r2.2) ∧
        (∀ h2 T2, m2.timestamp ≤ T2 → handlers_after h2 T2 →
          ∃ N2, ∀ fuel2, N2 ≤ fuel2 →
            ∃ r2, sched_dispatch_h h2 fuel2 r.1 T2 = some r2 ∧ m2 ∈ r2.2)) := by
  have hs : chains_sorted s.1 :=
    run_calls_sorted calls _ s (o2_start_a_scheduler_inv s0 h0).2.1 hreach
  obtain ⟨r0, hr0, f0⟩ := sched_dispatch_frame s.1 T
  obtain ⟨q0, hq0, _, hcur⟩ := sched_dispatch_cursor s.1 T
  rw [hr0] at hq0
  simp only [Option.some.injEq] at hq0
  subst hq0
  obtain ⟨N, hN⟩ := sched_dispatch_h_eq h _ s.1 T r0 hr0 hh hT
  have hs0 : chains_sorted r0.1 := chains_sorted_of_sublist s.1 _ f0.2.1 hs
  have hsl : chains_sorted (link_all r0.1 (r0.2.flatMap h)) := link_all_sorted _ _ hs0
  have hlt : (link_all r0.1 (r0.2.flatMap h)).last_time = T := by
    rw [link_all_last_time]; exact f0.1
  refine ⟨N, fun fuel hf => ⟨_, hN fuel hf, hlt, f0.2.2.1, hsl, ?_, ?_⟩⟩
  · intro a ha
    show (linked (link_all r0.1 (r0.2.flatMap h))).count a
      = (linked s.1).count a + (r0.2.flatMap h).count a
    rw [link_all_count]
    have hz : r0.2.count a = 0 :=
      List.count_eq_zero.mpr (fun hm => absurd (f0.2.2.1 a hm) (not_le.mpr ha))
    have := f0.2.2.2.2 a
    omega
  · intro m2 hm2
    have hm2T : T < m2.timestamp := by
      obtain ⟨m, _, hm⟩ := List.mem_flatMap.mp hm2
      exact hh m m2 hm
    have hne : r0.2 ≠ [] := by
      intro he
      rw [he] at hm2
      simp at hm2
    have hcell : m2 ∈ (link_all r0.1 (r0.2.flatMap h)).table
        (table_cell (SCHED_INDEX m2.timestamp)) := link_all_mem _ _ m2 hm2
    have hbin : (link_all r0.1 (r0.2.flatMap h)).last_bin ≤ SCHED_BIN m2.timestamp := by
      rw [link_all_last_bin, hcur (Or.inl hne) hT]
      exact SCHED_BIN_mono (le_of_lt hm2T)
    refine ⟨fun hm => absurd (f0.2.2.1 m2 hm) (not_le.mpr hm2T), hcell, ?_, ?_⟩
    · intro cs T2 h2
      exact run_calls_delivers m2 T2 h2 cs _ hsl hcell hbin
    · intro h2 T2 hT2 hh2
      obtain ⟨r2, hr2, _, _, d2⟩ := sched_dispatch_delivers (link_all r0.1 (r0.2.flatMap h)) T2
      obtain ⟨N2, hN2⟩ := sched_dispatch_h_eq h2 _ _ T2 r2 hr2 hh2
        (by rw [hlt]; exact le_trans (le_of_lt hm2T) hT2)
      exact ⟨N2, fun fuel2 hf2 => ⟨_, hN2 fuel2 hf2, d2 hsl m2 hcell hbin hT2⟩⟩

/-- Witness for C12: a scheduler started at 0 that holds one message for 0.3
whose handler schedules a message for 1, dispatched to 0.5. -/
theorem reentrant_future_schedule_witness :
    ∃ N, ∀ fuel, N ≤ fuel →
      ∃ r, sched_dispatch_h future_handler fuel one_message_sched (1/2) = some r ∧
      r.1.last_time = 1/2 ∧
      (∀ m ∈ r.2, m.timestamp ≤ 1/2) ∧
      chains_sorted r.1 ∧
      (∀ a, 1/2 < a.timestamp → (linked r.1).count a
        = (linked one_message_sched).count a + (r.2.flatMap future_handler).count a) ∧
      (∀ m2 ∈ r.2.flatMap future_handler, m2 ∉ r.2 ∧
        m2 ∈ r.1.table (table_cell (SCHED_INDEX m2.timestamp)) ∧
        (∀ cs T2, m2.timestamp ≤ T2 →
          ∃ r2, run_calls r.1 (cs ++ [sched_call.dispatch T2]) = some r2 ∧ m2 ∈ r2.2) ∧
        (∀ h2 T2, m2.timestamp ≤ T2 → handlers_after h2 T2 →
          ∃ N2, ∀ fuel2, N2 ≤ fuel2 →
            ∃ r2, sched_dispatch_h h2 fuel2 r.1 T2 = some r2 ∧ m2 ∈ r2.2)) :=
  reentrant_future_schedule future_handler blank_sched 0 [.schedule ⟨1, 3/10⟩]
    ((o2_schedule (o2_start_a_scheduler blank_sched 0) ⟨1, 3/10⟩).1,
      (o2_schedule (o2_start_a_scheduler blank_sched 0) ⟨1, 3/10⟩).2 ++ []) (1/2) rfl (by decide!)
    (by
      intro m m2 hm
      unfold future_handler at hm
      split_ifs at hm
      · simp only [List.mem_singleton] at hm
        rw [hm]
        norm_num
      · simp at hm)

/-- C17 (failing input): a scheduler started at 0 holds one message, with tag
1, for 0.3; its handler calls `o2_schedule` with a message for 0.1. When
`sched_dispatch(s, 0.5)` returns, it has delivered the first message only,
`last_time` is 0.5 and the message for 0.1 is linked in the table: it was
compared with the `last_time` of before the call (0) and linked into the cell
of bin 10, which the scan had left. A dispatch to 1 does not deliver it either;
the dispatch to 1.5, which comes to its cell again with bin 138, does. -/
theorem reentrant_table_invariant_failure :
    (sched_dispatch_h past_handler 10 one_message_sched (1/2)).map
        (fun r => (r.2, linked r.1, r.1.last_time, r.1.last_bin))
      = some ([⟨1, 3/10⟩], [⟨2, 1/10⟩], 1/2, 50) ∧
    ((sched_dispatch_h past_handler 10 one_message_sched (1/2)).bind
        (fun r => (sched_dispatch_h past_handler 10 r.1 1).map
          (fun r2 => (r2.2, linked r2.1, r2.1.last_time))))
      = some ([], [⟨2, 1/10⟩], 1) ∧
    ((sched_dispatch_h past_handler 10 one_message_sched (1/2)).bind
        (fun r => (sched_dispatch_h past_handler 10 r.1 1).bind
          (fun r2 => (sched_dispatch_h past_handler 10 r2.1 (3/2)).map
            (fun r3 => (r3.2, linked r3.1, r3.1.last_time)))))
      = some ([⟨2, 1/10⟩], [], 3/2) := by
  refine ⟨?_, ?_, ?_⟩ <;> decide!

/-! ## Rounding to `double` -/

theorem round_half_even_intCast (n : Int) : round_half_even (n : ℚ) = n := by
  unfold round_half_even
  simp

theorem round_half_even_sub_le (q : ℚ) : |(round_half_even q : ℚ) - q| ≤ 1/2 := by
  have h1 := Int.floor_le q
  have h2 := Int.lt_floor_add_one q
  unfold round_half_even
  split_ifs with a b c
  · rw [abs_le]; constructor <;> linarith
  · push_cast; rw [abs_le]; constructor <;> linarith
  · rw [abs_le]; constructor <;> linarith
  · push_cast; rw [abs_le]; constructor <;> linarith

/-- The integer strictly nearer than one half is the rounded value. -/
theorem round_half_even_eq_of_lt {q : ℚ} {n : Int} (h : |q - n| < 1/2) :
    round_half_even q = n := by
  have h1 := round_half_even_sub_le q
  rw [abs_le] at h1
  rw [abs_lt] at h
  have h3 : ((round_half_even q : Int) : ℚ) < (n : ℚ) + 1 := by linarith [h1.1, h1.2, h.1, h.2]
  have h4 : (n : ℚ) - 1 < ((round_half_even q : Int) : ℚ) := by linarith [h1.1, h1.2, h.1, h.2]
  have h5 : round_half_even q < n + 1 := by exact_mod_cast h3
  have h6 : n - 1 < round_half_even q := by exact_mod_cast h4
  omega

/-- Half-way between two integers the even one is taken. -/
theorem round_half_even_tie (n : Int) :
    round_half_even ((n : ℚ) + 1/2) = if n % 2 = 0 then n else n + 1 := by
  have hf : ⌊(n : ℚ) + 1/2⌋ = n := by
    rw [Int.floor_eq_iff]
    constructor <;> linarith
  unfold round_half_even
  rw [hf]
  have e : (n : ℚ) + 1/2 - n = 1/2 := by ring
  rw [e, if_neg (lt_irrefl _), if_neg (lt_irrefl _)]

theorem round_half_even_mono {p q : ℚ} (h : p ≤ q) : round_half_even p ≤ round_half_even q := by
  have hf : ⌊p⌋ ≤ ⌊q⌋ := Int.floor_mono h
  have lo : ∀ x : ℚ, ⌊x⌋ ≤ round_half_even x := by
    intro x
    unfold round_half_even
    split_ifs <;> omega
  have hi : ∀ x : ℚ, round_half_even x ≤ ⌊x⌋ + 1 := by
    intro x
    unfold round_half_even
    split_ifs <;> omega
  rcases eq_or_lt_of_le hf with he | hl
  · unfold round_half_even
    rw [he]
    have hpq : p - ⌊q⌋ ≤ q - ⌊q⌋ := by linarith
    split_ifs <;> first | omega | (exfalso; linarith)
  · have a := hi p
    have b := lo q
    omega

theorem round_half_even_neg (q : ℚ) : round_half_even (-q) = -round_half_even q := by
  by_cases h : |q - (round_half_even q : ℚ)| < 1/2
  · apply round_half_even_eq_of_lt
    push_cast
    have e : -q - -(round_half_even q : ℚ) = -(q - (round_half_even q : ℚ)) := by ring
    rw [e, abs_neg]
    exact h
  · have h1 := round_half_even_sub_le q
    rw [abs_sub_comm] at h1
    have h2 : |q - (round_half_even q : ℚ)| = 1/2 := le_antisymm h1 (not_lt.mp h)
    have hfl := Int.floor_le q
    have hfu := Int.lt_floor_add_one q
    have hq : q = (⌊q⌋ : ℚ) + 1/2 := by
      have key : q - ⌊q⌋ = 1/2 := by
        by_contra hne
        apply h
        unfold round_half_even
        split_ifs with a b c
        · rw [abs_lt]; constructor <;> linarith
        · push_cast; rw [abs_lt]; constructor <;> linarith
        · exfalso
          rcases lt_trichotomy (q - ⌊q⌋) (1/2) with t | t | t
          · exact a t
          · exact hne t
          · exact b t
        · exfalso
          rcases lt_trichotomy (q - ⌊q⌋) (1/2) with t | t | t
          · exact a t
          · exact hne t
          · exact b t
      linarith
    have hnq : -q = ((-⌊q⌋ - 1 : Int) : ℚ) + 1/2 := by
      push_cast
      linarith
    have a := round_half_even_tie (-⌊q⌋ - 1)
    rw [← hnq] at a
    have b := round_half_even_tie ⌊q⌋
    rw [← hq] at b
    rw [a, b]
    split_ifs <;> omega

theorem double_exponent_ge (x : ℚ) : -1022 ≤ double_exponent x := by
  unfold double_exponent
  split_ifs
  · exact le_refl _
  · exact le_max_right _ _

theorem double_exponent_neg (x : ℚ) : double_exponent (-x) = double_exponent x := by
  unfold double_exponent
  rw [abs_neg]
  simp only [neg_eq_zero]

theorem double_exponent_mono {x y : ℚ} (h : |x| ≤ |y|) :
    double_exponent x ≤ double_exponent y := by
  by_cases hx : x = 0
  · rw [hx]
    have := double_exponent_ge y
    simpa [double_exponent] using this
  · have hy : y ≠ 0 := by
      intro hy
      rw [hy, abs_zero] at h
      exact hx (abs_eq_zero.mp (le_antisymm h (abs_nonneg x)))
    unfold double_exponent
    rw [if_neg hx, if_neg hy]
    exact max_le_max (Int.log_mono_right (abs_pos.mpr hx) h) (le_refl _)

/-- Below `2^k` the exponent is below `k`. -/
theorem double_exponent_lt {x : ℚ} {k : Int} (hk : -1022 < k) (h : |x| < (2 : ℚ) ^ k) :
    double_exponent x < k := by
  unfold double_exponent
  split_ifs with hx
  · exact hk
  · apply max_lt _ hk
    have := (Int.lt_zpow_iff_log_lt (R := ℚ) (b := 2) (by norm_num) (x := k) (abs_pos.mpr hx)).mp
      (by simpa using h)
    exact this

/-- Every `x` lies below the next power of two after its exponent. -/
theorem lt_zpow_double_exponent (x : ℚ) : |x| < (2 : ℚ) ^ (double_exponent x + 1) := by
  by_cases hx : x = 0
  · rw [hx, abs_zero]
    exact zpow_pos (by norm_num) _
  have h1 := Int.lt_zpow_succ_log_self (R := ℚ) (b := 2) (by norm_num) |x|
  have h2 : ((2 : ℕ) : ℚ) ^ (Int.log 2 |x| + 1) ≤ (2 : ℚ) ^ (double_exponent x + 1) := by
    have e : ((2 : ℕ) : ℚ) = 2 := by norm_num
    rw [e]
    apply zpow_le_zpow_right₀ (by norm_num)
    unfold double_exponent
    rw [if_neg hx]
    have := le_max_left (Int.log 2 |x|) (-1022)
    omega
  exact lt_of_lt_of_le h1 h2

/-- Above the subnormal range `x` lies at or above the power of two of its
exponent. -/
theorem zpow_double_exponent_le {x : ℚ} (h : -1022 < double_exponent x) :
    (2 : ℚ) ^ double_exponent x ≤ |x| := by
  unfold double_exponent at h ⊢
  split_ifs at h ⊢ with hx
  · omega
  · have hm : max (Int.log 2 |x|) (-1022) = Int.log 2 |x| := by
      apply max_eq_left
      by_contra hc
      rw [max_eq_right (le_of_lt (not_le.mp hc))] at h
      omega
    rw [hm]
    have := Int.zpow_log_le_self (R := ℚ) (b := 2) (by norm_num) (abs_pos.mpr hx)
    simpa using this

/-- The exponent of a number between `2^e` and `2^(e+1)`. -/
theorem double_exponent_eq {x : ℚ} {e : Int} (he : -1022 ≤ e) (h1 : (2 : ℚ) ^ e ≤ |x|)
    (h2 : |x| < (2 : ℚ) ^ (e + 1)) : double_exponent x = e := by
  have hx : x ≠ 0 := by
    intro hx
    rw [hx, abs_zero] at h1
    exact absurd h1 (not_le.mpr (zpow_pos (by norm_num) e))
  have hp := abs_pos.mpr hx
  have a : e ≤ Int.log 2 |x| :=
    (Int.zpow_le_iff_le_log (R := ℚ) (b := 2) (by norm_num) hp).mp (by simpa using h1)
  have b : Int.log 2 |x| < e + 1 :=
    (Int.lt_zpow_iff_log_lt (R := ℚ) (b := 2) (by norm_num) hp).mp (by simpa using h2)
  unfold double_exponent
  rw [if_neg hx, max_eq_left (by omega)]
  omega

theorem double_ulp_pos (x : ℚ) : 0 < double_ulp x :=
  zpow_pos (by norm_num) _

theorem double_ulp_neg (x : ℚ) : double_ulp (-x) = double_ulp x := by
  unfold double_ulp
  rw [double_exponent_neg]

theorem double_round_neg (x : ℚ) : double_round (-x) = -double_round x := by
  unfold double_round
  rw [double_ulp_neg, neg_div, round_half_even_neg]
  push_cast
  ring

/-- A non-negative power of two is an integer. -/
theorem zpow_two_eq_intCast {k : Int} (hk : 0 ≤ k) : ∃ N : Int, 0 < N ∧ (2 : ℚ) ^ k = (N : ℚ) := by
  refine ⟨2 ^ k.toNat, by positivity, ?_⟩
  have e : k = (k.toNat : Int) := (Int.toNat_of_nonneg hk).symm
  nth_rewrite 1 [e]
  rw [zpow_natCast]
  push_cast
  rfl

/-- A multiple of the spacing around `x` is a bound of `double_round x` as soon
as it is a bound of `x`. -/
theorem double_round_le_grid {x : ℚ} (m : Int) (h : x ≤ (m : ℚ) * double_ulp x) :
    double_round x ≤ (m : ℚ) * double_ulp x := by
  have hu := double_ulp_pos x
  unfold double_round
  apply mul_le_mul_of_nonneg_right _ (le_of_lt hu)
  have h1 : x / double_ulp x ≤ (m : ℚ) := by
    rw [div_le_iff₀ hu]
    exact h
  have h2 := round_half_even_mono h1
  rw [round_half_even_intCast] at h2
  exact_mod_cast h2

theorem double_round_ge_grid {x : ℚ} (m : Int) (h : (m : ℚ) * double_ulp x ≤ x) :
    (m : ℚ) * double_ulp x ≤ double_round x := by
  have hu := double_ulp_pos x
  unfold double_round
  apply mul_le_mul_of_nonneg_right _ (le_of_lt hu)
  have h1 : (m : ℚ) ≤ x / double_ulp x := by
    rw [le_div_iff₀ hu]
    exact h
  have h2 := round_half_even_mono h1
  rw [round_half_even_intCast] at h2
  exact_mod_cast h2

/-- A multiple of the spacing around it is a `double`. -/
theorem double_round_grid {x : ℚ} (m : Int) (h : x = (m : ℚ) * double_ulp x) :
    double_round x = x :=
  le_antisymm (by nth_rewrite 2 [h]; exact double_round_le_grid m (le_of_eq h))
    (by nth_rewrite 1 [h]; exact double_round_ge_grid m (le_of_eq h.symm))

theorem double_round_zero : double_round 0 = 0 := by
  unfold double_round
  simp [round_half_even]

theorem double_round_nonneg {x : ℚ} (h : 0 ≤ x) : 0 ≤ double_round x := by
  have := double_round_ge_grid (x := x) 0 (by simpa using h)
  simpa using this

theorem double_round_sub_le (x : ℚ) : |double_round x - x| ≤ double_ulp x / 2 := by
  have hu := double_ulp_pos x
  have h := round_half_even_sub_le (x / double_ulp x)
  have e : double_round x - x
      = ((round_half_even (x / double_ulp x) : ℚ) - x / double_ulp x) * double_ulp x := by
    unfold double_round
    field_simp
  rw [e, abs_mul, abs_of_pos hu]
  calc |(round_half_even (x / double_ulp x) : ℚ) - x / double_ulp x| * double_ulp x
      ≤ 1/2 * double_ulp x := mul_le_mul_of_nonneg_right h (le_of_lt hu)
    _ = double_ulp x / 2 := by ring

/-- The rounding error below `2^k`: at most half the spacing `2^(k-53)`. -/
theorem double_round_error {x : ℚ} {k : Int} (hk : -1022 < k) (h : |x| < (2 : ℚ) ^ k) :
    |double_round x - x| ≤ (2 : ℚ) ^ (k - 54) := by
  have h1 := double_round_sub_le x
  have h2 : double_ulp x ≤ (2 : ℚ) ^ (k - 53) := by
    unfold double_ulp
    apply zpow_le_zpow_right₀ (by norm_num)
    have := double_exponent_lt hk h
    omega
  have h3 : (2 : ℚ) ^ (k - 53) = 2 * (2 : ℚ) ^ (k - 54) := by
    have : k - 53 = 1 + (k - 54) := by ring
    rw [this, zpow_one_add₀ (by norm_num)]
  linarith

/-- Rounding to `double` is monotone, for non-negative arguments first. -/
theorem double_round_mono_nonneg {x y : ℚ} (hx : 0 ≤ x) (h : x ≤ y) :
    double_round x ≤ double_round y := by
  have hy : 0 ≤ y := le_trans hx h
  have hab : |x| ≤ |y| := by rw [abs_of_nonneg hx, abs_of_nonneg hy]; exact h
  have he := double_exponent_mono hab
  rcases eq_or_lt_of_le he with heq | hlt
  · have hu : double_ulp x = double_ulp y := by unfold double_ulp; rw [heq]
    unfold double_round
    rw [hu]
    apply mul_le_mul_of_nonneg_right _ (le_of_lt (double_ulp_pos y))
    have : x / double_ulp y ≤ y / double_ulp y :=
      div_le_div_of_nonneg_right h (le_of_lt (double_ulp_pos y))
    exact_mod_cast round_half_even_mono this
  · have hgt : -1022 < double_exponent y := lt_of_le_of_lt (double_exponent_ge x) hlt
    have hB : (2 : ℚ) ^ double_exponent y ≤ y := by
      have := zpow_double_exponent_le hgt
      rwa [abs_of_nonneg hy] at this
    have hxB : x ≤ (2 : ℚ) ^ double_exponent y := by
      have h1 := lt_zpow_double_exponent x
      rw [abs_of_nonneg hx] at h1
      have h2 : (2 : ℚ) ^ (double_exponent x + 1) ≤ (2 : ℚ) ^ double_exponent y :=
        zpow_le_zpow_right₀ (by norm_num) (by omega)
      linarith
    obtain ⟨N1, _, hN1⟩ := zpow_two_eq_intCast
      (k := double_exponent y - double_exponent x + 52) (by omega)
    have e1 : (2 : ℚ) ^ double_exponent y = (N1 : ℚ) * double_ulp x := by
      rw [← hN1]
      unfold double_ulp
      rw [← zpow_add₀ (by norm_num)]
      congr 1
      ring
    obtain ⟨N2, _, hN2⟩ := zpow_two_eq_intCast (k := 52) (by norm_num)
    have e2 : (2 : ℚ) ^ double_exponent y = (N2 : ℚ) * double_ulp y := by
      rw [← hN2]
      unfold double_ulp
      rw [← zpow_add₀ (by norm_num)]
      congr 1
      ring
    have a := double_round_le_grid (x := x) N1 (by rw [← e1]; exact hxB)
    have b := double_round_ge_grid (x := y) N2 (by rw [← e2]; exact hB)
    rw [← e1] at a
    rw [← e2] at b
    exact le_trans a b

/-- Rounding to `double` is monotone. -/
theorem double_round_mono {x y : ℚ} (h : x ≤ y) : double_round x ≤ double_round y := by
  by_cases hx : 0 ≤ x
  · exact double_round_mono_nonneg hx h
  · by_cases hy : y ≤ 0
    · have := double_round_mono_nonneg (x := -y) (y := -x) (by linarith) (by linarith)
      rw [double_round_neg, double_round_neg] at this
      linarith
    · have a := double_round_nonneg (le_of_lt (not_le.mp hy))
      have b := double_round_nonneg (x := -x) (by linarith)
      rw [double_round_neg] at b
      linarith

/-- Adding an integer to a `double` of magnitude at most `2^52` without
increasing the magnitude is exact. -/
theorem double_round_add_int {x : ℚ} (hx : double_round x = x) (hb : |x| ≤ (2 : ℚ) ^ (52 : Int))
    (n : Int) (hy : |x + n| ≤ |x|) : double_round (x + n) = x + n := by
  have he := double_exponent_mono hy
  have hex : double_exponent x < 53 :=
    double_exponent_lt (by norm_num) (lt_of_le_of_lt hb (zpow_lt_zpow_right₀ (by norm_num)
      (by norm_num)))
  obtain ⟨N1, _, hN1⟩ := zpow_two_eq_intCast
    (k := double_exponent x - double_exponent (x + n)) (by omega)
  obtain ⟨N2, _, hN2⟩ := zpow_two_eq_intCast (k := 52 - double_exponent (x + n)) (by omega)
  have e1 : double_ulp x = (N1 : ℚ) * double_ulp (x + n) := by
    rw [← hN1]
    unfold double_ulp
    rw [← zpow_add₀ (by norm_num)]
    congr 1
    ring
  have e2 : (1 : ℚ) = (N2 : ℚ) * double_ulp (x + n) := by
    rw [← hN2]
    unfold double_ulp
    rw [← zpow_add₀ (by norm_num)]
    have : 52 - double_exponent (x + n) + (double_exponent (x + n) - 52) = 0 := by ring
    rw [this, zpow_zero]
  apply double_round_grid (round_half_even (x / double_ulp x) * N1 + n * N2)
  have hx1 : x = (round_half_even (x / double_ulp x) : ℚ) * double_ulp x := by
    nth_rewrite 1 [← hx]
    rfl
  push_cast
  linear_combination hx1 + (round_half_even (x / double_ulp x) : ℚ) * e1 + (n : ℚ) * e2

/-! ## The stepping loop in `double` arithmetic -/

/-- Rounding a `double` again changes nothing. -/
theorem double_round_idem_nonneg {x : ℚ} (hx : 0 ≤ x) :
    double_round (double_round x) = double_round x := by
  have hy : 0 ≤ double_round x := double_round_nonneg hx
  have hxe := lt_zpow_double_exponent x
  rw [abs_of_nonneg hx] at hxe
  obtain ⟨N53, _, hN53⟩ := zpow_two_eq_intCast (k := 53) (by norm_num)
  have eB : (2 : ℚ) ^ (double_exponent x + 1) = (N53 : ℚ) * double_ulp x := by
    rw [← hN53]
    unfold double_ulp
    rw [← zpow_add₀ (by norm_num)]
    congr 1
    ring
  have hyB : double_round x ≤ (2 : ℚ) ^ (double_exponent x + 1) := by
    rw [eB]
    exact double_round_le_grid N53 (by rw [← eB]; exact le_of_lt hxe)
  by_cases hc : double_exponent (double_round x) ≤ double_exponent x
  · obtain ⟨N, _, hN⟩ := zpow_two_eq_intCast
      (k := double_exponent x - double_exponent (double_round x)) (by omega)
    have e1 : double_ulp x = (N : ℚ) * double_ulp (double_round x) := by
      rw [← hN]
      unfold double_ulp
      rw [← zpow_add₀ (by norm_num)]
      congr 1
      ring
    apply double_round_grid (round_half_even (x / double_ulp x) * N)
    push_cast
    have e0 : double_round x = (round_half_even (x / double_ulp x) : ℚ) * double_ulp x := rfl
    linear_combination e0 + (round_half_even (x / double_ulp x) : ℚ) * e1
  · have hgt : double_exponent x < double_exponent (double_round x) := not_le.mp hc
    have h1 : -1022 < double_exponent (double_round x) :=
      lt_of_le_of_lt (double_exponent_ge x) hgt
    have h2 := zpow_double_exponent_le h1
    rw [abs_of_nonneg hy] at h2
    have h3 : (2 : ℚ) ^ (double_exponent x + 1) ≤ (2 : ℚ) ^ double_exponent (double_round x) :=
      zpow_le_zpow_right₀ (by norm_num) (by omega)
    have hyeq : double_round x = (2 : ℚ) ^ (double_exponent x + 1) :=
      le_antisymm hyB (le_trans h3 h2)
    have hee : double_exponent (double_round x) = double_exponent x + 1 := by
      apply double_exponent_eq (by have := double_exponent_ge x; omega)
      · rw [abs_of_nonneg hy, hyeq]
      · rw [abs_of_nonneg hy, hyeq]
        exact zpow_lt_zpow_right₀ (by norm_num) (by omega)
    obtain ⟨N52, _, hN52⟩ := zpow_two_eq_intCast (k := 52) (by norm_num)
    apply double_round_grid N52
    rw [← hN52]
    unfold double_ulp
    rw [← zpow_add₀ (by norm_num), hee]
    nth_rewrite 1 [hyeq]
    congr 1
    ring

theorem double_round_idem (x : ℚ) : double_round (double_round x) = double_round x := by
  by_cases hx : 0 ≤ x
  · exact double_round_idem_nonneg hx
  · have := double_round_idem_nonneg (x := -x) (by linarith)
    rw [double_round_neg, double_round_neg] at this
    linarith

theorem is_double_double_round (x : ℚ) : is_double (double_round x) :=
  double_round_idem x

/-- On times of magnitude at most `2^52` the rounded sum `a + 1` is at least
`a + 1/2`: the stepping loop advances. -/
theorem double_round_succ_ge {a : ℚ} (h : |a| ≤ (2 : ℚ) ^ (52 : Int)) :
    a + 1/2 ≤ double_round (a + 1) := by
  have hb : |a + 1| < (2 : ℚ) ^ (53 : Int) := by
    have h1 : |a + 1| ≤ |a| + |1| := abs_add a 1
    have h2 : (2 : ℚ) ^ (53 : Int) = 2 * (2 : ℚ) ^ (52 : Int) := by norm_num
    have h3 : (1 : ℚ) < (2 : ℚ) ^ (52 : Int) := by norm_num
    rw [abs_one] at h1
    linarith
  have he := double_round_error (by norm_num) hb
  have e : (2 : ℚ) ^ ((53 : Int) - 54) = 1/2 := by norm_num
  rw [e, abs_le] at he
  linarith [he.1]

theorem SCHED_BIN_d_mono {t u : ℚ} (h : t ≤ u) : SCHED_BIN_d t ≤ SCHED_BIN_d u := by
  unfold SCHED_BIN_d
  exact to_int64_mono (double_round_mono (by linarith))

/-- Truncation toward zero separates two numbers by less than their distance
plus one. -/
theorem to_int64_sub_lt {a b : ℚ} (h : b ≤ a) : ((to_int64 a - to_int64 b : Int) : ℚ) < a - b + 1 := by
  have fa := Int.floor_le a
  have fb := Int.lt_floor_add_one b
  have ca := Int.ceil_lt_add_one a
  have cb := Int.le_ceil b
  unfold to_int64
  split_ifs with ha hb hb
  · push_cast; linarith
  · push_cast; linarith
  · exfalso; linarith
  · push_cast; linarith

/-- In `double` arithmetic, on times of magnitude at most `2^44`: a target that
the stepping test lets pass lies at most 101 bins after the horizon. -/
theorem SCHED_BIN_d_step {t u : ℚ} (ht : |t| ≤ (2 : ℚ) ^ (44 : Int))
    (hu : |u| ≤ (2 : ℚ) ^ (44 : Int)) (h1 : t ≤ u) (h2 : ¬ (double_round (t + 1) < u)) :
    SCHED_BIN_d u ≤ SCHED_BIN_d t + 101 := by
  have h2 := not_lt.mp h2
  have p44 : (2 : ℚ) ^ (44 : Int) = 17592186044416 := by norm_num
  rw [p44] at ht hu
  have bt := abs_le.mp ht
  have bu := abs_le.mp hu
  have e1 : |double_round (t + 1) - (t + 1)| ≤ (2 : ℚ) ^ ((45 : Int) - 54) := by
    apply double_round_error (by norm_num)
    rw [abs_lt]
    constructor <;> norm_num <;> linarith [bt.1, bt.2]
  have e2 : |double_round (u * 100) - u * 100| ≤ (2 : ℚ) ^ ((51 : Int) - 54) := by
    apply double_round_error (by norm_num)
    rw [abs_lt]
    constructor <;> norm_num <;> linarith [bu.1, bu.2]
  have e3 : |double_round (t * 100) - t * 100| ≤ (2 : ℚ) ^ ((51 : Int) - 54) := by
    apply double_round_error (by norm_num)
    rw [abs_lt]
    constructor <;> norm_num <;> linarith [bt.1, bt.2]
  have q1 : (2 : ℚ) ^ ((45 : Int) - 54) = 1/512 := by norm_num
  have q2 : (2 : ℚ) ^ ((51 : Int) - 54) = 1/8 := by norm_num
  rw [q1, abs_le] at e1
  rw [q2, abs_le] at e2 e3
  have hmono : double_round (t * 100) ≤ double_round (u * 100) :=
    double_round_mono (by linarith)
  have key := to_int64_sub_lt hmono
  have hlt : ((to_int64 (double_round (u * 100)) - to_int64 (double_round (t * 100)) : Int) : ℚ)
      < 102 := by linarith [e1.1, e1.2, e2.1, e2.2, e3.1, e3.2]
  have : to_int64 (double_round (u * 100)) - to_int64 (double_round (t * 100)) < 102 := by
    exact_mod_cast hlt
  unfold SCHED_BIN_d
  omega

theorem sched_dispatch_scan_d_last_bin (s : o2_sched) (T : ℚ) (h : s.last_bin ≤ SCHED_BIN_d T) :
    (sched_dispatch_scan_d s T).1.last_bin = SCHED_BIN_d T := by
  show (sched_scan_bins _ s T (SCHED_BIN_d T)).1.last_bin - 1 = SCHED_BIN_d T
  rw [sched_scan_bins_last_bin T (SCHED_BIN_d T) _ s
    (by rw [Int.toNat_of_nonneg (by omega)]; omega)]
  omega

/-- A sub-dispatch, that is a call whose target is the rounded sum
`last_time + 1`, makes no sub-dispatch of its own: it is the scan of lines
170-189 and nothing else. -/
theorem sub_dispatch_no_recursion_d (n : Nat) (s : o2_sched) :
    sched_dispatch_steps_d (n + 1) s (double_round (s.last_time + 1)) = some (s, []) ∧
    sched_dispatch_fuel_d (n + 1) s (double_round (s.last_time + 1))
      = some (sched_dispatch_scan_d s (double_round (s.last_time + 1))) := by
  constructor
  · rw [sched_dispatch_steps_d, if_neg (lt_irrefl _)]
  · rw [sched_dispatch_fuel_d, if_neg (lt_irrefl _)]

/-- The function `sched_dispatch` is its stepping loop followed by the scan. -/
theorem sched_dispatch_fuel_d_eq_steps : ∀ (fuel : Nat) (s : o2_sched) (T : ℚ),
    sched_dispatch_fuel_d fuel s T = (sched_dispatch_steps_d fuel s T).map
      (fun r => ((sched_dispatch_scan_d r.1 T).1,
        r.2.flatten ++ (sched_dispatch_scan_d r.1 T).2)) := by
  intro fuel
  induction fuel with
  | zero => intro s T; rfl
  | succ n ih =>
    intro s T
    rw [sched_dispatch_fuel_d, sched_dispatch_steps_d]
    split_ifs with hc
    · cases h1 : sched_dispatch_fuel_d n s (double_round (s.last_time + 1)) with
      | none => rfl
      | some r1 =>
        simp only
        rw [ih r1.1 T]
        cases h2 : sched_dispatch_steps_d n r1.1 T with
        | none => rfl
        | some r2 => simp [List.flatten_cons, List.append_assoc]
    · simp

/-- On times of magnitude at most `2^52` the stepping loop returns. -/
theorem sched_dispatch_steps_d_returns (T : ℚ) (hT : |T| ≤ (2 : ℚ) ^ (52 : Int)) :
    ∀ (n : Nat) (s : o2_sched), |s.last_time| ≤ (2 : ℚ) ^ (52 : Int) →
    (⌈2 * (T - s.last_time)⌉).toNat ≤ n → ∃ r, sched_dispatch_steps_d (n + 1) s T = some r := by
  intro n
  induction n with
  | zero =>
    intro s hs hb
    rw [sched_dispatch_steps_d]
    have hc : ¬ (double_round (s.last_time + 1) < T) := by
      intro hlt
      have hp := double_round_succ_ge hs
      have : (1 : Int) < ⌈2 * (T - s.last_time)⌉ := Int.lt_ceil.mpr (by push_cast; linarith)
      omega
    rw [if_neg hc]
    exact ⟨_, rfl⟩
  | succ n ih =>
    intro s hs hb
    rw [sched_dispatch_steps_d]
    split_ifs with hc
    · have hp := double_round_succ_ge hs
      rw [(sub_dispatch_no_recursion_d n s).2]
      simp only
      have hlt : (sched_dispatch_scan_d s (double_round (s.last_time + 1))).1.last_time
          = double_round (s.last_time + 1) := rfl
      have hs1 : |(sched_dispatch_scan_d s (double_round (s.last_time + 1))).1.last_time|
          ≤ (2 : ℚ) ^ (52 : Int) := by
        rw [hlt, abs_le]
        have bs := abs_le.mp hs
        have bT := abs_le.mp hT
        constructor <;> linarith [bs.1, bT.2]
      have hb1 : (⌈2 * (T - (sched_dispatch_scan_d s
          (double_round (s.last_time + 1))).1.last_time)⌉).toNat ≤ n := by
        rw [hlt]
        have h1 : 2 * (T - double_round (s.last_time + 1))
            ≤ 2 * (T - s.last_time) - ((1 : Int) : ℚ) := by push_cast; linarith
        have h2 : ⌈2 * (T - double_round (s.last_time + 1))⌉
            ≤ ⌈2 * (T - s.last_time) - ((1 : Int) : ℚ)⌉ := Int.ceil_mono h1
        rw [Int.ceil_sub_int] at h2
        omega
      obtain ⟨r2, h2⟩ := ih _ hs1 hb1
      rw [h2]
      exact ⟨_, rfl⟩
    · exact ⟨_, rfl⟩

/-- What lets a `double` pass the rounded sum: if `D - j` for a `double` `D`
and a count `j` is at most `a + 1` for a `double` `a`, it is at most the
rounded sum too. -/
theorem le_double_round_succ {a D : ℚ} (j : Nat) (ha : is_double a)
    (hab : |a| ≤ (2 : ℚ) ^ (52 : Int)) (hD : is_double D) (hDb : |D| ≤ (2 : ℚ) ^ (52 : Int))
    (h : D - (j : ℚ) ≤ a + 1) : D - (j : ℚ) ≤ double_round (a + 1) := by
  have hj : (0 : ℚ) ≤ (j : ℚ) := Nat.cast_nonneg j
  by_cases hc : 0 ≤ D - (j : ℚ)
  · have hD0 : 0 ≤ D := by linarith
    have e := double_round_add_int hD hDb (-(j : Int))
      (by
        push_cast
        rw [abs_of_nonneg hD0, abs_of_nonneg (by linarith)]
        linarith)
    push_cast at e
    have e2 : D + -(j : ℚ) = D - (j : ℚ) := by ring
    rw [e2] at e
    rw [← e]
    exact double_round_mono h
  · by_cases ha1 : 0 ≤ a + 1
    · have := double_round_nonneg ha1
      linarith
    · have e := double_round_add_int ha hab 1
        (by
          push_cast
          rw [abs_of_neg (by linarith), abs_of_neg (by linarith)]
          linarith)
      push_cast at e
      rw [e]
      exact h

/-- What the stepping loop leaves behind, on times of magnitude at most `2^52`:
the loop test is false; if a sub-dispatch was made, the horizon has advanced
and is below the target; a cursor that was the bin of the horizon still is;
and a `double` that lies at most as many seconds after the old horizon as
sub-dispatches were made is not after the new horizon. -/
theorem sched_dispatch_steps_d_props (T : ℚ) (hT : |T| ≤ (2 : ℚ) ^ (52 : Int)) :
    ∀ (fuel : Nat) (s : o2_sched) (r : o2_sched × List (List o2_message)),
    sched_dispatch_steps_d fuel s T = some r → |s.last_time| ≤ (2 : ℚ) ^ (52 : Int) →
    ¬ (double_round (r.1.last_time + 1) < T) ∧
    (r = (s, []) ∨ (r.2 ≠ [] ∧ s.last_time ≤ r.1.last_time ∧ r.1.last_time < T)) ∧
    |r.1.last_time| ≤ (2 : ℚ) ^ (52 : Int) ∧
    (s.last_bin = SCHED_BIN_d s.last_time → r.1.last_bin = SCHED_BIN_d r.1.last_time) ∧
    (is_double s.last_time → ∀ D, is_double D → |D| ≤ (2 : ℚ) ^ (52 : Int) →
      D - (r.2.length : ℚ) ≤ s.last_time → D ≤ r.1.last_time) := by
  intro fuel
  induction fuel with
  | zero => intro s r h; simp [sched_dispatch_steps_d] at h
  | succ n ih =>
    intro s r h hs
    rw [sched_dispatch_steps_d] at h
    split_ifs at h with hc
    · cases n with
      | zero => simp [sched_dispatch_fuel_d] at h
      | succ k =>
        rw [(sub_dispatch_no_recursion_d k s).2] at h
        simp only at h
        have hp := double_round_succ_ge hs
        have hlt : (sched_dispatch_scan_d s (double_round (s.last_time + 1))).1.last_time
            = double_round (s.last_time + 1) := rfl
        have hs1 : |(sched_dispatch_scan_d s (double_round (s.last_time + 1))).1.last_time|
            ≤ (2 : ℚ) ^ (52 : Int) := by
          rw [hlt, abs_le]
          have bs := abs_le.mp hs
          have bT := abs_le.mp hT
          constructor <;> linarith [bs.1, bT.2]
        cases h2 : sched_dispatch_steps_d (k + 1)
            (sched_dispatch_scan_d s (double_round (s.last_time + 1))).1 T with
        | none => rw [h2] at h; simp at h
        | some r2 =>
          rw [h2] at h
          simp only [Option.some.injEq] at h
          subst h
          obtain ⟨a1, a2, a3, a4, a5⟩ := ih _ r2 h2 hs1
          rw [hlt] at a2 a4 a5
          have hle : double_round (s.last_time + 1) ≤ r2.1.last_time ∧ r2.1.last_time < T := by
            rcases a2 with a2 | a2
            · rw [a2]
              exact ⟨le_of_eq hlt.symm, by rw [hlt]; exact hc⟩
            · exact ⟨a2.2.1, a2.2.2⟩
          refine ⟨a1, Or.inr ⟨by simp, by linarith [hle.1], hle.2⟩, a3, ?_, ?_⟩
          · intro hb
            apply a4
            exact sched_dispatch_scan_d_last_bin s _
              (by rw [hb]; exact SCHED_BIN_d_mono (by linarith))
          · intro hsd D hD hDb hle2
            apply a5 (is_double_double_round _) D hD hDb
            apply le_double_round_succ r2.2.length hsd hs hD hDb
            simp only [List.length_cons] at hle2
            push_cast at hle2
            linarith
    · simp only [Option.some.injEq] at h
      subst h
      refine ⟨hc, Or.inl rfl, hs, fun hb => hb, ?_⟩
      intro _ D _ _ hle
      simpa using hle

/-- On times of magnitude at most `2^52` the stepping loop of a call returns,
and the call is the loop followed by the scan. -/
theorem sched_dispatch_steps_d_total (s : o2_sched) (T : ℚ)
    (hs : |s.last_time| ≤ (2 : ℚ) ^ (52 : Int)) (hT : |T| ≤ (2 : ℚ) ^ (52 : Int)) :
    ∃ r, sched_dispatch_steps_d (sched_dispatch_bound_d s T) s T = some r ∧
      sched_dispatch_d s T = some ((sched_dispatch_scan_d r.1 T).1,
        r.2.flatten ++ (sched_dispatch_scan_d r.1 T).2) := by
  obtain ⟨r, hr⟩ := sched_dispatch_steps_d_returns T hT _ s hs (le_refl _)
  refine ⟨r, hr, ?_⟩
  unfold sched_dispatch_d
  rw [sched_dispatch_fuel_d_eq_steps]
  unfold sched_dispatch_bound_d
  rw [hr]
  rfl

/-- Evaluation of `double_round`: between `2^e` and `2^(e+1)` the result is the
multiple `m * 2^(e-52)` that is nearer than half a spacing. -/
theorem double_round_eval {x : ℚ} (e m : Int) (he : -1022 ≤ e) (h1 : (2 : ℚ) ^ e ≤ |x|)
    (h2 : |x| < (2 : ℚ) ^ (e + 1)) (hm : |x / (2 : ℚ) ^ (e - 52) - (m : ℚ)| < 1/2) :
    double_round x = (m : ℚ) * (2 : ℚ) ^ (e - 52) := by
  unfold double_round double_ulp
  rw [double_exponent_eq he h1 h2, round_half_even_eq_of_lt hm]

/-- Evaluation of `double_round` half-way between two neighbours. -/
theorem double_round_eval_tie {x : ℚ} (e m : Int) (he : -1022 ≤ e) (h1 : (2 : ℚ) ^ e ≤ |x|)
    (h2 : |x| < (2 : ℚ) ^ (e + 1)) (hm : x / (2 : ℚ) ^ (e - 52) = (m : ℚ) + 1/2) :
    double_round x = ((if m % 2 = 0 then m else m + 1 : Int) : ℚ) * (2 : ℚ) ^ (e - 52) := by
  unfold double_round double_ulp
  rw [double_exponent_eq he h1 h2, hm, round_half_even_tie]

theorem double_round_029 : double_round (29/100) = 5224175567749775 / 18014398509481984 := by
  rw [double_round_eval (-2) 5224175567749775 (by norm_num) (by norm_num [abs_of_pos])
    (by norm_num [abs_of_pos]) (by norm_num [abs_lt])]
  norm_num

theorem double_round_129 : double_round (129/100) = 1452410879826985 / 1125899906842624 := by
  rw [double_round_eval 0 5809643519307940 (by norm_num) (by norm_num [abs_of_pos])
    (by norm_num [abs_of_pos]) (by norm_num [abs_lt])]
  norm_num

theorem double_round_029_succ :
    double_round (5224175567749775 / 18014398509481984 + 1)
      = 1452410879826985 / 1125899906842624 := by
  rw [double_round_eval 0 5809643519307940 (by norm_num) (by norm_num [abs_of_pos])
    (by norm_num [abs_of_pos]) (by norm_num [abs_lt])]
  norm_num

theorem SCHED_BIN_d_029 : SCHED_BIN_d (5224175567749775 / 18014398509481984) = 28 := by
  unfold SCHED_BIN_d
  rw [double_round_eval 4 8162774324609023 (by norm_num) (by norm_num [abs_of_pos])
    (by norm_num [abs_of_pos]) (by norm_num [abs_lt])]
  unfold to_int64
  rw [if_pos (by norm_num), Int.floor_eq_iff]
  norm_num

theorem SCHED_BIN_d_129 : SCHED_BIN_d (1452410879826985 / 1125899906842624) = 129 := by
  unfold SCHED_BIN_d
  rw [double_round_eval 7 4538783999459328 (by norm_num) (by norm_num [abs_of_pos])
    (by norm_num [abs_of_pos]) (by norm_num [abs_lt])]
  unfold to_int64
  rw [if_pos (by norm_num), Int.floor_eq_iff]
  norm_num

theorem double_round_two_pow_53 : double_round (2 ^ 53) = 2 ^ 53 := by
  rw [double_round_eval 53 4503599627370496 (by norm_num) (by norm_num [abs_of_pos])
    (by norm_num [abs_of_pos]) (by norm_num [abs_lt])]
  norm_num

theorem double_round_two_pow_53_succ : double_round (2 ^ 53 + 1) = 2 ^ 53 := by
  rw [double_round_eval_tie 53 4503599627370496 (by norm_num) (by norm_num [abs_of_pos])
    (by norm_num [abs_of_pos]) (by norm_num)]
  norm_num

theorem double_round_two_pow_53_add_four : double_round (2 ^ 53 + 4) = 2 ^ 53 + 4 := by
  rw [double_round_eval 53 4503599627370498 (by norm_num) (by norm_num [abs_of_pos])
    (by norm_num [abs_of_pos]) (by norm_num [abs_lt])]
  norm_num

theorem double_round_five_halves : double_round (5/2) = 5/2 := by
  rw [double_round_eval 1 5629499534213120 (by norm_num) (by norm_num [abs_of_pos])
    (by norm_num [abs_of_pos]) (by norm_num [abs_lt])]
  norm_num

theorem sched_dispatch_fuel_d_last_time : ∀ (fuel : Nat) (s : o2_sched) (T : ℚ)
    (r : o2_sched × List o2_message), sched_dispatch_fuel_d fuel s T = some r →
    r.1.last_time = T := by
  intro fuel
  induction fuel with
  | zero => intro s T r h; simp [sched_dispatch_fuel_d] at h
  | succ n ih =>
    intro s T r h
    rw [sched_dispatch_fuel_d] at h
    split_ifs at h with hc
    · cases h1 : sched_dispatch_fuel_d n s (double_round (s.last_time + 1)) with
      | none => rw [h1] at h; simp at h
      | some r1 =>
        rw [h1] at h
        simp only at h
        cases h2 : sched_dispatch_fuel_d n r1.1 T with
        | none => rw [h2] at h; simp at h
        | some r2 =>
          rw [h2] at h
          simp only [Option.some.injEq] at h
          subst h
          exact ih r1.1 T r2 h2
    · simp only [Option.some.injEq] at h
      subst h
      rfl

/-- Where the rounded sum `last_time + 1` is `last_time` again, a call with a
later target does not return, whatever the bound: every sub-dispatch leaves
the horizon where it was and the loop test stays true. -/
theorem sched_dispatch_fuel_d_stuck (T : ℚ) : ∀ (fuel : Nat) (s : o2_sched),
    double_round (s.last_time + 1) = s.last_time → s.last_time < T →
    sched_dispatch_fuel_d fuel s T = none := by
  intro fuel
  induction fuel with
  | zero => intro s _ _; rfl
  | succ n ih =>
    intro s h1 h2
    rw [sched_dispatch_fuel_d, if_pos (by rw [h1]; exact h2)]
    cases h3 : sched_dispatch_fuel_d n s (double_round (s.last_time + 1)) with
    | none => rfl
    | some r1 =>
      simp only
      have hlt := sched_dispatch_fuel_d_last_time n s _ r1 h3
      rw [h1] at hlt
      rw [ih r1.1 (by rw [hlt]; exact h1) (by rw [hlt]; exact h2)]

theorem SCHED_BIN_d_3_2_50 : SCHED_BIN_d (3 * 2 ^ 50) = 337769972052787200 := by
  unfold SCHED_BIN_d
  rw [double_round_eval 58 5277655813324800 (by norm_num) (by norm_num [abs_of_pos])
    (by norm_num [abs_of_pos]) (by norm_num [abs_lt])]
  unfold to_int64
  rw [if_pos (by norm_num), Int.floor_eq_iff]
  norm_num

theorem SCHED_BIN_d_3_2_50_succ : SCHED_BIN_d (3 * 2 ^ 50 + 1) = 337769972052787328 := by
  unfold SCHED_BIN_d
  rw [double_round_eval 58 5277655813324802 (by norm_num) (by norm_num [abs_of_pos])
    (by norm_num [abs_of_pos]) (by norm_num [abs_lt])]
  unfold to_int64
  rw [if_pos (by norm_num), Int.floor_eq_iff]
  norm_num

theorem double_round_3_2_50_succ : double_round (3 * 2 ^ 50 + 1) = 3 * 2 ^ 50 + 1 := by
  rw [double_round_eval 51 6755399441055746 (by norm_num) (by norm_num [abs_of_pos])
    (by norm_num [abs_of_pos]) (by norm_num [abs_lt])]
  norm_num

/-- C18 (as stated, refuted): in `double` arithmetic, on the scheduler started
at the `double` 0.29 (cursor 28, the bin of the horizon) and for the target
1.29, the rounded sum `0.29 + 1` is not below the target, so the stepping loop
makes no sub-dispatch; the bin of the target is 129 and the final pass goes
over 101 bins after the cursor, not at most 100. And on the scheduler started
at `3 * 2^50`, for the target one second later, the loop makes no sub-dispatch
either and the bin of the target lies 128 after the cursor: the first and the
last bin of the pass address the same table cell. -/
theorem no_wrap_around_counterexample :
    (sched_029.last_time = double_round (29/100) ∧
      sched_029.last_bin = SCHED_BIN_d sched_029.last_time ∧
      sched_029.last_time ≤ double_round (129/100) ∧
      sched_dispatch_steps_d (sched_dispatch_bound_d sched_029 (double_round (129/100)))
        sched_029 (double_round (129/100)) = some (sched_029, []) ∧
      sched_029.last_bin = 28 ∧ SCHED_BIN_d (double_round (129/100)) = 129 ∧
      ¬ (SCHED_BIN_d (double_round (129/100)) - sched_029.last_bin ≤ 100)) ∧
    (is_double sched_3_2_50.last_time ∧ is_double (3 * 2 ^ 50 + 1) ∧
      sched_3_2_50.last_bin = SCHED_BIN_d sched_3_2_50.last_time ∧
      sched_3_2_50.last_time ≤ 3 * 2 ^ 50 + 1 ∧
      sched_dispatch_steps_d (sched_dispatch_bound_d sched_3_2_50 (3 * 2 ^ 50 + 1))
        sched_3_2_50 (3 * 2 ^ 50 + 1) = some (sched_3_2_50, []) ∧
      SCHED_BIN_d (3 * 2 ^ 50 + 1) - sched_3_2_50.last_bin = 128 ∧
      table_cell (SCHED_BIN_TO_INDEX sched_3_2_50.last_bin)
        = table_cell (SCHED_BIN_TO_INDEX (SCHED_BIN_d (3 * 2 ^ 50 + 1)))) := by
  have e1 : sched_029.last_time = 5224175567749775 / 18014398509481984 := double_round_029
  have e2 : sched_029.last_bin = 28 := by
    show SCHED_BIN_d (double_round (29/100)) = 28
    rw [double_round_029, SCHED_BIN_d_029]
  have e3 : sched_3_2_50.last_time = 3 * 2 ^ 50 := rfl
  have e4 : sched_3_2_50.last_bin = 337769972052787200 := SCHED_BIN_d_3_2_50
  refine ⟨⟨rfl, rfl, ?_, ?_, e2, ?_, ?_⟩, ?_, double_round_3_2_50_succ, rfl, ?_, ?_, ?_, ?_⟩
  · rw [e1, double_round_129]
    norm_num
  · unfold sched_dispatch_bound_d
    rw [sched_dispatch_steps_d, if_neg]
    rw [e1, double_round_029_succ, double_round_129]
    exact lt_irrefl _
  · rw [double_round_129, SCHED_BIN_d_129]
  · rw [double_round_129, SCHED_BIN_d_129, e2]
    norm_num
  · rw [e3]
    show double_round (3 * 2 ^ 50) = 3 * 2 ^ 50
    rw [double_round_eval 51 6755399441055744 (by norm_num) (by norm_num [abs_of_pos])
      (by norm_num [abs_of_pos]) (by norm_num [abs_lt])]
    norm_num
  · rw [e3]
    norm_num
  · unfold sched_dispatch_bound_d
    rw [sched_dispatch_steps_d, if_neg]
    rw [e3, double_round_3_2_50_succ]
    exact lt_irrefl _
  · rw [e4, SCHED_BIN_d_3_2_50_succ]
    norm_num
  · rw [e4, SCHED_BIN_d_3_2_50_succ]
    decide!

/-- C18 (amended): in `double` arithmetic, on a scheduler whose `last_bin` is
`SCHED_BIN(last_time)` and for a target `T >= last_time`, both of magnitude at
most `2^44`, the one-second stepping loop of `sched_dispatch(s, T)` finishes;
the final pass then scans the bins from `last_bin` to `SCHED_BIN(T)`, and
`SCHED_BIN(T) - last_bin` is between 0 and 101; so two different bin numbers of
the pass never address the same table cell. -/
theorem no_wrap_around (s : o2_sched) (T : ℚ)
    (hb : s.last_bin = SCHED_BIN_d s.last_time) (hT : s.last_time ≤ T)
    (hsb : |s.last_time| ≤ (2 : ℚ) ^ (44 : Int)) (hTb : |T| ≤ (2 : ℚ) ^ (44 : Int)) :
    ∃ r, sched_dispatch_steps_d (sched_dispatch_bound_d s T) s T = some r ∧
      sched_dispatch_d s T = some ((sched_dispatch_scan_d r.1 T).1,
        r.2.flatten ++ (sched_dispatch_scan_d r.1 T).2) ∧
      r.1.last_bin ≤ SCHED_BIN_d T ∧ SCHED_BIN_d T - r.1.last_bin ≤ 101 ∧
      ∀ b1 b2, r.1.last_bin ≤ b1 → b1 ≤ SCHED_BIN_d T → r.1.last_bin ≤ b2 → b2 ≤ SCHED_BIN_d T →
        table_cell (SCHED_BIN_TO_INDEX b1) = table_cell (SCHED_BIN_TO_INDEX b2) → b1 = b2 := by
  have hle : (2 : ℚ) ^ (44 : Int) ≤ (2 : ℚ) ^ (52 : Int) := by norm_num
  have hs52 := le_trans hsb hle
  have hT52 := le_trans hTb hle
  obtain ⟨r, h1, h2⟩ := sched_dispatch_steps_d_total s T hs52 hT52
  obtain ⟨a1, a2, _, a4, _⟩ := sched_dispatch_steps_d_props T hT52 _ s r h1 hs52
  have hr : s.last_time ≤ r.1.last_time ∧ r.1.last_time ≤ T := by
    rcases a2 with a2 | a2
    · rw [a2]; exact ⟨le_refl _, hT⟩
    · exact ⟨a2.2.1, le_of_lt a2.2.2⟩
  have hrb : |r.1.last_time| ≤ (2 : ℚ) ^ (44 : Int) := by
    have bs := abs_le.mp hsb
    have bT := abs_le.mp hTb
    rw [abs_le]
    constructor <;> linarith [bs.1, bT.2, hr.1, hr.2]
  have e := a4 hb
  have hlo : r.1.last_bin ≤ SCHED_BIN_d T := by rw [e]; exact SCHED_BIN_d_mono hr.2
  have hhi : SCHED_BIN_d T ≤ r.1.last_bin + 101 := by
    rw [e]; exact SCHED_BIN_d_step hrb hTb hr.2 a1
  refine ⟨r, h1, h2, hlo, by omega, ?_⟩
  intro b1 b2 l1 u1 l2 u2 hc
  exact bin_eq_of_cell_eq hc (by omega) (by omega)

/-- Witness for C18: a scheduler started at 0 and dispatched to 5/2. -/
theorem no_wrap_around_witness :
    ∃ r, sched_dispatch_steps_d
        (sched_dispatch_bound_d (o2_start_a_scheduler_d blank_sched 0) (5/2))
        (o2_start_a_scheduler_d blank_sched 0) (5/2) = some r ∧
      r.1.last_bin ≤ SCHED_BIN_d (5/2) ∧ SCHED_BIN_d (5/2) - r.1.last_bin ≤ 101 := by
  obtain ⟨r, h1, _, h3, h4, _⟩ :=
    no_wrap_around (o2_start_a_scheduler_d blank_sched 0) (5/2) rfl
      (by show (0 : ℚ) ≤ 5/2; norm_num)
      (by show |(0 : ℚ)| ≤ _; norm_num) (by norm_num [abs_of_pos])
  exact ⟨r, h1, h3, h4⟩

/-- C19 (as stated, refuted): in `double` arithmetic the sum `2^53 + 1` rounds
to `2^53`. On the scheduler started at `2^53` a call `sched_dispatch(s, 2^53 + 4)`
(both times are `double` values, four seconds apart) does not return, however
large the bound: every sub-dispatch has the target `2^53` and the loop test
`last_time + 1 < run_until_time` stays true. -/
theorem bounded_stepping_counterexample :
    is_double sched_2_53.last_time ∧ is_double (2 ^ 53 + 4) ∧
    (2 ^ 53 + 4 : ℚ) - sched_2_53.last_time = 4 ∧
    double_round (sched_2_53.last_time + 1) = sched_2_53.last_time ∧
    ¬ ∃ fuel r, sched_dispatch_fuel_d fuel sched_2_53 (2 ^ 53 + 4) = some r := by
  have e : sched_2_53.last_time = 2 ^ 53 := rfl
  refine ⟨?_, double_round_two_pow_53_add_four, ?_, ?_, ?_⟩
  · rw [e]; exact double_round_two_pow_53
  · rw [e]; ring
  · rw [e]; exact double_round_two_pow_53_succ
  · rintro ⟨fuel, r, hr⟩
    rw [sched_dispatch_fuel_d_stuck (2 ^ 53 + 4) fuel sched_2_53
      (by rw [e]; exact double_round_two_pow_53_succ) (by rw [e]; norm_num)] at hr
    simp at hr

/-- C19 (amended): in `double` arithmetic, for every scheduler state and every
target `T`, `last_time` and `T` being `double` values of magnitude at most
`2^52`, `sched_dispatch(s, T)` returns; its stepping loop makes no sub-dispatch
when `T - last_time <= 1` and fewer than `T - last_time` sub-dispatches
otherwise; and a sub-dispatch (a call whose target is the rounded sum
`last_time + 1`) makes no sub-dispatch itself, so that the nesting of calls is
at most one deep. -/
theorem bounded_stepping (s : o2_sched) (T : ℚ)
    (hs : is_double s.last_time) (hT : is_double T)
    (hsb : |s.last_time| ≤ (2 : ℚ) ^ (52 : Int)) (hTb : |T| ≤ (2 : ℚ) ^ (52 : Int)) :
    ∃ r, sched_dispatch_steps_d (sched_dispatch_bound_d s T) s T = some r ∧
      sched_dispatch_d s T = some ((sched_dispatch_scan_d r.1 T).1,
        r.2.flatten ++ (sched_dispatch_scan_d r.1 T).2) ∧
      (T - s.last_time ≤ 1 → r.2.length = 0) ∧
      (1 < T - s.last_time → (r.2.length : ℚ) < T - s.last_time) ∧
      ∀ (n : Nat) (s1 : o2_sched),
        sched_dispatch_steps_d (n + 1) s1 (double_round (s1.last_time + 1)) = some (s1, []) ∧
        sched_dispatch_fuel_d (n + 1) s1 (double_round (s1.last_time + 1))
          = some (sched_dispatch_scan_d s1 (double_round (s1.last_time + 1))) := by
  obtain ⟨r, h1, h2⟩ := sched_dispatch_steps_d_total s T hsb hTb
  obtain ⟨_, a2, _, _, a5⟩ := sched_dispatch_steps_d_props T hTb _ s r h1 hsb
  have key : r.2.length = 0 ∨ (r.2.length : ℚ) < T - s.last_time := by
    rcases a2 with a2 | a2
    · left; rw [a2]; rfl
    · right
      by_contra hc
      have := a5 hs T hT hTb (by linarith [not_lt.mp hc])
      linarith [a2.2.2]
  refine ⟨r, h1, h2, ?_, ?_, sub_dispatch_no_recursion_d⟩
  · intro hle
    rcases key with k | k
    · exact k
    · by_contra hne
      have hpos : (1 : ℚ) ≤ (r.2.length : ℚ) := by
        exact_mod_cast Nat.one_le_iff_ne_zero.mpr hne
      linarith
  · intro hgt
    rcases key with k | k
    · rw [k]
      push_cast
      linarith
    · exact k

/-- Witness for C19: a scheduler started at 0 and dispatched to 5/2. -/
theorem bounded_stepping_witness :
    ∃ r, sched_dispatch_steps_d
        (sched_dispatch_bound_d (o2_start_a_scheduler_d blank_sched 0) (5/2))
        (o2_start_a_scheduler_d blank_sched 0) (5/2) = some r ∧
      ((1 : ℚ) < 5/2 - 0 → (r.2.length : ℚ) < 5/2 - 0) := by
  obtain ⟨r, h1, _, _, h4, _⟩ :=
    bounded_stepping (o2_start_a_scheduler_d blank_sched 0) (5/2)
      double_round_zero double_round_five_halves
      (by show |(0 : ℚ)| ≤ _; norm_num) (by norm_num [abs_of_pos])
  exact ⟨r, h1, h4⟩
